import Mathlib

/-!
# Tensor contraction kernels of Boost.uBLAS (tensor extension)

A shallow embedding of `contraction.hpp` (the kernels `detail::ttv`, `detail::ttv0`,
`detail::mtv`, `detail::ttm`, `detail::ttm0` and the public `ttv`, `ttm`) and of the
wrappers `prod` of `functions.hpp`, followed by theorems about them.

Conventions of the embedding.

* A data pointer is an element offset (`Nat`) into a memory `Mem`; the output, the
  first input and the second input live in three separate memories `C`, `A`, `B`
  (the kernels never write through an input pointer).  Data memory is unbounded.
* `nullptr` is `none`.
* The arrays of extents and strides (`size_t const*`) are lists, so that their length is
  part of the input.  Reading such an array past its end is undefined behaviour in the
  source; the embedding makes it explicit: kernels return `none`, the public functions
  return `Outcome.undefined`.
* `size_t` values are natural numbers.  Every subtraction of the source that is guarded
  (`m-1` after `m == 0` was rejected, `r-1` for `r > 0`, `p-2` for `p > 2`) is the
  truncated subtraction; the one unguarded decrement (`q-1` in `detail::ttv`) is
  `size_pred`, which wraps.
* The value type is `Int` (the source is generic in it).
* The containers (`tensor`, `matrix`, `vector`, their extents and strides) are not among
  the sources; the wrappers `prod` are embedded over a model of them that follows the
  specification.  A checked access `.at(i)` past the end is `Failure.out_of_range`, an
  unchecked one `Failure.undefined`.

The proofs describe a kernel as a loop nest (`nestD`): each kernel is shown to add the
contribution of its nest to the output memory (`Adds`), and the contribution of a nest at
the offset of a multi-index is computed once (`nestD_target`, `nestD_frame`).
-/

namespace ublas

open Finset

/-- Data memory seen from a base address: the value stored at each element offset. -/
abbrev Mem := Nat → Int

/-- Store `v` at offset `x`. -/
def Mem.write (C : Mem) (x : Nat) (v : Int) : Mem :=
  fun y => if y = x then v else C y

/-- Decrement of a `size_t` (64 bit): wraps at zero. -/
def size_pred (x : Nat) : Nat :=
  if x = 0 then 2 ^ 64 - 1 else x - 1

/-- The loop `for (i = 0; i < n; p1 += d1, p2 += d2, ++i) body(p1, p2)` for a known
trip count `n`.  The two increments are the results of reading a stride (`none` when the
read is past the end of the array); they are evaluated after each run of the body. -/
def cforN (d1 d2 : Option Nat) (body : Nat → Nat → Mem → Option Mem) :
    Nat → Nat → Nat → Mem → Option Mem
  | 0, _, _, C => some C
  | n + 1, p1, p2, C =>
    (body p1 p2 C).bind fun C1 =>
      d1.bind fun s1 =>
        d2.bind fun s2 =>
          cforN d1 d2 body n (p1 + s1) (p2 + s2) C1

/-- The loop `for (i = 0; i < bound; p1 += d1, p2 += d2, ++i) body(p1, p2)`, where
`bound` is the result of reading an extent. -/
def cfor (bound d1 d2 : Option Nat) (body : Nat → Nat → Mem → Option Mem)
    (p1 p2 : Nat) (C : Mem) : Option Mem :=
  bound.bind fun n => cforN d1 d2 body n p1 p2 C

/-- The statement `*c += *a * *b`. -/
def fma (A B : Mem) (c a b : Nat) (C : Mem) : Mem :=
  C.write c (C c + A a * B b)

namespace detail

/-- Kernel `detail::ttv(m, r, q, c, nc, wc, a, na, wa, b)`: tensor times vector for a
zero-based contraction mode `m > 0`.

For `r == m == 0` the source calls itself with `r - 1`, which wraps to the largest
`size_t`; that call reads `na[r]` past the end of every array, hence `none`. -/
def ttv (m r q c : Nat) (nc wc : List Nat) (a : Nat) (na wa : List Nat) (b : Nat)
    (A B C : Mem) : Option Mem :=
  match r with
  | 0 =>
    if 0 = m then none
    else
      cfor na[0]? wc[0]? wa[0]? (fun c a C =>
        cfor na[m]? wa[m]? (some 1) (fun a1 b1 C => some (fma A B c a1 b1 C)) a b C) c a C
  | r + 1 =>
    if r + 1 = m then ttv m r q c nc wc a na wa b A B C
    else
      cfor na[r + 1]? wc[q]? wa[r + 1]? (fun c a C =>
        ttv m r (size_pred q) c nc wc a na wa b A B C) c a C

/-- Kernel `detail::ttv0(r, c, nc, wc, a, na, wa, b)`: tensor times vector for the
contraction mode zero. -/
def ttv0 (r c : Nat) (nc wc : List Nat) (a : Nat) (na wa : List Nat) (b : Nat)
    (A B C : Mem) : Option Mem :=
  match r with
  | r + 2 =>
    cfor na[r + 2]? wc[r + 1]? wa[r + 2]? (fun c a C =>
      ttv0 (r + 1) c nc wc a na wa b A B C) c a C
  | _ =>
    cfor na[1]? wc[0]? wa[1]? (fun c a C =>
      cfor na[0]? wa[0]? (some 1) (fun a1 b1 C => some (fma A B c a1 b1 C)) a b C) c a C

/-- Kernel `detail::mtv(m, c, nc, wc, a, na, wa, b)`: matrix times vector or vector times
matrix; the extents of the output are not used. -/
def mtv (m c : Nat) (_nc wc : List Nat) (a : Nat) (na wa : List Nat) (b : Nat)
    (A B C : Mem) : Option Mem :=
  let o := if m = 0 then 1 else 0
  cfor na[o]? wc[o]? wa[o]? (fun c a C =>
    cfor na[m]? wa[m]? (some 1) (fun a1 b1 C => some (fma A B c a1 b1 C)) a b C) c a C

/-- Kernel `detail::ttm(m, r, c, nc, wc, a, na, wa, b, nb, wb)`: tensor times matrix for
a zero-based contraction mode `m > 0`.  As in `ttv`, `r == m == 0` leads to a read past
the end of `na`. -/
def ttm (m r c : Nat) (nc wc : List Nat) (a : Nat) (na wa : List Nat) (b : Nat)
    (nb wb : List Nat) (A B C : Mem) : Option Mem :=
  match r with
  | 0 =>
    if 0 = m then none
    else
      cfor nc[0]? wc[0]? wa[0]? (fun c a C =>
        cfor nc[m]? wc[m]? wb[0]? (fun cm b0 C =>
          cfor nb[1]? wa[m]? wb[1]? (fun am b1 C => some (fma A B cm am b1 C)) a b0 C)
          c b C) c a C
  | r + 1 =>
    if r + 1 = m then ttm m r c nc wc a na wa b nb wb A B C
    else
      cfor na[r + 1]? wc[r + 1]? wa[r + 1]? (fun c a C =>
        ttm m r c nc wc a na wa b nb wb A B C) c a C

/-- Kernel `detail::ttm0(r, c, nc, wc, a, na, wa, b, nb, wb)`: tensor times matrix for
the contraction mode zero. -/
def ttm0 (r c : Nat) (nc wc : List Nat) (a : Nat) (na wa : List Nat) (b : Nat)
    (nb wb : List Nat) (A B C : Mem) : Option Mem :=
  match r with
  | r + 2 =>
    cfor na[r + 2]? wc[r + 2]? wa[r + 2]? (fun c a C =>
      ttm0 (r + 1) c nc wc a na wa b nb wb A B C) c a C
  | _ =>
    cfor nc[1]? wc[1]? wa[1]? (fun c a C =>
      cfor nc[0]? wc[0]? wb[0]? (fun cm b0 C =>
        cfor nb[1]? wa[0]? wb[1]? (fun am b1 C => some (fma A B cm am b1 C)) a b0 C)
        c b C) c a C

end detail

/-- What a call of a public kernel function does. -/
inductive Outcome where
  /-- Normal return; `C` is the output memory after the call. -/
  | returned (C : Mem)
  /-- A `std::length_error` with message `what` was thrown; `C` is the output memory at
  the throw. -/
  | raised (what : String) (C : Mem)
  /-- An extents or strides array was read past its end. -/
  | undefined

/-- Outcome of running a kernel. -/
def Outcome.ofKernel : Option Mem → Outcome
  | some C => Outcome.returned C
  | none => Outcome.undefined

/-- The loop `for (i = first; i < first + count; ++i) if (na[i] != nc[i - shift]) throw`:
`some true` when it throws, `some false` when it runs to its end, `none` when it reads
past the end of an array. -/
def extents_differ (na nc : List Nat) (shift : Nat) : Nat → Nat → Option Bool
  | 0, _ => some false
  | count + 1, i =>
    match na[i]?, nc[i - shift]? with
    | some x, some y => if x ≠ y then some true else extents_differ na nc shift count (i + 1)
    | _, _ => none

/-- Public `ttv(m, p, c, nc, wc, a, na, wa, b, nb, wb)`: checks, then dispatch to one of
the three kernels.  The strides of `b` are not used. -/
def ttv (m p : Nat) (c : Option Nat) (nc wc : List Nat) (a : Option Nat) (na wa : List Nat)
    (b : Option Nat) (nb _wb : List Nat) (A B C : Mem) : Outcome :=
  if m = 0 then
    Outcome.raised "Error in boost::numeric::ublas::tensor_times_vector: Contraction mode must be greater than zero." C
  else if p < m then
    Outcome.raised "Error in boost::numeric::ublas::tensor_times_vector: Rank must be greater equal the modus." C
  else if p = 0 then
    Outcome.raised "Error in boost::numeric::ublas::tensor_times_vector: Rank must be greater than zero." C
  else
    match c, a, b with
    | some c, some a, some b =>
      match extents_differ na nc 0 (m - 1) 0 with
      | none => Outcome.undefined
      | some true =>
        Outcome.raised "Error in boost::numeric::ublas::tensor_times_vector: Extents (except of dimension mode) of A and C must be equal." C
      | some false =>
        match extents_differ na nc 1 (p - m) m with
        | none => Outcome.undefined
        | some true =>
          Outcome.raised "Error in boost::numeric::ublas::tensor_times_vector: Extents (except of dimension mode) of A and C must be equal." C
        | some false =>
          match nb[0]?, nb[1]?, na[m - 1]? with
          | some nb0, some nb1, some nam =>
            if nam ≠ max nb0 nb1 then
              Outcome.raised "Error in boost::numeric::ublas::tensor_times_vector: Extent of dimension mode of A and b must be equal." C
            else if m ≠ 1 ∧ p > 2 then
              Outcome.ofKernel (detail.ttv (m - 1) (p - 1) (p - 2) c nc wc a na wa b A B C)
            else if m = 1 ∧ p > 2 then
              Outcome.ofKernel (detail.ttv0 (p - 1) c nc wc a na wa b A B C)
            else
              Outcome.ofKernel (detail.mtv (m - 1) c nc wc a na wa b A B C)
          | _, _, _ => Outcome.undefined
    | _, _, _ =>
      Outcome.raised "Error in boost::numeric::ublas::tensor_times_vector: Pointers shall not be null pointers." C

/-- Public `ttm(m, p, c, nc, wc, a, na, wa, b, nb, wb)`: checks, then dispatch to one of
the two kernels. -/
def ttm (m p : Nat) (c : Option Nat) (nc wc : List Nat) (a : Option Nat) (na wa : List Nat)
    (b : Option Nat) (nb wb : List Nat) (A B C : Mem) : Outcome :=
  if m = 0 then
    Outcome.raised "Error in boost::numeric::ublas::tensor_times_matrix: Contraction mode must be greater than zero." C
  else if p < m then
    Outcome.raised "Error in boost::numeric::ublas::tensor_times_matrix: Rank must be greater equal than the specified mode." C
  else if p = 0 then
    Outcome.raised "Error in boost::numeric::ublas::tensor_times_matrix:Rank must be greater than zero." C
  else
    match c, a, b with
    | some c, some a, some b =>
      match extents_differ na nc 0 (m - 1) 0 with
      | none => Outcome.undefined
      | some true =>
        Outcome.raised "Error in boost::numeric::ublas::tensor_times_matrix: Extents (except of dimension mode) of A and C must be equal." C
      | some false =>
        match extents_differ na nc 0 (p - m) m with
        | none => Outcome.undefined
        | some true =>
          Outcome.raised "Error in boost::numeric::ublas::tensor_times_matrix: Extents (except of dimension mode) of A and C must be equal." C
        | some false =>
          match na[m - 1]?, nb[1]? with
          | some nam, some nb1 =>
            if nam ≠ nb1 then
              Outcome.raised "Error in boost::numeric::ublas::tensor_times_matrix: 2nd Extent of B and M-th Extent of A must be the equal." C
            else
              match nc[m - 1]?, nb[0]? with
              | some ncm, some nb0 =>
                if ncm ≠ nb0 then
                  Outcome.raised "Error in boost::numeric::ublas::tensor_times_matrix: 1nd Extent of B and M-th Extent of C must be the equal." C
                else if m ≠ 1 then
                  Outcome.ofKernel (detail.ttm (m - 1) (p - 1) c nc wc a na wa b nb wb A B C)
                else
                  Outcome.ofKernel (detail.ttm0 (p - 1) c nc wc a na wa b nb wb A B C)
              | _, _ => Outcome.undefined
          | _, _ => Outcome.undefined
    | _, _, _ =>
      Outcome.raised "Error in boost::numeric::ublas::tensor_times_matrix: Pointers shall not be null pointers." C

/-- A statement adds `D` to the output memory: whatever the memory before, it ends
normally and has changed every cell `x` by `D x`. -/
def Adds (f : Mem → Option Mem) (D : Nat → Int) : Prop :=
  ∀ C, ∃ C1, f C = some C1 ∧ ∀ x, C1 x = C x + D x

/-- What a nest of `L` loops adds to the cell `x`.  Level `l` runs `n l` times and
advances the three pointers by `sc l`, `sa l`, `sb l`; the innermost statement adds
`v a b` to the cell `c`.  Level `L - 1` is the outermost loop. -/
def nestD (n sc sa sb : Nat → Nat) (v : Nat → Nat → Int) : Nat → Nat → Nat → Nat → Nat → Int
  | 0, c, a, b, x => if x = c then v a b else 0
  | L + 1, c, a, b, x =>
    ∑ i in range (n L), nestD n sc sa sb v L (c + sc L * i) (a + sa L * i) (b + sb L * i) x

/-- The sum `Σ_{l < L} w l * e l`. -/
def lsum (w e : Nat → Nat) (L : Nat) : Nat :=
  ∑ l in range L, w l * e l

/-- The contraction `Σ_{k < n} A[a + s k] * B[b + t k]`. -/
def dot (A B : Mem) (n s t a b : Nat) : Int :=
  ∑ k in range n, A (a + s * k) * B (b + t * k)

/-- The offsets `Σ_{l<L} sc l * e l` are pairwise distinct on the box of the nest. -/
def LevelInj (n sc : Nat → Nat) (L : Nat) : Prop :=
  ∀ e1 e2 : Nat → Nat, (∀ l, l < L → e1 l < n l) → (∀ l, l < L → e2 l < n l) →
    lsum sc e1 L = lsum sc e2 L → ∀ l, l < L → e1 l = e2 l

/-- The axis of `A` that level `l` of the nest of `detail::ttv` (zero-based mode `m`) and
of `detail::ttv0` (`m = 0`) runs over: the axes of `A` without axis `m`, in order. -/
def ttv_axis (m l : Nat) : Nat :=
  if l < m then l else l + 1

/-- Number of loop levels that `detail::ttv` runs from recursion level `r`. -/
def ttv_levels (m r : Nat) : Nat :=
  if r < m then r + 1 else r

/-- The value of `q` that goes with the recursion level `r` in `detail::ttv`. -/
def ttv_q (m r : Nat) : Nat :=
  if r < m then r else r - 1

/-- The offset `Σ_{j<p} w[j] * i j` of the multi-index `i` under the strides `w`. -/
def offset (w : List Nat) (p : Nat) (i : Nat → Nat) : Nat :=
  ∑ j in range p, w.getD j 0 * i j

/-- The multi-index `i` lies within the extents `n` of rank `p`. -/
def InBox (n : List Nat) (p : Nat) (i : Nat → Nat) : Prop :=
  ∀ j, j < p → i j < n.getD j 0

/-- Distinct multi-indices within the extents `n` have distinct offsets under `w`. -/
def DistinctOffsets (w n : List Nat) (p : Nat) : Prop :=
  ∀ i1 i2 : Nat → Nat, InBox n p i1 → InBox n p i2 →
    offset w p i1 = offset w p i2 → ∀ j, j < p → i1 j = i2 j

/-- The axis of `C` that level `l` of the nest of `detail::ttm` (zero-based mode `m`) and
of `detail::ttm0` (`m = 0`) runs over: level 0 is the loop over the new axis `m` of `C`,
the levels above it run over the other axes in order. -/
def ttm_axis (m l : Nat) : Nat :=
  if l = 0 then m else if l ≤ m then l - 1 else l

/-- The level of the nest of `detail::ttm` that runs over the axis `j`. -/
def ttm_level (m j : Nat) : Nat :=
  if j = m then 0 else if j < m then j + 1 else j

/-- Number of loop levels that `detail::ttm` runs from recursion level `r`. -/
def ttm_levels (m r : Nat) : Nat :=
  if r < m then r + 2 else r + 1

/-- Trip count of level `l` of the nest of `detail::ttm`: the two innermost loops are
bounded by extents of `C`, the others by extents of `A`. -/
def ttm_n (m : Nat) (nc na : List Nat) (l : Nat) : Nat :=
  (if l < 2 then nc else na).getD (ttm_axis m l) 0

/-- Step of the output pointer at level `l` of the nest of `detail::ttm`. -/
def ttm_sc (m : Nat) (wc : List Nat) (l : Nat) : Nat :=
  wc.getD (ttm_axis m l) 0

/-- Step of the pointer into `A` at level `l` of the nest of `detail::ttm`. -/
def ttm_sa (m : Nat) (wa : List Nat) (l : Nat) : Nat :=
  if l = 0 then 0 else wa.getD (ttm_axis m l) 0

/-- Step of the pointer into `B` at level `l` of the nest of `detail::ttm`. -/
def ttm_sb (wb : List Nat) (l : Nat) : Nat :=
  if l = 0 then wb.getD 0 0 else 0

/-- Modelled from the spec: the storage format of the containers, `first_order` (the
first index runs fastest) or `last_order` (the last index runs fastest); the tags are
declared outside the sources. -/
inductive Layout where
  | first_order
  | last_order

/-- Modelled from the spec: the strides of the first-order layout for the extents `n`
(strides.hpp is not among the sources): the first index runs fastest, so `w[0] = 1` and
`w[k] = w[k-1] * n[k-1]`.  The argument `w` is the stride of the first axis. -/
def first_order_strides : Nat → List Nat → List Nat
  | _, [] => []
  | w, n :: ns => w :: first_order_strides (w * n) ns

/-- Modelled from the spec: the strides of the last-order layout for the extents `n`
(strides.hpp is not among the sources): the last index runs fastest, so `w[p-1] = 1` and
`w[k] = w[k+1] * n[k+1]`. -/
def last_order_strides : List Nat → List Nat
  | [] => []
  | _ :: ns => ns.prod :: last_order_strides ns

/-- Modelled from the spec: the strides that a container computes from its extents
(strides.hpp is not among the sources): both strides are 1 for extents of the form
`{k,1}` or `{1,k}`, otherwise they follow the layout. -/
def strides (F : Layout) (n : List Nat) : List Nat :=
  if n.length = 2 ∧ (n.getD 0 0 = 1 ∨ n.getD 1 0 = 1) then [1, 1]
  else
    match F with
    | Layout.first_order => first_order_strides 1 n
    | Layout.last_order => last_order_strides n

/-- The strides `w` address the index space of the extents `n` one to one onto the
offsets below the number of elements. -/
def Addresses (w n : List Nat) : Prop :=
  (∀ i, InBox n n.length i → offset w n.length i < n.prod) ∧
  DistinctOffsets w n n.length ∧
  (∀ x, x < n.prod → ∃ i, InBox n n.length i ∧ offset w n.length i = x)

/-- The multi-index `i0, i 0, i 1, ...`. -/
def consIdx (i0 : Nat) (i : Nat → Nat) : Nat → Nat
  | 0 => i0
  | j + 1 => i j

/-- How a wrapper of `functions.hpp` can fail. -/
inductive Failure where
  /-- A `std::length_error` with message `what`. -/
  | length_error (what : String)
  /-- A `std::out_of_range`, thrown by a checked access `.at(i)`. -/
  | out_of_range
  /-- An unchecked access past the end of an array. -/
  | undefined

/-- Modelled from the spec: the tensor container (tensor.hpp is not among the sources):
its extents, the strides computed from them, and its elements in storage order. -/
structure Tensor where
  /-- Sizes of the axes. -/
  extents : List Nat
  /-- Steps in memory of the axes. -/
  strides : List Nat
  /-- Elements in storage order. -/
  data : List Int

/-- Modelled from the spec: `tensor_type(extents, value)`, the container of the given
extents with `product(extents)` elements, all equal to `value`, and the strides of the
layout `F`. -/
def Tensor.filled (F : Layout) (n : List Nat) (v : Int) : Tensor :=
  { extents := n, strides := ublas.strides F n, data := List.replicate n.prod v }

/-- Modelled from the spec: `rank()`, the number of extents. -/
def Tensor.rank (t : Tensor) : Nat :=
  t.extents.length

/-- Modelled from the spec: `empty()`, whether the container has no element. -/
def Tensor.empty (t : Tensor) : Bool :=
  t.data.isEmpty

/-- Modelled from the spec: the matrix container (matrix.hpp is not among the sources):
its two sizes and its elements in storage order. -/
structure Matrix where
  /-- Number of rows. -/
  size1 : Nat
  /-- Number of columns. -/
  size2 : Nat
  /-- Elements in storage order. -/
  data : List Int

/-- Modelled from the spec: `matrix_type(size1, size2, value)`, the matrix with
`size1 * size2` elements, all equal to `value`. -/
def Matrix.filled (r s : Nat) (v : Int) : Matrix :=
  { size1 := r, size2 := s, data := List.replicate (r * s) v }

/-- Modelled from the spec: the memory behind the pointer `data()` of a container (the
containers are not among the sources); the cells past the last element are not part of
the container and read as 0 here. -/
def view (d : List Int) : Mem :=
  fun x => d.getD x 0

/-- Modelled from the spec: the pointer `data()` of a container (the containers are not
among the sources), a non-owning address of its first element; it is taken to be null
for a container without elements. -/
def data_ptr (d : List Int) : Option Nat :=
  if d.isEmpty then none else some 0

/-- The loop `for (i = 0, j = 0; i < p; ++i) if (i != m-1) nc[j++] = a.extents().at(i)`
of `prod(tensor, vector, m)`, from the state `(i, j, nc)` with `count` iterations left. -/
def prod_nc (na : List Nat) (m : Nat) : Nat → Nat → Nat → List Nat → Except Failure (List Nat)
  | 0, _, _, nc => Except.ok nc
  | count + 1, i, j, nc =>
    if i ≠ m - 1 then
      match na[i]? with
      | none => Except.error Failure.out_of_range
      | some x =>
        if j < nc.length then prod_nc na m count (i + 1) (j + 1) (nc.set j x)
        else Except.error Failure.undefined
    else prod_nc na m count (i + 1) j nc

/-- The tensor that a wrapper returns after its kernel call: the output container with
the memory the kernel left, or the failure of the call. -/
def collect (c : Tensor) : Outcome → Except Failure Tensor
  | Outcome.returned C1 => Except.ok { c with data := (List.range c.data.length).map C1 }
  | Outcome.raised what _ => Except.error (Failure.length_error what)
  | Outcome.undefined => Except.error Failure.undefined

/-- Wrapper `prod(tensor a, vector b, m)` of functions.hpp for the layout `F` of `a`. -/
def prod_vector (F : Layout) (a : Tensor) (b : List Int) (m : Nat) : Except Failure Tensor :=
  let p := a.rank
  if m = 0 then
    Except.error (Failure.length_error "Error in boost::numeric::ublas::prod: Contraction mode must be greater than zero.")
  else if p < m then
    Except.error (Failure.length_error "Error in boost::numeric::ublas::prod: Rank must be greater equal the modus.")
  else if p = 0 then
    Except.error (Failure.length_error "Error in boost::numeric::ublas::prod: Rank must be greater than zero.")
  else if a.empty then
    Except.error (Failure.length_error "Error in boost::numeric::ublas::prod: tensor should not be empty.")
  else if b.length = 0 then
    Except.error (Failure.length_error "Error in boost::numeric::ublas::prod: vector should not be empty.")
  else
    let nb := [b.length, 1]
    match prod_nc a.extents m p 0 0 (List.replicate (max (p - 1) 2) 1) with
    | Except.error e => Except.error e
    | Except.ok nc =>
      let c := Tensor.filled F nc 0
      collect c (ttv m p (data_ptr c.data) c.extents c.strides (data_ptr a.data) a.extents
        a.strides (some 0) nb nb (view a.data) (view b) (view c.data))

/-- Wrapper `prod(tensor a, matrix b, m)` of functions.hpp for the layout `F` of `a` and
`b`. -/
def prod_matrix (F : Layout) (a : Tensor) (b : Matrix) (m : Nat) : Except Failure Tensor :=
  let p := a.rank
  if m = 0 then
    Except.error (Failure.length_error "Error in boost::numeric::ublas::prod: Contraction mode must be greater than zero.")
  else if p < m ∨ m > a.extents.length then
    Except.error (Failure.length_error "Error in boost::numeric::ublas::prod: Rank must be greater equal the modus.")
  else if p = 0 then
    Except.error (Failure.length_error "Error in boost::numeric::ublas::prod: Rank must be greater than zero.")
  else if a.empty then
    Except.error (Failure.length_error "Error in boost::numeric::ublas::prod: tensor should not be empty.")
  else if b.size1 * b.size2 = 0 then
    Except.error (Failure.length_error "Error in boost::numeric::ublas::prod: matrix should not be empty.")
  else
    let nb := [b.size1, b.size2]
    let wb := strides F nb
    if m - 1 < a.extents.length then
      let nc := a.extents.set (m - 1) b.size1
      let c := Tensor.filled F nc 0
      collect c (ttm m p (data_ptr c.data) c.extents c.strides (data_ptr a.data) a.extents
        a.strides (some 0) nb wb (view a.data) (view b.data) (view c.data))
    else Except.error Failure.undefined

/-- The loop `for (i = 0; i < count; ++i) nc.at(off + i) = src.at(i)` of `outer_prod`,
from the state `(i, nc)` with `count` iterations left; a checked access past the end
throws `std::out_of_range`. -/
def copy_extents (src : List Nat) (off : Nat) : Nat → Nat → List Nat → Except Failure (List Nat)
  | 0, _, nc => Except.ok nc
  | count + 1, i, nc =>
    match src[i]? with
    | none => Except.error Failure.out_of_range
    | some x =>
      if off + i < nc.length then copy_extents src off count (i + 1) (nc.set (off + i) x)
      else Except.error Failure.out_of_range

/-- The extents that `outer_prod(a, b)` builds for its result: the check that neither
tensor is empty, the array of `a.rank() + b.rank()` zeros and the two loops that fill
it. -/
def outer_prod_extents (a b : Tensor) : Except Failure (List Nat) :=
  if a.empty || b.empty then
    Except.error (Failure.length_error "Error in boost::numeric::ublas::outer_prod: tensors should not be empty.")
  else
    match copy_extents a.extents 0 a.rank 0 (List.replicate (a.rank + b.rank) 0) with
    | Except.error e => Except.error e
    | Except.ok nc => copy_extents b.extents a.rank b.rank 0 nc

/-- Wrapper `outer_prod(a, b)` of functions.hpp for the layout `F`.  The kernel `outer` is
not among the sources; it is the parameter `outer`, which gets the output container and
the two inputs and gives the elements it leaves in the output. -/
def outer_prod (F : Layout) (outer : Tensor → Tensor → Tensor → Except Failure (List Int))
    (a b : Tensor) : Except Failure Tensor :=
  match outer_prod_extents a b with
  | Except.error e => Except.error e
  | Except.ok nc =>
    let c := Tensor.filled F nc 0
    match outer c a b with
    | Except.error e => Except.error e
    | Except.ok d => Except.ok { c with data := d }

/-- The loop `for (i = 0; i < p; ++i) nc.at(tau.at(i) - 1) = na.at(i)` of `trans`, from
the state `(i, nc)` with `count` iterations left.  The subtraction is the one of `size_t`
and wraps for `tau[i] = 0`; a checked access past the end throws `std::out_of_range`. -/
def trans_nc (na tau : List Nat) : Nat → Nat → List Nat → Except Failure (List Nat)
  | 0, _, nc => Except.ok nc
  | count + 1, i, nc =>
    match na[i]?, tau[i]? with
    | some x, some t =>
      if size_pred t < nc.length then trans_nc na tau count (i + 1) (nc.set (size_pred t) x)
      else Except.error Failure.out_of_range
    | _, _ => Except.error Failure.out_of_range

/-- The extents that `trans` computes for its result from the extents `na` of its
argument and the tuple `tau`: the array of `p` zeros and the loop that fills it. -/
def trans_extents (na tau : List Nat) : Except Failure (List Nat) :=
  trans_nc na tau na.length 0 (List.replicate na.length 0)

/-- Wrapper `trans(a, tau)` of functions.hpp for the layout `F`.  The kernel `trans` is
not among the sources; it is the parameter `kernel`, which gets the output container,
the input and `tau` and gives the elements it leaves in the output. -/
def trans (F : Layout) (kernel : Tensor → Tensor → List Nat → Except Failure (List Int))
    (a : Tensor) (tau : List Nat) : Except Failure Tensor :=
  if a.empty then
    Except.error (Failure.length_error "Error in boost::numeric::ublas::trans: tensor should not be empty.")
  else
    match trans_extents a.extents tau with
    | Except.error e => Except.error e
    | Except.ok nc =>
      let c := Tensor.filled F nc 0
      match kernel c a tau with
      | Except.error e => Except.error e
      | Except.ok d => Except.ok { c with data := d }

/-- The loop `for (j = 0; j < pi.size(); ++j) pi_inv[pi[j] - 1] = j + 1` of the lambda
`inverse` of test_functions.cpp, from the state `(j, pi_inv)` with `count` iterations
left; the accesses are unchecked, `none` is an access past the end. -/
def inverse_loop (pi : List Nat) : Nat → Nat → List Nat → Option (List Nat)
  | 0, _, pi_inv => some pi_inv
  | count + 1, j, pi_inv =>
    match pi[j]? with
    | none => none
    | some t =>
      if size_pred t < pi_inv.length then
        inverse_loop pi count (j + 1) (pi_inv.set (size_pred t) (j + 1))
      else none

/-- The lambda `inverse` of test_functions.cpp: a copy of `pi`, overwritten by the
loop. -/
def inverse (pi : List Nat) : Option (List Nat) :=
  inverse_loop pi pi.length 0 pi

/-- The tuple `tau` is a bijection on `{1, ..., p}`: it has `p` entries, each between 1
and `p`, no two equal. -/
def IsPermutation (tau : List Nat) (p : Nat) : Prop :=
  tau.length = p ∧ (∀ i, i < p → 1 ≤ tau.getD i 0 ∧ tau.getD i 0 ≤ p) ∧
    ∀ i, i < p → ∀ j, j < p → tau.getD i 0 = tau.getD j 0 → i = j

/-- The writes `nc[idx t] = val t` for `t = i, ..., i + count - 1`, in this order. -/
def scatterN (idx val : Nat → Nat) : Nat → Nat → List Nat → List Nat
  | 0, _, nc => nc
  | count + 1, i, nc => scatterN idx val count (i + 1) (nc.set (idx i) (val i))

/-- The arguments `(r, q)` of the recursive call in the body of `detail::ttv` entered
with `(m, r, q)`, in `size_t` arithmetic; `none` in the base case `r == 0`. -/
def ttv_callee (m : Nat) (s : Nat × Nat) : Option (Nat × Nat) :=
  if s.1 = m then some (size_pred s.1, s.2)
  else if s.1 = 0 then none
  else some (size_pred s.1, size_pred s.2)

/-- The level `r` of the recursive call in the body of `detail::ttv0` entered with `r`;
`none` in the base case. -/
def ttv0_callee (r : Nat) : Option Nat :=
  if r > 1 then some (size_pred r) else none

/-- The level `r` of the recursive call in the body of `detail::ttm` entered with
`(m, r)`, in `size_t` arithmetic; `none` in the base case `r == 0`. -/
def ttm_callee (m r : Nat) : Option Nat :=
  if r = m then some (size_pred r)
  else if r = 0 then none
  else some (size_pred r)

/-- The activations that nest inside one another when a recursive kernel is entered in
the state `s`: `s`, the call that its body makes (inside a loop, when the loop runs at
all), the call that one makes, and so on, for at most `fuel` activations. -/
def chain {σ : Type} (callee : σ → Option σ) : Nat → σ → List σ
  | 0, _ => []
  | fuel + 1, s =>
    s :: (match callee s with
      | none => []
      | some t => chain callee fuel t)

/-! ## The kernels of `ttv` over an arbitrary value type

The kernels are templates: the elements have any type with `+=` and `*`.  The order in
which a kernel combines the products matters for a type whose addition is not
associative, such as a floating-point type.  Here the two operators are parameters `add`
and `mul` on the elements, of which no law is assumed, so that the order of the
operations is part of the result. -/

namespace generic

/-- The statement `*c += *a * *b` with the operators `add` and `mul` of the value type. -/
def fma (add mul : Int → Int → Int) (A B : Mem) (c a b : Nat) (C : Mem) : Mem :=
  C.write c (add (C c) (mul (A a) (B b)))

namespace detail

/-- Kernel `detail::ttv(m, r, q, c, nc, wc, a, na, wa, b)` over the operators `add` and
`mul`. -/
def ttv (add mul : Int → Int → Int) (m r q c : Nat) (nc wc : List Nat) (a : Nat)
    (na wa : List Nat) (b : Nat) (A B C : Mem) : Option Mem :=
  match r with
  | 0 =>
    if 0 = m then none
    else
      cfor na[0]? wc[0]? wa[0]? (fun c a C =>
        cfor na[m]? wa[m]? (some 1)
          (fun a1 b1 C => some (fma add mul A B c a1 b1 C)) a b C) c a C
  | r + 1 =>
    if r + 1 = m then ttv add mul m r q c nc wc a na wa b A B C
    else
      cfor na[r + 1]? wc[q]? wa[r + 1]? (fun c a C =>
        ttv add mul m r (size_pred q) c nc wc a na wa b A B C) c a C

/-- Kernel `detail::ttv0(r, c, nc, wc, a, na, wa, b)` over the operators `add` and
`mul`. -/
def ttv0 (add mul : Int → Int → Int) (r c : Nat) (nc wc : List Nat) (a : Nat)
    (na wa : List Nat) (b : Nat) (A B C : Mem) : Option Mem :=
  match r with
  | r + 2 =>
    cfor na[r + 2]? wc[r + 1]? wa[r + 2]? (fun c a C =>
      ttv0 add mul (r + 1) c nc wc a na wa b A B C) c a C
  | _ =>
    cfor na[1]? wc[0]? wa[1]? (fun c a C =>
      cfor na[0]? wa[0]? (some 1)
        (fun a1 b1 C => some (fma add mul A B c a1 b1 C)) a b C) c a C

/-- Kernel `detail::mtv(m, c, nc, wc, a, na, wa, b)` over the operators `add` and
`mul`. -/
def mtv (add mul : Int → Int → Int) (m c : Nat) (_nc wc : List Nat) (a : Nat)
    (na wa : List Nat) (b : Nat) (A B C : Mem) : Option Mem :=
  let o := if m = 0 then 1 else 0
  cfor na[o]? wc[o]? wa[o]? (fun c a C =>
    cfor na[m]? wa[m]? (some 1)
      (fun a1 b1 C => some (fma add mul A B c a1 b1 C)) a b C) c a C

end detail

/-- Public `ttv(m, p, c, nc, wc, a, na, wa, b, nb, wb)` over the operators `add` and
`mul`: the same checks and the same dispatch. -/
def ttv (add mul : Int → Int → Int) (m p : Nat) (c : Option Nat) (nc wc : List Nat)
    (a : Option Nat) (na wa : List Nat) (b : Option Nat) (nb _wb : List Nat)
    (A B C : Mem) : Outcome :=
  if m = 0 then
    Outcome.raised "Error in boost::numeric::ublas::tensor_times_vector: Contraction mode must be greater than zero." C
  else if p < m then
    Outcome.raised "Error in boost::numeric::ublas::tensor_times_vector: Rank must be greater equal the modus." C
  else if p = 0 then
    Outcome.raised "Error in boost::numeric::ublas::tensor_times_vector: Rank must be greater than zero." C
  else
    match c, a, b with
    | some c, some a, some b =>
      match extents_differ na nc 0 (m - 1) 0 with
      | none => Outcome.undefined
      | some true =>
        Outcome.raised "Error in boost::numeric::ublas::tensor_times_vector: Extents (except of dimension mode) of A and C must be equal." C
      | some false =>
        match extents_differ na nc 1 (p - m) m with
        | none => Outcome.undefined
        | some true =>
          Outcome.raised "Error in boost::numeric::ublas::tensor_times_vector: Extents (except of dimension mode) of A and C must be equal." C
        | some false =>
          match nb[0]?, nb[1]?, na[m - 1]? with
          | some nb0, some nb1, some nam =>
            if nam ≠ max nb0 nb1 then
              Outcome.raised "Error in boost::numeric::ublas::tensor_times_vector: Extent of dimension mode of A and b must be equal." C
            else if m ≠ 1 ∧ p > 2 then
              Outcome.ofKernel (detail.ttv add mul (m - 1) (p - 1) (p - 2) c nc wc a na wa b A B C)
            else if m = 1 ∧ p > 2 then
              Outcome.ofKernel (detail.ttv0 add mul (p - 1) c nc wc a na wa b A B C)
            else
              Outcome.ofKernel (detail.mtv add mul (m - 1) c nc wc a na wa b A B C)
          | _, _, _ => Outcome.undefined
    | _, _, _ =>
      Outcome.raised "Error in boost::numeric::ublas::tensor_times_vector: Pointers shall not be null pointers." C

end generic

/-- A statement acts cell by cell: whatever the memory before, it ends normally and
every cell `x` holds `G x` of what it held before. -/
def Acts (f : Mem → Option Mem) (G : Nat → Int → Int) : Prop :=
  ∀ C, ∃ C1, f C = some C1 ∧ ∀ x, C1 x = G x (C x)

/-- What a nest of `L` loops does to the cell `x`, iterations in ascending order.  Level
`l` runs `n l` times and advances the three pointers by `sc l`, `sa l`, `sb l`; the
innermost statement replaces the content `v` of the cell `c` by `leaf a b v`.  Level
`L - 1` is the outermost loop. -/
def nestG (n sc sa sb : Nat → Nat) (leaf : Nat → Nat → Int → Int) :
    Nat → Nat → Nat → Nat → Nat → Int → Int
  | 0, c, a, b, x, v => if x = c then leaf a b v else v
  | L + 1, c, a, b, x, v =>
    (List.range (n L)).foldl (fun acc i =>
      nestG n sc sa sb leaf L (c + sc L * i) (a + sa L * i) (b + sb L * i) x acc) v

/-- The left fold `(...((v + A[a] * B[b]) + A[a + s] * B[b + t]) + ...)` over
`k = 0, 1, ..., n - 1` in this order, with the operators `add` and `mul`. -/
def fold_dot (add mul : Int → Int → Int) (A B : Mem) (n s t a b : Nat) (v : Int) : Int :=
  (List.range n).foldl (fun acc k => add acc (mul (A (a + s * k)) (B (b + t * k)))) v

/-- The level `r` of the recursive call in the body of `detail::ttm0` entered with `r`;
`none` in the base case. -/
def ttm0_callee (r : Nat) : Option Nat :=
  if r > 1 then some (size_pred r) else none

/-! ## Theorems -/

theorem adds_fma (A B : Mem) (c a b : Nat) :
    Adds (fun C => some (fma A B c a b C)) (fun x => if x = c then A a * B b else 0) := by
  intro C
  refine ⟨_, rfl, fun x => ?_⟩
  by_cases h : x = c
  · simp [fma, Mem.write, h]
  · simp [fma, Mem.write, h]

theorem adds_cforN (body : Nat → Nat → Mem → Option Mem) (s1 s2 : Nat) :
    ∀ (n p1 p2 : Nat) (D : Nat → Nat → Int),
      (∀ i, i < n → Adds (body (p1 + s1 * i) (p2 + s2 * i)) (D i)) →
      Adds (cforN (some s1) (some s2) body n p1 p2) (fun x => ∑ i in range n, D i x) := by
  intro n
  induction n with
  | zero =>
    intro p1 p2 D _ C
    exact ⟨C, rfl, fun x => by simp⟩
  | succ n ih =>
    intro p1 p2 D h C
    obtain ⟨C1, h1, h1x⟩ := h 0 (Nat.succ_pos n) C
    have hstep : ∀ i, i < n →
        Adds (body (p1 + s1 + s1 * i) (p2 + s2 + s2 * i)) (fun x => D (i + 1) x) := by
      intro i hi
      have := h (i + 1) (Nat.succ_lt_succ hi)
      have e1 : p1 + s1 * (i + 1) = p1 + s1 + s1 * i := by ring
      have e2 : p2 + s2 * (i + 1) = p2 + s2 + s2 * i := by ring
      rw [e1, e2] at this
      exact this
    obtain ⟨C2, h2, h2x⟩ := ih (p1 + s1) (p2 + s2) (fun i => D (i + 1)) hstep C1
    refine ⟨C2, ?_, fun x => ?_⟩
    · simp only [Nat.mul_zero, Nat.add_zero] at h1
      simp [cforN, h1, h2]
    · have e := Finset.sum_range_succ' (fun i => D i x) n
      simp only [] at e
      rw [h2x x, h1x x]
      simp only [e]
      ring

theorem adds_cfor (body : Nat → Nat → Mem → Option Mem) (n s1 s2 p1 p2 : Nat)
    (D : Nat → Nat → Int)
    (h : ∀ i, i < n → Adds (body (p1 + s1 * i) (p2 + s2 * i)) (D i)) :
    Adds (cfor (some n) (some s1) (some s2) body p1 p2) (fun x => ∑ i in range n, D i x) := by
  intro C
  simpa [cfor] using adds_cforN body s1 s2 n p1 p2 D h C

theorem adds_congr {f : Mem → Option Mem} {D E : Nat → Int} (h : Adds f D)
    (hDE : ∀ x, D x = E x) : Adds f E := by
  intro C
  obtain ⟨C1, h1, h1x⟩ := h C
  exact ⟨C1, h1, fun x => by rw [h1x x, hDE x]⟩

/-- The innermost loop adds the contraction to the cell `c`. -/
theorem adds_dot (A B : Mem) (n s t c a b : Nat) :
    Adds (cfor (some n) (some s) (some t) (fun a1 b1 C => some (fma A B c a1 b1 C)) a b)
      (fun x => if x = c then dot A B n s t a b else 0) := by
  refine adds_congr (adds_cfor _ n s t a b
    (fun k x => if x = c then A (a + s * k) * B (b + t * k) else 0)
    (fun k _ => adds_fma A B c _ _)) ?_
  intro x
  by_cases h : x = c
  · simp [h, dot]
  · simp [h]

theorem lsum_succ (w e : Nat → Nat) (L : Nat) :
    lsum w e (L + 1) = lsum w e L + w L * e L := by
  simp [lsum, Finset.sum_range_succ]

theorem lsum_congr (w e1 e2 : Nat → Nat) (L : Nat) (h : ∀ l, l < L → e1 l = e2 l) :
    lsum w e1 L = lsum w e2 L := by
  unfold lsum
  refine Finset.sum_congr rfl (fun l hl => ?_)
  rw [h l (Finset.mem_range.mp hl)]

theorem lsum_update (w e : Nat → Nat) (L i : Nat) :
    lsum w (Function.update e L i) (L + 1) = lsum w e L + w L * i := by
  rw [lsum_succ, lsum_congr w (Function.update e L i) e L]
  · simp
  · intro l hl
    simp [Function.update, Nat.ne_of_lt hl]

/-- A loop nest leaves alone every cell that is not the offset of an index of its box. -/
theorem nestD_frame (n sc sa sb : Nat → Nat) (v : Nat → Nat → Int) :
    ∀ (L c a b x : Nat),
      (∀ e : Nat → Nat, (∀ l, l < L → e l < n l) → x ≠ c + lsum sc e L) →
      nestD n sc sa sb v L c a b x = 0 := by
  intro L
  induction L with
  | zero =>
    intro c a b x h
    have hx : x ≠ c := by simpa [lsum] using h (fun _ => 0) (fun l hl => absurd hl (Nat.not_lt_zero l))
    simp [nestD, hx]
  | succ L ih =>
    intro c a b x h
    simp only [nestD]
    refine Finset.sum_eq_zero (fun i hi => ?_)
    refine ih _ _ _ _ (fun e he => ?_)
    have hbox : ∀ l, l < L + 1 → Function.update e L i l < n l := by
      intro l hl
      by_cases hlL : l = L
      · subst hlL
        simpa using Finset.mem_range.mp hi
      · have : l < L := by omega
        simpa [Function.update, hlL] using he l this
    have := h (Function.update e L i) hbox
    rw [lsum_update] at this
    intro hx
    apply this
    rw [hx]
    ring

theorem LevelInj.pred {n sc : Nat → Nat} {L : Nat} (h : LevelInj n sc (L + 1)) (i : Nat)
    (hi : i < n L) : LevelInj n sc L := by
  intro e1 e2 h1 h2 hs l hl
  have hb : ∀ e : Nat → Nat, (∀ l, l < L → e l < n l) →
      ∀ l, l < L + 1 → Function.update e L i l < n l := by
    intro e he l hl
    by_cases hlL : l = L
    · subst hlL
      simpa using hi
    · have : l < L := by omega
      simpa [Function.update, hlL] using he l this
  have := h (Function.update e1 L i) (Function.update e2 L i) (hb e1 h1) (hb e2 h2)
    (by rw [lsum_update, lsum_update, hs]) l (by omega)
  simpa [Function.update, Nat.ne_of_lt hl] using this

/-- With pairwise distinct offsets, a loop nest adds to the cell of the index `e` exactly
the innermost value at `e`. -/
theorem nestD_target (n sc sa sb : Nat → Nat) (v : Nat → Nat → Int) :
    ∀ (L c a b : Nat) (e : Nat → Nat), LevelInj n sc L → (∀ l, l < L → e l < n l) →
      nestD n sc sa sb v L c a b (c + lsum sc e L) = v (a + lsum sa e L) (b + lsum sb e L) := by
  intro L
  induction L with
  | zero =>
    intro c a b e _ _
    simp [nestD, lsum]
  | succ L ih =>
    intro c a b e hinj he
    simp only [nestD]
    have heL : e L < n L := he L (Nat.lt_succ_self L)
    rw [Finset.sum_eq_single (e L)]
    · have hx : c + lsum sc e (L + 1) = (c + sc L * e L) + lsum sc e L := by
        rw [lsum_succ]; ring
      rw [hx, ih _ _ _ e (hinj.pred (e L) heL) (fun l hl => he l (by omega))]
      rw [lsum_succ, lsum_succ]
      congr 1 <;> ring
    · intro i hi hne
      refine nestD_frame n sc sa sb v L _ _ _ _ (fun e2 he2 hx => ?_)
      have hb : ∀ l, l < L + 1 → Function.update e2 L i l < n l := by
        intro l hl
        by_cases hlL : l = L
        · subst hlL
          simpa using Finset.mem_range.mp hi
        · have : l < L := by omega
          simpa [Function.update, hlL] using he2 l this
      have hs : lsum sc e (L + 1) = lsum sc (Function.update e2 L i) (L + 1) := by
        rw [lsum_update]
        omega
      have := hinj e (Function.update e2 L i) he hb hs L (Nat.lt_succ_self L)
      apply hne
      simpa using this.symm
    · intro hnot
      exact absurd (Finset.mem_range.mpr heL) hnot

theorem rd_some (l : List Nat) (i : Nat) (h : i < l.length) : l[i]? = some (l.getD i 0) := by
  simp [List.getD, List.getElem?_eq_getElem h]

/-- One loop over the pointers `c` and `a` around a nest is a nest with one more level. -/
theorem adds_level {n sc sa sb : Nat → Nat} {v : Nat → Nat → Int} (L c a b : Nat)
    (body : Nat → Nat → Mem → Option Mem) (nL sL tL : Nat)
    (hn : n L = nL) (hsc : sc L = sL) (hsa : sa L = tL) (hsb : sb L = 0)
    (h : ∀ c a, Adds (body c a) (nestD n sc sa sb v L c a b)) :
    Adds (cfor (some nL) (some sL) (some tL) body c a) (nestD n sc sa sb v (L + 1) c a b) := by
  subst hn hsc hsa
  refine adds_congr (adds_cfor body (n L) (sc L) (sa L) c a
    (fun i => nestD n sc sa sb v L (c + sc L * i) (a + sa L * i) b) (fun i _ => h _ _)) ?_
  intro x
  simp [nestD, hsb]

/-- One loop over the pointers `c` and `b` around a nest is a nest with one more level. -/
theorem adds_level_cb {n sc sa sb : Nat → Nat} {v : Nat → Nat → Int} (L c a b : Nat)
    (body : Nat → Nat → Mem → Option Mem) (nL sL tL : Nat)
    (hn : n L = nL) (hsc : sc L = sL) (hsb : sb L = tL) (hsa : sa L = 0)
    (h : ∀ c b, Adds (body c b) (nestD n sc sa sb v L c a b)) :
    Adds (cfor (some nL) (some sL) (some tL) body c b) (nestD n sc sa sb v (L + 1) c a b) := by
  subst hn hsc hsb
  refine adds_congr (adds_cfor body (n L) (sc L) (sb L) c b
    (fun i => nestD n sc sa sb v L (c + sc L * i) a (b + sb L * i)) (fun i _ => h _ _)) ?_
  intro x
  simp [nestD, hsa]

/-- The innermost loop is the nest without levels. -/
theorem adds_leaf {n sc sa sb : Nat → Nat} (A B : Mem) (nm s t c a b : Nat) :
    Adds (cfor (some nm) (some s) (some t) (fun a1 b1 C => some (fma A B c a1 b1 C)) a b)
      (nestD n sc sa sb (dot A B nm s t) 0 c a b) := by
  refine adds_congr (adds_dot A B nm s t c a b) ?_
  intro x
  simp [nestD]

theorem ttv_zero_eq (m q c : Nat) (nc wc : List Nat) (a : Nat) (na wa : List Nat) (b : Nat)
    (A B : Mem) (hm : 0 ≠ m) :
    detail.ttv m 0 q c nc wc a na wa b A B =
      cfor na[0]? wc[0]? wa[0]? (fun c a C =>
        cfor na[m]? wa[m]? (some 1) (fun a1 b1 C => some (fma A B c a1 b1 C)) a b C) c a := by
  funext C
  rw [detail.ttv]
  simp [hm]

theorem ttv_succ_eq (m r q c : Nat) (nc wc : List Nat) (a : Nat) (na wa : List Nat) (b : Nat)
    (A B : Mem) :
    detail.ttv m (r + 1) q c nc wc a na wa b A B =
      if r + 1 = m then detail.ttv m r q c nc wc a na wa b A B
      else cfor na[r + 1]? wc[q]? wa[r + 1]? (fun c a C =>
        detail.ttv m r (size_pred q) c nc wc a na wa b A B C) c a := by
  funext C
  rw [detail.ttv]
  split <;> rfl

theorem ttv0_one_eq (c : Nat) (nc wc : List Nat) (a : Nat) (na wa : List Nat) (b : Nat)
    (A B : Mem) :
    detail.ttv0 1 c nc wc a na wa b A B =
      cfor na[1]? wc[0]? wa[1]? (fun c a C =>
        cfor na[0]? wa[0]? (some 1) (fun a1 b1 C => some (fma A B c a1 b1 C)) a b C) c a := by
  funext C
  rw [detail.ttv0]
  intro r hr
  omega

theorem ttv0_succ_eq (r c : Nat) (nc wc : List Nat) (a : Nat) (na wa : List Nat) (b : Nat)
    (A B : Mem) :
    detail.ttv0 (r + 2) c nc wc a na wa b A B =
      cfor na[r + 2]? wc[r + 1]? wa[r + 2]? (fun c a C =>
        detail.ttv0 (r + 1) c nc wc a na wa b A B C) c a := by
  funext C
  rw [detail.ttv0]

/-- The kernel `detail::mtv` is a nest of one loop over the axis `o` of `A`, moving the
output pointer by `wc[o]`. -/
theorem adds_mtv (m c : Nat) (nc wc : List Nat) (a : Nat) (na wa : List Nat) (b : Nat)
    (A B : Mem) (hm : m < 2) (hna : na.length = 2) (hwa : wa.length = 2)
    (hwc : (if m = 0 then 1 else 0) < wc.length) :
    Adds (detail.mtv m c nc wc a na wa b A B)
      (nestD (fun _ => na.getD (if m = 0 then 1 else 0) 0)
        (fun _ => wc.getD (if m = 0 then 1 else 0) 0)
        (fun _ => wa.getD (if m = 0 then 1 else 0) 0) (fun _ => 0)
        (dot A B (na.getD m 0) (wa.getD m 0) 1) 1 c a b) := by
  unfold detail.mtv
  simp only []
  have ho : (if m = 0 then 1 else 0) < 2 := by split <;> omega
  rw [rd_some na _ (by omega), rd_some wc _ hwc, rd_some wa _ (by omega),
    rd_some na m (by omega), rd_some wa m (by omega)]
  exact adds_level 0 c a b _ _ _ _ rfl rfl rfl rfl (fun c a => adds_leaf A B _ _ _ c a b)

/-- The kernel `detail::ttv`, entered at level `r` with the `q` that goes with it, is the
nest of `ttv_levels m r` loops over the axes of `A` other than `m`. -/
theorem adds_ttv (m : Nat) (nc wc : List Nat) (na wa : List Nat) (b : Nat) (A B : Mem)
    (hm : 1 ≤ m) (hmna : m < na.length) (hmwa : m < wa.length) :
    ∀ r, r < na.length → r < wa.length → ttv_levels m r ≤ wc.length → ∀ c a,
      Adds (detail.ttv m r (ttv_q m r) c nc wc a na wa b A B)
        (nestD (fun l => na.getD (ttv_axis m l) 0) (fun l => wc.getD l 0)
          (fun l => wa.getD (ttv_axis m l) 0) (fun _ => 0)
          (dot A B (na.getD m 0) (wa.getD m 0) 1) (ttv_levels m r) c a b) := by
  intro r
  induction r with
  | zero =>
    intro hna hwa hwc c a
    have h0 : (0 : Nat) < m := hm
    have hl : ttv_levels m 0 = 1 := by simp [ttv_levels, h0]
    rw [hl] at hwc ⊢
    rw [ttv_zero_eq _ _ _ _ _ _ _ _ _ _ _ (Nat.ne_of_lt h0)]
    rw [rd_some na 0 hna, rd_some wc 0 (by omega), rd_some wa 0 hwa, rd_some na m hmna,
      rd_some wa m hmwa]
    exact adds_level 0 c a b _ _ _ _ (by simp [ttv_axis, h0]) rfl (by simp [ttv_axis, h0]) rfl
      (fun c a => adds_leaf A B _ _ _ c a b)
  | succ r ih =>
    intro hna hwa hwc c a
    rw [ttv_succ_eq]
    by_cases h1 : r + 1 = m
    · have hr : r < m := by omega
      have hq : ttv_q m (r + 1) = ttv_q m r := by
        simp only [ttv_q, if_pos hr, if_neg (Nat.lt_irrefl m), h1]
        omega
      have hl : ttv_levels m (r + 1) = ttv_levels m r := by simp [ttv_levels, hr, h1]
      simp only [if_pos h1]
      rw [hq, hl]
      exact ih (by omega) (by omega) (by rw [← hl]; exact hwc) c a
    · simp only [if_neg h1]
      by_cases h2 : r + 1 < m
      · have hr : r < m := by omega
        have hq : ttv_q m (r + 1) = r + 1 := by simp [ttv_q, h2]
        have hl : ttv_levels m (r + 1) = ttv_levels m r + 1 := by simp [ttv_levels, hr, h2]
        have hl0 : ttv_levels m r = r + 1 := by simp [ttv_levels, hr]
        have hq0 : size_pred (r + 1) = ttv_q m r := by simp [size_pred, ttv_q, hr]
        rw [hq, hl, hq0]
        rw [hl, hl0] at hwc
        rw [rd_some na _ hna, rd_some wc _ (by omega), rd_some wa _ hwa]
        refine adds_level (ttv_levels m r) c a b _ _ _ _ ?_ ?_ ?_ rfl
          (fun c a => ih (by omega) (by omega) (by omega) c a)
        · simp [hl0, ttv_axis, h2]
        · simp [hl0]
        · simp [hl0, ttv_axis, h2]
      · have hr : m ≤ r := by omega
        have hr1 : ¬ r < m := by omega
        have hq : ttv_q m (r + 1) = r := by simp [ttv_q, h2]
        have hl : ttv_levels m (r + 1) = ttv_levels m r + 1 := by simp [ttv_levels, hr1, h2]
        have hl0 : ttv_levels m r = r := by simp [ttv_levels, hr1]
        have hq0 : size_pred r = ttv_q m r := by
          have : r ≠ 0 := by omega
          simp [size_pred, ttv_q, hr1, this]
        rw [hq, hl, hq0]
        rw [hl, hl0] at hwc
        rw [rd_some na _ hna, rd_some wc _ (by omega), rd_some wa _ hwa]
        refine adds_level (ttv_levels m r) c a b _ _ _ _ ?_ ?_ ?_ rfl
          (fun c a => ih (by omega) (by omega) (by omega) c a)
        · simp [hl0, ttv_axis, hr1]
        · simp [hl0]
        · simp [hl0, ttv_axis, hr1]

/-- The kernel `detail::ttv0`, entered at level `r + 1`, is the nest of `r + 1` loops over
the axes `1, ..., r + 1` of `A`. -/
theorem adds_ttv0 (nc wc : List Nat) (na wa : List Nat) (b : Nat) (A B : Mem) :
    ∀ r, r + 1 < na.length → r + 1 < wa.length → r + 1 ≤ wc.length → ∀ c a,
      Adds (detail.ttv0 (r + 1) c nc wc a na wa b A B)
        (nestD (fun l => na.getD (ttv_axis 0 l) 0) (fun l => wc.getD l 0)
          (fun l => wa.getD (ttv_axis 0 l) 0) (fun _ => 0)
          (dot A B (na.getD 0 0) (wa.getD 0 0) 1) (r + 1) c a b) := by
  intro r
  induction r with
  | zero =>
    intro hna hwa hwc c a
    rw [ttv0_one_eq]
    rw [rd_some na 1 hna, rd_some wc 0 (by omega), rd_some wa 1 hwa, rd_some na 0 (by omega),
      rd_some wa 0 (by omega)]
    exact adds_level 0 c a b _ _ _ _ (by simp [ttv_axis]) rfl (by simp [ttv_axis]) rfl
      (fun c a => adds_leaf A B _ _ _ c a b)
  | succ r ih =>
    intro hna hwa hwc c a
    rw [ttv0_succ_eq]
    rw [rd_some na _ hna, rd_some wc _ (by omega), rd_some wa _ hwa]
    exact adds_level (r + 1) c a b _ _ _ _ (by simp [ttv_axis]) rfl (by simp [ttv_axis]) rfl
      (fun c a => ih (by omega) (by omega) (by omega) c a)

theorem getD_eraseIdx_lt (l : List Nat) (i j : Nat) (h : j < i) :
    (l.eraseIdx i).getD j 0 = l.getD j 0 := by
  simp [List.getD, List.getElem?_eraseIdx_of_lt l i j h]

theorem getD_eraseIdx_ge (l : List Nat) (i j : Nat) (h : i ≤ j) :
    (l.eraseIdx i).getD j 0 = l.getD (j + 1) 0 := by
  simp [List.getD, List.getElem?_eraseIdx_of_ge l i j h]

theorem getD_eraseIdx (l : List Nat) (i j : Nat) :
    (l.eraseIdx i).getD j 0 = l.getD (ttv_axis i j) 0 := by
  unfold ttv_axis
  split
  · exact getD_eraseIdx_lt l i j (by assumption)
  · exact getD_eraseIdx_ge l i j (by omega)

/-- The two check loops of the public functions: within the arrays they end with a verdict,
which is `true` exactly when some compared pair of extents differs. -/
theorem extents_differ_spec (na nc : List Nat) (shift : Nat) :
    ∀ count first, (∀ k, k < count → first + k < na.length ∧ first + k - shift < nc.length) →
      ∃ r, extents_differ na nc shift count first = some r ∧
        (r = true ↔ ∃ k, k < count ∧ na.getD (first + k) 0 ≠ nc.getD (first + k - shift) 0) := by
  intro count
  induction count with
  | zero =>
    intro first _
    exact ⟨false, rfl, by simp⟩
  | succ count ih =>
    intro first hb
    have h0 := hb 0 (Nat.succ_pos count)
    simp only [Nat.add_zero] at h0
    by_cases hne : na.getD first 0 ≠ nc.getD (first - shift) 0
    · refine ⟨true, ?_, ?_⟩
      · simp only [extents_differ, rd_some na first h0.1, rd_some nc _ h0.2, if_pos hne]
      · simp only [true_iff]
        exact ⟨0, Nat.succ_pos count, by simpa using hne⟩
    · obtain ⟨r, hr, hiff⟩ := ih (first + 1) (fun k hk => by
        have := hb (k + 1) (Nat.succ_lt_succ hk)
        have e : first + 1 + k = first + (k + 1) := by omega
        rw [e]; exact this)
      refine ⟨r, ?_, ?_⟩
      · simp only [extents_differ, rd_some na first h0.1, rd_some nc _ h0.2, if_neg hne]
        exact hr
      · rw [hiff]
        constructor
        · rintro ⟨k, hk, hd⟩
          refine ⟨k + 1, Nat.succ_lt_succ hk, ?_⟩
          have e : first + 1 + k = first + (k + 1) := by omega
          rw [← e]; exact hd
        · rintro ⟨k, hk, hd⟩
          cases k with
          | zero => exact absurd (by simpa using hd) hne
          | succ k =>
            refine ⟨k, Nat.lt_of_succ_lt_succ hk, ?_⟩
            have e : first + 1 + k = first + (k + 1) := by omega
            rw [e]; exact hd

theorem extents_differ_false (na nc : List Nat) (shift count first : Nat)
    (hb : ∀ k, k < count → first + k < na.length ∧ first + k - shift < nc.length)
    (heq : ∀ k, k < count → na.getD (first + k) 0 = nc.getD (first + k - shift) 0) :
    extents_differ na nc shift count first = some false := by
  obtain ⟨r, hr, hiff⟩ := extents_differ_spec na nc shift count first hb
  cases r with
  | false => exact hr
  | true =>
    obtain ⟨k, hk, hd⟩ := hiff.mp rfl
    exact absurd (heq k hk) hd

theorem offset_eq_lsum (w : List Nat) (p : Nat) (i : Nat → Nat) :
    offset w p i = lsum (fun l => w.getD l 0) i p := rfl

theorem levelInj_of_distinct (w n : List Nat) (p : Nat) (nl : Nat → Nat)
    (hn : ∀ l, l < p → nl l = n.getD l 0) (h : DistinctOffsets w n p) :
    LevelInj nl (fun l => w.getD l 0) p := by
  intro e1 e2 h1 h2 hs l hl
  exact h e1 e2 (fun j hj => by rw [← hn j hj]; exact h1 j hj)
    (fun j hj => by rw [← hn j hj]; exact h2 j hj) hs l hl

theorem lsum_zero_stride (e : Nat → Nat) (L : Nat) : lsum (fun _ => 0) e L = 0 := by
  simp [lsum]

/-- The offset into `A` that the nest of `detail::ttv` reaches, written over the axes of
`A`: the axes below `m` keep their index, the axes above `m` take the index one lower. -/
theorem lsum_ttv_axis (w : List Nat) (m L : Nat) (i : Nat → Nat) (h : m ≤ L) :
    lsum (fun l => w.getD (ttv_axis m l) 0) i L =
      ∑ j in range m, w.getD j 0 * i j + ∑ j in Ico (m + 1) (L + 1), w.getD j 0 * i (j - 1) := by
  unfold lsum
  rw [← Finset.sum_range_add_sum_Ico _ h]
  congr 1
  · refine Finset.sum_congr rfl (fun l hl => ?_)
    have : l < m := Finset.mem_range.mp hl
    simp [ttv_axis, this]
  · rw [← Finset.sum_Ico_add' (fun j => w.getD j 0 * i (j - 1)) m L 1]
    refine Finset.sum_congr rfl (fun l hl => ?_)
    have : ¬ l < m := by
      have := (Finset.mem_Ico.mp hl).1
      omega
    simp [ttv_axis, this]

/-- Public `ttv` on an input of rank at least 3 that passes its checks: it returns, and
what it has added to the output is the nest of `p - 1` loops of its kernel. -/
theorem ttv_returns (m p c a b : Nat) (nc wc na wa nb wb : List Nat) (A B C : Mem)
    (hp : 3 ≤ p) (hm : 1 ≤ m) (hmp : m ≤ p)
    (hna : na.length = p) (hwa : wa.length = p) (hnc : nc.length = p - 1)
    (hwc : wc.length = p - 1) (hnb : nb.length = 2)
    (heq : ∀ l, l < p - 1 → nc.getD l 0 = na.getD (ttv_axis (m - 1) l) 0)
    (hmax : na.getD (m - 1) 0 = max (nb.getD 0 0) (nb.getD 1 0)) :
    ∃ C1, ttv m p (some c) nc wc (some a) na wa (some b) nb wb A B C = Outcome.returned C1 ∧
      ∀ x, C1 x = C x + nestD (fun l => na.getD (ttv_axis (m - 1) l) 0) (fun l => wc.getD l 0)
        (fun l => wa.getD (ttv_axis (m - 1) l) 0) (fun _ => 0)
        (dot A B (na.getD (m - 1) 0) (wa.getD (m - 1) 0) 1) (p - 1) c a b x := by
  have hm0 : m ≠ 0 := by omega
  have hpm : ¬ p < m := by omega
  have hp0 : p ≠ 0 := by omega
  have hd1 : extents_differ na nc 0 (m - 1) 0 = some false := by
    refine extents_differ_false na nc 0 (m - 1) 0 (fun k hk => ⟨by omega, by omega⟩) ?_
    intro k hk
    simp only [Nat.zero_add, Nat.sub_zero]
    rw [heq k (by omega)]
    simp [ttv_axis, hk]
  have hd2 : extents_differ na nc 1 (p - m) m = some false := by
    refine extents_differ_false na nc 1 (p - m) m (fun k hk => ⟨by omega, by omega⟩) ?_
    intro k hk
    have hlt : ¬ m + k - 1 < m - 1 := by omega
    rw [heq (m + k - 1) (by omega)]
    simp only [ttv_axis, if_neg hlt]
    congr 1
    omega
  have hkernel : Adds (if m ≠ 1 ∧ p > 2 then detail.ttv (m - 1) (p - 1) (p - 2) c nc wc a na wa b A B
      else if m = 1 ∧ p > 2 then detail.ttv0 (p - 1) c nc wc a na wa b A B
      else detail.mtv (m - 1) c nc wc a na wa b A B)
      (nestD (fun l => na.getD (ttv_axis (m - 1) l) 0) (fun l => wc.getD l 0)
        (fun l => wa.getD (ttv_axis (m - 1) l) 0) (fun _ => 0)
        (dot A B (na.getD (m - 1) 0) (wa.getD (m - 1) 0) 1) (p - 1) c a b) := by
    by_cases hm1 : m = 1
    · subst hm1
      have hp2 : p > 2 := by omega
      have e1 : p - 1 = (p - 2) + 1 := by omega
      simp only [ne_eq, not_true_eq_false, false_and, if_false, hp2, and_self, if_true,
        Nat.sub_self]
      have := adds_ttv0 nc wc na wa b A B (p - 2) (by omega) (by omega) (by omega) c a
      rw [← e1] at this
      exact this
    · have hq : ttv_q (m - 1) (p - 1) = p - 2 := by
        have : ¬ p - 1 < m - 1 := by omega
        simp only [ttv_q, if_neg this]
        omega
      have hl : ttv_levels (m - 1) (p - 1) = p - 1 := by
        have : ¬ p - 1 < m - 1 := by omega
        simp only [ttv_levels, if_neg this]
      have hdisp : m ≠ 1 ∧ p > 2 := ⟨hm1, by omega⟩
      rw [if_pos hdisp]
      have := adds_ttv (m - 1) nc wc na wa b A B (by omega) (by omega) (by omega)
        (p - 1) (by omega) (by omega) (by rw [hl]; omega) c a
      rw [hq, hl] at this
      exact this
  obtain ⟨C1, hC1, hC1x⟩ := hkernel C
  refine ⟨C1, ?_, hC1x⟩
  have hne : ¬ na.getD (m - 1) 0 ≠ max (nb.getD 0 0) (nb.getD 1 0) := by simpa using hmax
  simp only [ttv, if_neg hm0, if_neg hpm, if_neg hp0, hd1, hd2, rd_some nb 0 (by omega),
    rd_some nb 1 (by omega), rd_some na (m - 1) (by omega), if_neg hne]
  by_cases hm1 : m = 1
  · have hp2 : p > 2 := by omega
    simp only [hm1, ne_eq, not_true_eq_false, false_and, if_false, hp2, and_self,
      if_true] at hC1 ⊢
    rw [hC1]
    rfl
  · have hdisp : m ≠ 1 ∧ p > 2 := ⟨hm1, by omega⟩
    rw [if_pos hdisp] at hC1 ⊢
    rw [hC1]
    rfl

/-- The value that the nest of `detail::ttv` or `detail::ttv0` adds to the output cell of
a multi-index (zero-based mode `m`, rank `L + 1` of `A`). -/
theorem ttv_nest_value (m L c a b : Nat) (nc wc na wa : List Nat) (A B : Mem) (hm : m ≤ L)
    (heq : ∀ l, l < L → nc.getD l 0 = na.getD (ttv_axis m l) 0)
    (hinj : DistinctOffsets wc nc L) (i : Nat → Nat) (hi : InBox nc L i) :
    nestD (fun l => na.getD (ttv_axis m l) 0) (fun l => wc.getD l 0)
        (fun l => wa.getD (ttv_axis m l) 0) (fun _ => 0)
        (dot A B (na.getD m 0) (wa.getD m 0) 1) L c a b (c + offset wc L i) =
      ∑ k in range (na.getD m 0),
        A (a + (∑ j in range m, wa.getD j 0 * i j + wa.getD m 0 * k
            + ∑ j in Ico (m + 1) (L + 1), wa.getD j 0 * i (j - 1))) * B (b + k) := by
  have hLI : LevelInj (fun l => na.getD (ttv_axis m l) 0) (fun l => wc.getD l 0) L :=
    levelInj_of_distinct wc nc L _ (fun l hl => (heq l hl).symm) hinj
  have hbox : ∀ l, l < L → i l < (fun l => na.getD (ttv_axis m l) 0) l := by
    intro l hl
    have := hi l hl
    rw [heq l hl] at this
    exact this
  rw [offset_eq_lsum, nestD_target _ _ _ _ _ L c a b i hLI hbox, lsum_zero_stride,
    lsum_ttv_axis wa m L i hm]
  simp only [dot, zero_add]
  refine Finset.sum_congr rfl (fun k _ => ?_)
  congr 2
  · ring
  · ring

/-- C1: public `ttv` for rank `p ≥ 3` and mode `2 ≤ m ≤ p`.  With `nc` the extents of `A`
without entry `m-1`, `b` of length `na[m-1]`, pairwise distinct output offsets and an
output that is zero at these offsets, the call returns normally and every output cell
holds `Σ_{k < na[m-1]} A[Σ_{j<m-1} wa[j] i_j + wa[m-1] k + Σ_{j≥m} wa[j] i_{j-1}] * b[k]`. -/
theorem ttv_contracts_inner_mode (m p c a b : Nat) (nc wc na wa nb wb : List Nat) (A B C : Mem)
    (hp : 3 ≤ p) (hm : 2 ≤ m) (hmp : m ≤ p)
    (hna : na.length = p) (hwa : wa.length = p) (hwc : wc.length = p - 1)
    (hpos : ∀ j, j < p → 1 ≤ na.getD j 0)
    (hnc : nc = na.eraseIdx (m - 1)) (hnb : nb = [na.getD (m - 1) 0, 1])
    (hinj : DistinctOffsets wc nc (p - 1))
    (hzero : ∀ i, InBox nc (p - 1) i → C (c + offset wc (p - 1) i) = 0) :
    ∃ C1, ttv m p (some c) nc wc (some a) na wa (some b) nb wb A B C = Outcome.returned C1 ∧
      ∀ i, InBox nc (p - 1) i →
        C1 (c + offset wc (p - 1) i) =
          ∑ k in range (na.getD (m - 1) 0),
            A (a + (∑ j in range (m - 1), wa.getD j 0 * i j + wa.getD (m - 1) 0 * k
                + ∑ j in Ico m p, wa.getD j 0 * i (j - 1))) * B (b + k) := by
  have heq : ∀ l, l < p - 1 → nc.getD l 0 = na.getD (ttv_axis (m - 1) l) 0 := by
    intro l _
    rw [hnc, getD_eraseIdx]
  have hmax : na.getD (m - 1) 0 = max (nb.getD 0 0) (nb.getD 1 0) := by
    have := hpos (m - 1) (by omega)
    rw [hnb]
    simp only [List.getD_cons_zero, List.getD_cons_succ]
    omega
  obtain ⟨C1, hC1, hC1x⟩ := ttv_returns m p c a b nc wc na wa nb wb A B C hp (by omega) hmp hna
    hwa (by rw [hnc, List.length_eraseIdx_of_lt (by omega), hna]) hwc (by rw [hnb]; rfl) heq hmax
  refine ⟨C1, hC1, fun i hi => ?_⟩
  have e1 : m - 1 + 1 = m := by omega
  have e2 : p - 1 + 1 = p := by omega
  rw [hC1x, hzero i hi, ttv_nest_value (m - 1) (p - 1) c a b nc wc na wa A B (by omega) heq
    hinj i hi, e1, e2, zero_add]

theorem distinct_offsets_2x2 : DistinctOffsets [1, 2] [2, 2] 2 := by
  intro i1 i2 h1 h2 hs j hj
  have a0 := h1 0 (by omega)
  have a1 := h1 1 (by omega)
  have b0 := h2 0 (by omega)
  have b1 := h2 1 (by omega)
  simp [offset, Finset.sum_range_succ] at hs a0 a1 b0 b1
  have : j = 0 ∨ j = 1 := by omega
  rcases this with rfl | rfl <;> omega

/-- Witness of C1: a 2 x 2 x 2 tensor (first-order strides) contracted at mode 2. -/
theorem ttv_contracts_inner_mode_witness :
    ∃ C1, ttv 2 3 (some 0) [2, 2] [1, 2] (some 0) [2, 2, 2] [1, 2, 4] (some 0) [2, 1] [1, 1]
        (fun x => (x : Int) + 1) (fun x => (x : Int) + 1) (fun _ => 0) = Outcome.returned C1 ∧
      ∀ i, InBox [2, 2] (3 - 1) i →
        C1 (0 + offset [1, 2] (3 - 1) i) =
          ∑ k in range (([2, 2, 2] : List Nat).getD (2 - 1) 0),
            (fun x : Nat => (x : Int) + 1)
              (0 + (∑ j in range (2 - 1), ([1, 2, 4] : List Nat).getD j 0 * i j
                + ([1, 2, 4] : List Nat).getD (2 - 1) 0 * k
                + ∑ j in Ico 2 3, ([1, 2, 4] : List Nat).getD j 0 * i (j - 1))) *
              (fun x : Nat => (x : Int) + 1) (0 + k) :=
  ttv_contracts_inner_mode 2 3 0 0 0 [2, 2] [1, 2] [2, 2, 2] [1, 2, 4] [2, 1] [1, 1]
    (fun x => (x : Int) + 1) (fun x => (x : Int) + 1) (fun _ => 0)
    (by decide) (by decide) (by decide) rfl rfl rfl
    (by intro j hj; have : j = 0 ∨ j = 1 ∨ j = 2 := by omega
        rcases this with rfl | rfl | rfl <;> simp)
    rfl rfl distinct_offsets_2x2 (fun _ _ => rfl)

/-- C2: public `ttv` for rank `p ≥ 3` and mode 1.  With `nc = (na[1], ..., na[p-1])`, `b` of
length `na[0]`, pairwise distinct output offsets and an output that is zero at these
offsets, the call returns normally and every output cell holds
`Σ_{k < na[0]} A[wa[0] k + Σ_{j≥1} wa[j] i_{j-1}] * b[k]`. -/
theorem ttv_contracts_first_mode (p c a b : Nat) (nc wc na wa nb wb : List Nat) (A B C : Mem)
    (hp : 3 ≤ p)
    (hna : na.length = p) (hwa : wa.length = p) (hwc : wc.length = p - 1)
    (hpos : ∀ j, j < p → 1 ≤ na.getD j 0)
    (hnc : nc = na.tail) (hnb : nb = [na.getD 0 0, 1])
    (hinj : DistinctOffsets wc nc (p - 1))
    (hzero : ∀ i, InBox nc (p - 1) i → C (c + offset wc (p - 1) i) = 0) :
    ∃ C1, ttv 1 p (some c) nc wc (some a) na wa (some b) nb wb A B C = Outcome.returned C1 ∧
      ∀ i, InBox nc (p - 1) i →
        C1 (c + offset wc (p - 1) i) =
          ∑ k in range (na.getD 0 0),
            A (a + (wa.getD 0 0 * k + ∑ j in Ico 1 p, wa.getD j 0 * i (j - 1))) * B (b + k) := by
  have hnc2 : nc = na.eraseIdx 0 := by rw [hnc, List.eraseIdx_zero]
  have heq : ∀ l, l < p - 1 → nc.getD l 0 = na.getD (ttv_axis (1 - 1) l) 0 := by
    intro l _
    rw [hnc2, getD_eraseIdx]
  have hmax : na.getD (1 - 1) 0 = max (nb.getD 0 0) (nb.getD 1 0) := by
    have := hpos 0 (by omega)
    rw [hnb]
    simp only [List.getD_cons_zero, List.getD_cons_succ, Nat.sub_self]
    omega
  obtain ⟨C1, hC1, hC1x⟩ := ttv_returns 1 p c a b nc wc na wa nb wb A B C hp (by omega)
    (by omega) hna hwa (by rw [hnc2, List.length_eraseIdx_of_lt (by omega), hna]) hwc
    (by rw [hnb]; rfl) heq hmax
  refine ⟨C1, hC1, fun i hi => ?_⟩
  have e2 : p - 1 + 1 = p := by omega
  rw [hC1x, hzero i hi, ttv_nest_value 0 (p - 1) c a b nc wc na wa A B (by omega) heq
    hinj i hi, e2]
  simp only [zero_add, Finset.range_zero, Finset.sum_empty]

theorem distinct_offsets_2x2_last : DistinctOffsets [2, 1] [2, 2] 2 := by
  intro i1 i2 h1 h2 hs j hj
  have a0 := h1 0 (by omega)
  have a1 := h1 1 (by omega)
  have b0 := h2 0 (by omega)
  have b1 := h2 1 (by omega)
  simp [offset, Finset.sum_range_succ] at hs a0 a1 b0 b1
  have : j = 0 ∨ j = 1 := by omega
  rcases this with rfl | rfl <;> omega

/-- Witness of C2: a 2 x 2 x 2 tensor (last-order strides) contracted at mode 1. -/
theorem ttv_contracts_first_mode_witness :
    ∃ C1, ttv 1 3 (some 0) [2, 2] [2, 1] (some 0) [2, 2, 2] [4, 2, 1] (some 0) [2, 1] [1, 1]
        (fun x => (x : Int) + 1) (fun x => (x : Int) + 1) (fun _ => 0) = Outcome.returned C1 ∧
      ∀ i, InBox [2, 2] (3 - 1) i →
        C1 (0 + offset [2, 1] (3 - 1) i) =
          ∑ k in range (([2, 2, 2] : List Nat).getD 0 0),
            (fun x : Nat => (x : Int) + 1)
              (0 + (([4, 2, 1] : List Nat).getD 0 0 * k
                + ∑ j in Ico 1 3, ([4, 2, 1] : List Nat).getD j 0 * i (j - 1))) *
              (fun x : Nat => (x : Int) + 1) (0 + k) :=
  ttv_contracts_first_mode 3 0 0 0 [2, 2] [2, 1] [2, 2, 2] [4, 2, 1] [2, 1] [1, 1]
    (fun x => (x : Int) + 1) (fun x => (x : Int) + 1) (fun _ => 0)
    (by decide) rfl rfl rfl
    (by intro j hj; have : j = 0 ∨ j = 1 ∨ j = 2 := by omega
        rcases this with rfl | rfl | rfl <;> simp)
    rfl rfl distinct_offsets_2x2_last (fun _ _ => rfl)

theorem ttm_zero_eq (m c : Nat) (nc wc : List Nat) (a : Nat) (na wa : List Nat) (b : Nat)
    (nb wb : List Nat) (A B : Mem) (hm : 0 ≠ m) :
    detail.ttm m 0 c nc wc a na wa b nb wb A B =
      cfor nc[0]? wc[0]? wa[0]? (fun c a C =>
        cfor nc[m]? wc[m]? wb[0]? (fun cm b0 C =>
          cfor nb[1]? wa[m]? wb[1]? (fun am b1 C => some (fma A B cm am b1 C)) a b0 C)
          c b C) c a := by
  funext C
  rw [detail.ttm]
  simp [hm]

theorem ttm_succ_eq (m r c : Nat) (nc wc : List Nat) (a : Nat) (na wa : List Nat) (b : Nat)
    (nb wb : List Nat) (A B : Mem) :
    detail.ttm m (r + 1) c nc wc a na wa b nb wb A B =
      if r + 1 = m then detail.ttm m r c nc wc a na wa b nb wb A B
      else cfor na[r + 1]? wc[r + 1]? wa[r + 1]? (fun c a C =>
        detail.ttm m r c nc wc a na wa b nb wb A B C) c a := by
  funext C
  rw [detail.ttm]
  split <;> rfl

theorem ttm0_one_eq (c : Nat) (nc wc : List Nat) (a : Nat) (na wa : List Nat) (b : Nat)
    (nb wb : List Nat) (A B : Mem) :
    detail.ttm0 1 c nc wc a na wa b nb wb A B =
      cfor nc[1]? wc[1]? wa[1]? (fun c a C =>
        cfor nc[0]? wc[0]? wb[0]? (fun cm b0 C =>
          cfor nb[1]? wa[0]? wb[1]? (fun am b1 C => some (fma A B cm am b1 C)) a b0 C)
          c b C) c a := by
  funext C
  rw [detail.ttm0]
  intro r hr
  omega

theorem ttm0_succ_eq (r c : Nat) (nc wc : List Nat) (a : Nat) (na wa : List Nat) (b : Nat)
    (nb wb : List Nat) (A B : Mem) :
    detail.ttm0 (r + 2) c nc wc a na wa b nb wb A B =
      cfor na[r + 2]? wc[r + 2]? wa[r + 2]? (fun c a C =>
        detail.ttm0 (r + 1) c nc wc a na wa b nb wb A B C) c a := by
  funext C
  rw [detail.ttm0]

/-- The two innermost loops and the statement of `detail::ttm` and `detail::ttm0`, as a
nest of two levels: the loop over axis `x` of `A` and `C` around the loop over the new
axis `m` of `C`. -/
theorem adds_ttm_base (m x : Nat) (nc wc na wa nb wb : List Nat) (b : Nat) (A B : Mem)
    (hx : ttm_axis m 1 = x)
    (hnc : x < nc.length) (hncm : m < nc.length) (hwc : x < wc.length) (hwcm : m < wc.length)
    (hwa : x < wa.length) (hwam : m < wa.length) (hnb : 1 < nb.length) (hwb : 1 < wb.length)
    (c a : Nat) :
    Adds (cfor nc[x]? wc[x]? wa[x]? (fun c a C =>
        cfor nc[m]? wc[m]? wb[0]? (fun cm b0 C =>
          cfor nb[1]? wa[m]? wb[1]? (fun am b1 C => some (fma A B cm am b1 C)) a b0 C)
          c b C) c a)
      (nestD (ttm_n m nc na) (ttm_sc m wc) (ttm_sa m wa) (ttm_sb wb)
        (dot A B (nb.getD 1 0) (wa.getD m 0) (wb.getD 1 0)) 2 c a b) := by
  rw [rd_some nc x hnc, rd_some wc x hwc, rd_some wa x hwa, rd_some nc m hncm,
    rd_some wc m hwcm, rd_some wb 0 (by omega), rd_some nb 1 hnb, rd_some wa m hwam,
    rd_some wb 1 hwb]
  refine adds_level 1 c a b _ _ _ _ ?_ ?_ ?_ ?_ (fun c a => ?_)
  · simp [ttm_n, hx]
  · simp [ttm_sc, hx]
  · simp [ttm_sa, hx]
  · simp [ttm_sb]
  · refine adds_level_cb 0 c a b _ _ _ _ ?_ ?_ ?_ ?_ (fun c b => adds_leaf A B _ _ _ c a b)
    · simp [ttm_n, ttm_axis]
    · simp [ttm_sc, ttm_axis]
    · simp [ttm_sb]
    · simp [ttm_sa]

/-- The kernel `detail::ttm`, entered at level `r`, is the nest of `ttm_levels m r`
loops. -/
theorem adds_ttm (m : Nat) (nc wc na wa nb wb : List Nat) (b : Nat) (A B : Mem)
    (hm : 1 ≤ m) (hncm : m < nc.length) (hwcm : m < wc.length) (hwam : m < wa.length)
    (hnb : 1 < nb.length) (hwb : 1 < wb.length) :
    ∀ r, r < na.length → r < wa.length → r < wc.length → ∀ c a,
      Adds (detail.ttm m r c nc wc a na wa b nb wb A B)
        (nestD (ttm_n m nc na) (ttm_sc m wc) (ttm_sa m wa) (ttm_sb wb)
          (dot A B (nb.getD 1 0) (wa.getD m 0) (wb.getD 1 0)) (ttm_levels m r) c a b) := by
  intro r
  induction r with
  | zero =>
    intro _ hwa hwc c a
    have h0 : (0 : Nat) < m := hm
    have hl : ttm_levels m 0 = 2 := by simp [ttm_levels, h0]
    rw [hl, ttm_zero_eq m c nc wc a na wa b nb wb A B (Nat.ne_of_lt h0)]
    exact adds_ttm_base m 0 nc wc na wa nb wb b A B (by simp [ttm_axis, hm]) (by omega) hncm
      hwc hwcm hwa hwam hnb hwb c a
  | succ r ih =>
    intro hna hwa hwc c a
    rw [ttm_succ_eq]
    by_cases h1 : r + 1 = m
    · have hr : r < m := by omega
      have hl : ttm_levels m (r + 1) = ttm_levels m r := by
        have hn : ¬ r + 1 < m := by omega
        simp only [ttm_levels, if_pos hr, if_neg hn]
      simp only [if_pos h1]
      rw [hl]
      exact ih (by omega) (by omega) (by omega) c a
    · simp only [if_neg h1]
      rw [rd_some na _ hna, rd_some wc _ hwc, rd_some wa _ hwa]
      by_cases h2 : r + 1 < m
      · have hr : r < m := by omega
        have hl : ttm_levels m (r + 1) = ttm_levels m r + 1 := by simp [ttm_levels, hr, h2]
        have hl0 : ttm_levels m r = r + 2 := by simp [ttm_levels, hr]
        have hax : ttm_axis m (r + 2) = r + 1 := by
          have : r + 2 ≤ m := by omega
          simp [ttm_axis, this]
        rw [hl]
        refine adds_level (ttm_levels m r) c a b _ _ _ _ ?_ ?_ ?_ ?_
          (fun c a => ih (by omega) (by omega) (by omega) c a)
        · simp [hl0, ttm_n, hax]
        · simp [hl0, ttm_sc, hax]
        · simp [hl0, ttm_sa, hax]
        · simp [hl0, ttm_sb]
      · have hr1 : ¬ r < m := by omega
        have hl : ttm_levels m (r + 1) = ttm_levels m r + 1 := by simp [ttm_levels, hr1, h2]
        have hl0 : ttm_levels m r = r + 1 := by simp [ttm_levels, hr1]
        have hax : ttm_axis m (r + 1) = r + 1 := by
          have : ¬ r + 1 ≤ m := by omega
          simp [ttm_axis, this]
        have hr2 : ¬ r + 1 < 2 := by omega
        rw [hl]
        refine adds_level (ttm_levels m r) c a b _ _ _ _ ?_ ?_ ?_ ?_
          (fun c a => ih (by omega) (by omega) (by omega) c a)
        · simp [hl0, ttm_n, hax, hr2]
        · simp [hl0, ttm_sc, hax]
        · simp [hl0, ttm_sa, hax]
        · simp [hl0, ttm_sb]

/-- The kernel `detail::ttm0`, entered at level `r + 1`, is the nest of `r + 2` loops. -/
theorem adds_ttm0 (nc wc na wa nb wb : List Nat) (b : Nat) (A B : Mem)
    (hnc : 1 < nc.length) (hnb : 1 < nb.length) (hwb : 1 < wb.length) :
    ∀ r, r + 1 < na.length → r + 1 < wa.length → r + 1 < wc.length → ∀ c a,
      Adds (detail.ttm0 (r + 1) c nc wc a na wa b nb wb A B)
        (nestD (ttm_n 0 nc na) (ttm_sc 0 wc) (ttm_sa 0 wa) (ttm_sb wb)
          (dot A B (nb.getD 1 0) (wa.getD 0 0) (wb.getD 1 0)) (r + 2) c a b) := by
  intro r
  induction r with
  | zero =>
    intro _ hwa hwc c a
    rw [ttm0_one_eq]
    exact adds_ttm_base 0 1 nc wc na wa nb wb b A B (by simp [ttm_axis]) hnc (by omega)
      hwc (by omega) hwa (by omega) hnb hwb c a
  | succ r ih =>
    intro hna hwa hwc c a
    rw [ttm0_succ_eq, rd_some na _ hna, rd_some wc _ hwc, rd_some wa _ hwa]
    have hax : ttm_axis 0 (r + 2) = r + 2 := by simp [ttm_axis]
    refine adds_level (r + 2) c a b _ _ _ _ ?_ ?_ ?_ ?_
      (fun c a => ih (by omega) (by omega) (by omega) c a)
    · simp [ttm_n, hax]
    · simp [ttm_sc, hax]
    · simp [ttm_sa, hax]
    · simp [ttm_sb]

theorem ttm_axis_lt (m p l : Nat) (hm : m < p) (hl : l < p) : ttm_axis m l < p := by
  unfold ttm_axis
  split
  · exact hm
  · split <;> omega

theorem ttm_level_lt (m p j : Nat) (hj : j < p) (hm : m < p) : ttm_level m j < p := by
  unfold ttm_level
  split
  · omega
  · split <;> omega

theorem ttm_level_axis (m l : Nat) : ttm_level m (ttm_axis m l) = l := by
  unfold ttm_level ttm_axis
  by_cases h0 : l = 0
  · simp [h0]
  · by_cases h1 : l ≤ m
    · have h2 : l - 1 ≠ m := by omega
      have h3 : l - 1 < m := by omega
      simp only [if_neg h0, if_pos h1, if_neg h2, if_pos h3]
      omega
    · have h2 : l ≠ m := by omega
      have h3 : ¬ l < m := by omega
      simp only [if_neg h0, if_neg h1, if_neg h2, if_neg h3]

theorem ttm_axis_level (m j : Nat) : ttm_axis m (ttm_level m j) = j := by
  unfold ttm_level ttm_axis
  by_cases h0 : j = m
  · simp [h0]
  · by_cases h1 : j < m
    · have h2 : j + 1 ≠ 0 := by omega
      have h3 : j + 1 ≤ m := by omega
      simp only [if_neg h0, if_pos h1, if_neg h2, if_pos h3]
      omega
    · have h2 : j ≠ 0 := by omega
      have h3 : ¬ j ≤ m := by omega
      simp only [if_neg h0, if_neg h1, if_neg h2, if_neg h3]

theorem ttm_axis_eq_mode (m l : Nat) : ttm_axis m l = m ↔ l = 0 := by
  constructor
  · intro h
    have := ttm_level_axis m l
    rw [h] at this
    simpa [ttm_level] using this.symm
  · intro h
    simp [ttm_axis, h]

/-- Summing over the levels of the nest of `detail::ttm` is summing over the axes. -/
theorem sum_ttm_axis (g : Nat → Nat) (m p : Nat) (h : m < p) :
    ∑ l in range p, g (ttm_axis m l) = ∑ j in range p, g j := by
  obtain ⟨t, rfl⟩ : ∃ t, p = m + 1 + t := ⟨p - (m + 1), by omega⟩
  rw [Finset.sum_range_add, Finset.sum_range_add (fun j => g j)]
  congr 1
  · rw [Finset.sum_range_succ', Finset.sum_range_succ (fun j => g j)]
    congr 1
    · refine Finset.sum_congr rfl (fun l hl => ?_)
      have : l + 1 ≤ m := Finset.mem_range.mp hl
      simp [ttm_axis, this]
  · refine Finset.sum_congr rfl (fun l _ => ?_)
    have h1 : m + 1 + l ≠ 0 := by omega
    have h2 : ¬ m + 1 + l ≤ m := by omega
    simp only [ttm_axis, if_neg h1, if_neg h2]

theorem lsum_ttm_sc (m p : Nat) (wc : List Nat) (i : Nat → Nat) (h : m < p) :
    lsum (ttm_sc m wc) (fun l => i (ttm_axis m l)) p = offset wc p i := by
  unfold lsum offset ttm_sc
  exact sum_ttm_axis (fun j => wc.getD j 0 * i j) m p h

theorem lsum_ttm_sa (m p : Nat) (wa : List Nat) (i : Nat → Nat) (h : m < p) :
    lsum (ttm_sa m wa) (fun l => i (ttm_axis m l)) p =
      ∑ j in (range p).erase m, wa.getD j 0 * i j := by
  have e : ∀ l, ttm_sa m wa l * i (ttm_axis m l) =
      (fun j => if j = m then 0 else wa.getD j 0 * i j) (ttm_axis m l) := by
    intro l
    by_cases h0 : l = 0
    · simp [ttm_sa, h0, ttm_axis]
    · have : ttm_axis m l ≠ m := fun hh => h0 ((ttm_axis_eq_mode m l).mp hh)
      simp [ttm_sa, h0, this]
  unfold lsum
  rw [Finset.sum_congr rfl (fun l _ => e l),
    sum_ttm_axis (fun j => if j = m then 0 else wa.getD j 0 * i j) m p h,
    ← Finset.add_sum_erase (range p) _ (Finset.mem_range.mpr h)]
  simp only [if_true, zero_add]
  refine Finset.sum_congr rfl (fun j hj => ?_)
  simp [Finset.ne_of_mem_erase hj]

theorem lsum_ttm_sb (m p : Nat) (wb : List Nat) (i : Nat → Nat) (h : 0 < p) :
    lsum (ttm_sb wb) (fun l => i (ttm_axis m l)) p = wb.getD 0 0 * i m := by
  unfold lsum
  rw [Finset.sum_eq_single 0]
  · simp [ttm_sb, ttm_axis]
  · intro l _ hl
    simp [ttm_sb, hl]
  · intro h0
    exact absurd (Finset.mem_range.mpr h) h0

/-- Pairwise distinct offsets over the axes give pairwise distinct offsets over the
levels of the nest of `detail::ttm`. -/
theorem levelInj_ttm (m p : Nat) (wc nc na : List Nat) (hm : m < p)
    (heq : ∀ j, j < p → j ≠ m → na.getD j 0 = nc.getD j 0)
    (h : DistinctOffsets wc nc p) : LevelInj (ttm_n m nc na) (ttm_sc m wc) p := by
  have hn : ∀ l, l < p → ttm_n m nc na l = nc.getD (ttm_axis m l) 0 := by
    intro l hl
    unfold ttm_n
    by_cases h2 : l < 2
    · simp [h2]
    · have : ttm_axis m l ≠ m := fun hh => by
        have := (ttm_axis_eq_mode m l).mp hh
        omega
      simp only [if_neg h2]
      exact heq _ (ttm_axis_lt m p l hm hl) this
  have hoff : ∀ e : Nat → Nat, offset wc p (fun j => e (ttm_level m j)) = lsum (ttm_sc m wc) e p := by
    intro e
    rw [← lsum_ttm_sc m p wc _ hm]
    refine lsum_congr _ _ _ _ (fun l _ => ?_)
    simp only [ttm_level_axis]
  have hbox : ∀ e : Nat → Nat, (∀ l, l < p → e l < ttm_n m nc na l) →
      InBox nc p (fun j => e (ttm_level m j)) := by
    intro e he j hj
    have := he (ttm_level m j) (ttm_level_lt m p j hj hm)
    rw [hn _ (ttm_level_lt m p j hj hm), ttm_axis_level] at this
    exact this
  intro e1 e2 h1 h2 hs l hl
  have := h _ _ (hbox e1 h1) (hbox e2 h2) (by rw [hoff, hoff, hs]) (ttm_axis m l)
    (ttm_axis_lt m p l hm hl)
  simpa [ttm_level_axis] using this

/-- Public `ttm` on an input that passes its checks (rank at least 2): it returns, and
what it has added to the output is the nest of `p` loops of its kernel. -/
theorem ttm_returns (m p c a b : Nat) (nc wc na wa nb wb : List Nat) (A B C : Mem)
    (hp : 2 ≤ p) (hm : 1 ≤ m) (hmp : m ≤ p)
    (hna : na.length = p) (hwa : wa.length = p) (hnc : nc.length = p) (hwc : wc.length = p)
    (hnb : nb.length = 2) (hwb : wb.length = 2)
    (heq : ∀ j, j < p → j ≠ m - 1 → na.getD j 0 = nc.getD j 0)
    (h1 : na.getD (m - 1) 0 = nb.getD 1 0) (h0 : nc.getD (m - 1) 0 = nb.getD 0 0) :
    ∃ C1, ttm m p (some c) nc wc (some a) na wa (some b) nb wb A B C = Outcome.returned C1 ∧
      ∀ x, C1 x = C x + nestD (ttm_n (m - 1) nc na) (ttm_sc (m - 1) wc) (ttm_sa (m - 1) wa)
        (ttm_sb wb) (dot A B (nb.getD 1 0) (wa.getD (m - 1) 0) (wb.getD 1 0)) p c a b x := by
  have hm0 : m ≠ 0 := by omega
  have hpm : ¬ p < m := by omega
  have hp0 : p ≠ 0 := by omega
  have hd1 : extents_differ na nc 0 (m - 1) 0 = some false := by
    refine extents_differ_false na nc 0 (m - 1) 0 (fun k hk => ⟨by omega, by omega⟩) ?_
    intro k hk
    simp only [Nat.zero_add, Nat.sub_zero]
    exact heq k (by omega) (by omega)
  have hd2 : extents_differ na nc 0 (p - m) m = some false := by
    refine extents_differ_false na nc 0 (p - m) m (fun k hk => ⟨by omega, by omega⟩) ?_
    intro k hk
    simp only [Nat.sub_zero]
    exact heq (m + k) (by omega) (by omega)
  have hkernel : Adds (if m ≠ 1 then detail.ttm (m - 1) (p - 1) c nc wc a na wa b nb wb A B
      else detail.ttm0 (p - 1) c nc wc a na wa b nb wb A B)
      (nestD (ttm_n (m - 1) nc na) (ttm_sc (m - 1) wc) (ttm_sa (m - 1) wa)
        (ttm_sb wb) (dot A B (nb.getD 1 0) (wa.getD (m - 1) 0) (wb.getD 1 0)) p c a b) := by
    by_cases hm1 : m = 1
    · subst hm1
      have e : p = (p - 2) + 2 := by omega
      have e1 : p - 1 = (p - 2) + 1 := by omega
      simp only [ne_eq, not_true_eq_false, if_false, Nat.sub_self]
      rw [e1]
      have := adds_ttm0 nc wc na wa nb wb b A B (by omega) (by omega) (by omega) (p - 2)
        (by omega) (by omega) (by omega) c a
      rw [← e] at this
      exact this
    · have hl : ttm_levels (m - 1) (p - 1) = p := by
        have : ¬ p - 1 < m - 1 := by omega
        simp only [ttm_levels, if_neg this]
        omega
      simp only [ne_eq, hm1, not_false_eq_true, if_true]
      have := adds_ttm (m - 1) nc wc na wa nb wb b A B (by omega) (by omega) (by omega)
        (by omega) (by omega) (by omega) (p - 1) (by omega) (by omega) (by omega) c a
      rw [hl] at this
      exact this
  obtain ⟨C1, hC1, hC1x⟩ := hkernel C
  refine ⟨C1, ?_, hC1x⟩
  have hne1 : ¬ na.getD (m - 1) 0 ≠ nb.getD 1 0 := by simpa using h1
  have hne0 : ¬ nc.getD (m - 1) 0 ≠ nb.getD 0 0 := by simpa using h0
  simp only [ttm, if_neg hm0, if_neg hpm, if_neg hp0, hd1, hd2, rd_some na (m - 1) (by omega),
    rd_some nb 1 (by omega), rd_some nc (m - 1) (by omega), rd_some nb 0 (by omega), if_neg hne1,
    if_neg hne0]
  by_cases hm1 : m = 1
  · simp only [hm1, ne_eq, not_true_eq_false, if_false] at hC1 ⊢
    rw [hC1]
    rfl
  · simp only [ne_eq, hm1, not_false_eq_true, if_true] at hC1 ⊢
    rw [hC1]
    rfl

/-- The value that the nest of `detail::ttm` adds to the output cell of a multi-index. -/
theorem ttm_nest_value (m p c a b : Nat) (nc wc na wa nb wb : List Nat) (A B : Mem)
    (hm : m < p) (heq : ∀ j, j < p → j ≠ m → na.getD j 0 = nc.getD j 0)
    (hinj : DistinctOffsets wc nc p) (i : Nat → Nat) (hi : InBox nc p i) :
    nestD (ttm_n m nc na) (ttm_sc m wc) (ttm_sa m wa) (ttm_sb wb)
        (dot A B (nb.getD 1 0) (wa.getD m 0) (wb.getD 1 0)) p c a b (c + offset wc p i) =
      ∑ k in range (nb.getD 1 0),
        A (a + (∑ j in (range p).erase m, wa.getD j 0 * i j + wa.getD m 0 * k)) *
          B (b + (wb.getD 0 0 * i m + wb.getD 1 0 * k)) := by
  have hbox : ∀ l, l < p → (fun l => i (ttm_axis m l)) l < ttm_n m nc na l := by
    intro l hl
    have hax := ttm_axis_lt m p l hm hl
    have := hi _ hax
    unfold ttm_n
    by_cases h2 : l < 2
    · simpa [h2] using this
    · have hne : ttm_axis m l ≠ m := fun hh => by
        have := (ttm_axis_eq_mode m l).mp hh
        omega
      simp only [if_neg h2]
      rw [heq _ hax hne]
      exact this
  rw [← lsum_ttm_sc m p wc i hm,
    nestD_target _ _ _ _ _ p c a b _ (levelInj_ttm m p wc nc na hm heq hinj) hbox,
    lsum_ttm_sa m p wa i hm, lsum_ttm_sb m p wb i (by omega)]
  unfold dot
  refine Finset.sum_congr rfl (fun k _ => ?_)
  congr 2
  · ring
  · ring

theorem getD_set_ne (l : List Nat) (i j v : Nat) (h : j ≠ i) :
    (l.set i v).getD j 0 = l.getD j 0 := by
  simp [List.getD, List.getElem?_set_ne (Ne.symm h)]

theorem getD_set_eq (l : List Nat) (i v : Nat) (h : i < l.length) :
    (l.set i v).getD i 0 = v := by
  simp [List.getD, List.getElem?_set_self h]

/-- C3: public `ttm` for rank `p ≥ 2` and mode `2 ≤ m ≤ p`.  With `nb[1] = na[m-1]`, `nc`
equal to `na` except `nc[m-1] = nb[0]`, pairwise distinct output offsets and an output that
is zero at these offsets, the call returns normally and every output cell holds
`Σ_{k < nb[1]} A[Σ_{j≠m-1} wa[j] i_j + wa[m-1] k] * B[wb[0] i_{m-1} + wb[1] k]`. -/
theorem ttm_contracts_inner_mode (m p c a b nb0 nb1 : Nat) (nc wc na wa nb wb : List Nat)
    (A B C : Mem)
    (hp : 2 ≤ p) (hm : 2 ≤ m) (hmp : m ≤ p)
    (hna : na.length = p) (hwa : wa.length = p) (hwc : wc.length = p) (hwb : wb.length = 2)
    (hnb : nb = [nb0, nb1]) (hnb1 : nb1 = na.getD (m - 1) 0)
    (hnc : nc = na.set (m - 1) nb0)
    (hinj : DistinctOffsets wc nc p)
    (hzero : ∀ i, InBox nc p i → C (c + offset wc p i) = 0) :
    ∃ C1, ttm m p (some c) nc wc (some a) na wa (some b) nb wb A B C = Outcome.returned C1 ∧
      ∀ i, InBox nc p i →
        C1 (c + offset wc p i) =
          ∑ k in range nb1,
            A (a + (∑ j in (range p).erase (m - 1), wa.getD j 0 * i j + wa.getD (m - 1) 0 * k)) *
              B (b + (wb.getD 0 0 * i (m - 1) + wb.getD 1 0 * k)) := by
  have heq : ∀ j, j < p → j ≠ m - 1 → na.getD j 0 = nc.getD j 0 := by
    intro j _ hj
    rw [hnc, getD_set_ne na (m - 1) j nb0 hj]
  obtain ⟨C1, hC1, hC1x⟩ := ttm_returns m p c a b nc wc na wa nb wb A B C hp (by omega) hmp hna
    hwa (by rw [hnc, List.length_set, hna]) hwc (by rw [hnb]; rfl) hwb heq
    (by rw [hnb, hnb1]; rfl)
    (by rw [hnc, hnb, getD_set_eq na (m - 1) nb0 (by omega)]; rfl)
  refine ⟨C1, hC1, fun i hi => ?_⟩
  rw [hC1x, hzero i hi, ttm_nest_value (m - 1) p c a b nc wc na wa nb wb A B (by omega) heq
    hinj i hi, hnb]
  simp

/-- C4: public `ttm` for rank `p ≥ 2` and mode 1.  With `nb[1] = na[0]`,
`nc = (nb[0], na[1], ..., na[p-1])`, pairwise distinct output offsets and an output that is
zero at these offsets, the call returns normally and every output cell holds
`Σ_{k < nb[1]} A[wa[0] k + Σ_{r≥1} wa[r] i_r] * B[wb[0] j + wb[1] k]`, with `j = i_0`. -/
theorem ttm_contracts_first_mode (p c a b nb0 nb1 : Nat) (nc wc na wa nb wb : List Nat)
    (A B C : Mem)
    (hp : 2 ≤ p)
    (hna : na.length = p) (hwa : wa.length = p) (hwc : wc.length = p) (hwb : wb.length = 2)
    (hnb : nb = [nb0, nb1]) (hnb1 : nb1 = na.getD 0 0)
    (hnc : nc = na.set 0 nb0)
    (hinj : DistinctOffsets wc nc p)
    (hzero : ∀ i, InBox nc p i → C (c + offset wc p i) = 0) :
    ∃ C1, ttm 1 p (some c) nc wc (some a) na wa (some b) nb wb A B C = Outcome.returned C1 ∧
      ∀ i, InBox nc p i →
        C1 (c + (wc.getD 0 0 * i 0 + ∑ r in Ico 1 p, wc.getD r 0 * i r)) =
          ∑ k in range nb1,
            A (a + (wa.getD 0 0 * k + ∑ r in Ico 1 p, wa.getD r 0 * i r)) *
              B (b + (wb.getD 0 0 * i 0 + wb.getD 1 0 * k)) := by
  have heq : ∀ j, j < p → j ≠ 1 - 1 → na.getD j 0 = nc.getD j 0 := by
    intro j _ hj
    rw [hnc, getD_set_ne na 0 j nb0 hj]
  obtain ⟨C1, hC1, hC1x⟩ := ttm_returns 1 p c a b nc wc na wa nb wb A B C hp (by omega)
    (by omega) hna hwa (by rw [hnc, List.length_set, hna]) hwc (by rw [hnb]; rfl) hwb heq
    (by rw [hnb, hnb1]; rfl)
    (by rw [hnc, hnb, getD_set_eq na 0 nb0 (by omega)]; rfl)
  refine ⟨C1, hC1, fun i hi => ?_⟩
  have hers : (range p).erase 0 = Ico 1 p := by
    ext j
    simp only [Finset.mem_erase, Finset.mem_range, Finset.mem_Ico]
    omega
  have hoff : wc.getD 0 0 * i 0 + ∑ r in Ico 1 p, wc.getD r 0 * i r = offset wc p i := by
    unfold offset
    rw [← hers, Finset.add_sum_erase (range p) (fun r => wc.getD r 0 * i r)
      (Finset.mem_range.mpr (by omega))]
  rw [hoff, hC1x, hzero i hi, ttm_nest_value 0 p c a b nc wc na wa nb wb A B (by omega) heq
    hinj i hi, hnb, hers]
  simp only [List.getD_cons_succ, List.getD_cons_zero, zero_add]
  refine Finset.sum_congr rfl (fun k _ => ?_)
  congr 3
  ring

/-- Witness of C3: a 2 x 2 matrix times a 2 x 2 matrix at mode 2 (first-order strides). -/
theorem ttm_contracts_inner_mode_witness :
    ∃ C1, ttm 2 2 (some 0) [2, 2] [1, 2] (some 0) [2, 2] [1, 2] (some 0) [2, 2] [1, 2]
        (fun x => (x : Int) + 1) (fun x => (x : Int) + 1) (fun _ => 0) = Outcome.returned C1 ∧
      ∀ i, InBox [2, 2] 2 i →
        C1 (0 + offset [1, 2] 2 i) =
          ∑ k in range 2,
            (fun x : Nat => (x : Int) + 1)
              (0 + (∑ j in (range 2).erase (2 - 1), ([1, 2] : List Nat).getD j 0 * i j
                + ([1, 2] : List Nat).getD (2 - 1) 0 * k)) *
              (fun x : Nat => (x : Int) + 1)
                (0 + (([1, 2] : List Nat).getD 0 0 * i (2 - 1)
                  + ([1, 2] : List Nat).getD 1 0 * k)) :=
  ttm_contracts_inner_mode 2 2 0 0 0 2 2 [2, 2] [1, 2] [2, 2] [1, 2] [2, 2] [1, 2]
    (fun x => (x : Int) + 1) (fun x => (x : Int) + 1) (fun _ => 0)
    (by decide) (by decide) (by decide) rfl rfl rfl rfl rfl rfl rfl
    distinct_offsets_2x2 (fun _ _ => rfl)

/-- Witness of C4: a 2 x 2 matrix times a 2 x 2 matrix at mode 1 (first-order strides). -/
theorem ttm_contracts_first_mode_witness :
    ∃ C1, ttm 1 2 (some 0) [2, 2] [1, 2] (some 0) [2, 2] [1, 2] (some 0) [2, 2] [1, 2]
        (fun x => (x : Int) + 1) (fun x => (x : Int) + 1) (fun _ => 0) = Outcome.returned C1 ∧
      ∀ i, InBox [2, 2] 2 i →
        C1 (0 + (([1, 2] : List Nat).getD 0 0 * i 0
            + ∑ r in Ico 1 2, ([1, 2] : List Nat).getD r 0 * i r)) =
          ∑ k in range 2,
            (fun x : Nat => (x : Int) + 1)
              (0 + (([1, 2] : List Nat).getD 0 0 * k
                + ∑ r in Ico 1 2, ([1, 2] : List Nat).getD r 0 * i r)) *
              (fun x : Nat => (x : Int) + 1)
                (0 + (([1, 2] : List Nat).getD 0 0 * i 0
                  + ([1, 2] : List Nat).getD 1 0 * k)) :=
  ttm_contracts_first_mode 2 0 0 0 2 2 [2, 2] [1, 2] [2, 2] [1, 2] [2, 2] [1, 2]
    (fun x => (x : Int) + 1) (fun x => (x : Int) + 1) (fun _ => 0)
    (by decide) rfl rfl rfl rfl rfl rfl rfl
    distinct_offsets_2x2 (fun _ _ => rfl)

/-- Public `ttv` on a matrix (rank 2) that passes its checks: it returns, and what it has
added to the output is the single loop of `detail::mtv` over the axis `o` of `A` that is
not contracted, which moves the output pointer by `wc[o]`. -/
theorem ttv_rank_two_returns (m c a b : Nat) (nc wc na wa nb wb : List Nat) (A B C : Mem)
    (hm : 1 ≤ m) (hm2 : m ≤ 2) (hna : na.length = 2) (hwa : wa.length = 2)
    (hnc : 1 ≤ nc.length) (hwc : (if m - 1 = 0 then 1 else 0) < wc.length)
    (hnb : nb.length = 2)
    (heq : nc.getD 0 0 = na.getD (if m - 1 = 0 then 1 else 0) 0)
    (hmax : na.getD (m - 1) 0 = max (nb.getD 0 0) (nb.getD 1 0)) :
    ∃ C1, ttv m 2 (some c) nc wc (some a) na wa (some b) nb wb A B C = Outcome.returned C1 ∧
      ∀ x, C1 x = C x + nestD (fun _ => na.getD (if m - 1 = 0 then 1 else 0) 0)
        (fun _ => wc.getD (if m - 1 = 0 then 1 else 0) 0)
        (fun _ => wa.getD (if m - 1 = 0 then 1 else 0) 0) (fun _ => 0)
        (dot A B (na.getD (m - 1) 0) (wa.getD (m - 1) 0) 1) 1 c a b x := by
  have hm0 : m ≠ 0 := by omega
  have hpm : ¬ 2 < m := by omega
  have hd1 : extents_differ na nc 0 (m - 1) 0 = some false := by
    refine extents_differ_false na nc 0 (m - 1) 0 (fun k hk => ⟨by omega, by omega⟩) ?_
    intro k hk
    have hk0 : k = 0 := by omega
    have hm1 : ¬ m - 1 = 0 := by omega
    subst hk0
    rw [heq, if_neg hm1]
  have hd2 : extents_differ na nc 1 (2 - m) m = some false := by
    refine extents_differ_false na nc 1 (2 - m) m (fun k hk => ⟨by omega, by omega⟩) ?_
    intro k hk
    have hk0 : k = 0 := by omega
    have hm1 : m = 1 := by omega
    subst hk0 hm1
    rw [heq]
    rfl
  obtain ⟨C1, hC1, hC1x⟩ :=
    adds_mtv (m - 1) c nc wc a na wa b A B (by omega) hna hwa hwc C
  refine ⟨C1, ?_, hC1x⟩
  have hne : ¬ na.getD (m - 1) 0 ≠ max (nb.getD 0 0) (nb.getD 1 0) := by simpa using hmax
  have hp2 : ¬ (2 : Nat) > 2 := by omega
  simp only [ttv, if_neg hm0, if_neg hpm, hd1, hd2, rd_some nb 0 (by omega),
    rd_some nb 1 (by omega), rd_some na (m - 1) (by omega), if_neg hne, hp2, and_false,
    if_false, hC1, Outcome.ofKernel]
  simp

/-- A single loop with a positive step of the output pointer adds to the cell of the
index `i` the innermost value at `i`. -/
theorem loop_nest_value (n w s : Nat) (v : Nat → Nat → Int) (c a b i : Nat) (hw : 1 ≤ w)
    (hi : i < n) :
    nestD (fun _ => n) (fun _ => w) (fun _ => s) (fun _ => 0) v 1 c a b (c + w * i) =
      v (a + s * i) b := by
  have hLI : LevelInj (fun _ => n) (fun _ => w) 1 := by
    intro e1 e2 _ _ hs l hl
    have hl0 : l = 0 := by omega
    subst hl0
    simp only [lsum, Finset.sum_range_one] at hs
    exact Nat.eq_of_mul_eq_mul_left hw hs
  have := nestD_target (fun _ => n) (fun _ => w) (fun _ => s) (fun _ => 0) v 1 c a b
    (fun _ => i) hLI (fun _ _ => hi)
  simpa [lsum] using this

/-- Public `ttv` on an `n0 x n1` matrix at mode 2 with an output of rank 1 (one extent,
one stride `w0 ≥ 1`) and a vector of length `n1`: on an output that is zero at the
offsets `w0 i`, it leaves `Σ_{k < n1} A[wa[0] i + wa[1] k] * b[k]` in `C[w0 i]`. -/
theorem ttv_matrix_last_mode (c a b n0 n1 w0 : Nat) (wa nb wb : List Nat) (A B C : Mem)
    (hwa : wa.length = 2) (hn1 : 1 ≤ n1) (hw0 : 1 ≤ w0) (hnb : nb = [n1, 1])
    (hzero : ∀ i, i < n0 → C (c + w0 * i) = 0) :
    ∃ C1, ttv 2 2 (some c) [n0] [w0] (some a) [n0, n1] wa (some b) nb wb A B C
        = Outcome.returned C1 ∧
      ∀ i, i < n0 →
        C1 (c + w0 * i) = ∑ k in range n1, A (a + (wa.getD 0 0 * i + wa.getD 1 0 * k)) * B (b + k) := by
  obtain ⟨C1, hC1, hC1x⟩ := ttv_rank_two_returns 2 c a b [n0] [w0] [n0, n1] wa nb wb A B C
    (by omega) (by omega) rfl hwa (by simp) (by simp) (by rw [hnb]; rfl) (by simp)
    (by rw [hnb]; simp; omega)
  refine ⟨C1, hC1, fun i hi => ?_⟩
  have hv := loop_nest_value n0 w0 (wa.getD 0 0)
    (dot A B n1 (wa.getD 1 0) 1) c a b i hw0 hi
  simp only [Nat.add_one_sub_one, Nat.one_ne_zero, if_false, List.getD_cons_zero,
    List.getD_cons_succ] at hC1x
  rw [hC1x, hzero i hi, hv]
  simp only [dot, zero_add]
  refine Finset.sum_congr rfl (fun k _ => ?_)
  congr 2
  · ring
  · ring

/-- C5 at the failing input: public `ttv` on a 2 x 3 matrix at mode 1.  With an output of
rank 1 (one stride) the kernel `detail::mtv` reads `wc[1]`, past the end of the strides;
with a second stride `wc[1] = 5` the results land in `C[5 i]` and `C[wc[0] * 1]` stays
zero, where C5 expects `A[2] b[0] + A[3] b[1] = 3 * 1 + 4 * 2 = 11`. -/
theorem ttv_matrix_first_mode_steps_by_second_stride :
    ttv 1 2 (some 0) [3] [1] (some 0) [2, 3] [1, 2] (some 0) [2, 1] [1, 1]
        (fun x => (x : Int) + 1) (fun x => (x : Int) + 1) (fun _ => 0) = Outcome.undefined ∧
    ∃ C1, ttv 1 2 (some 0) [3] [1, 5] (some 0) [2, 3] [1, 2] (some 0) [2, 1] [1, 1]
        (fun x => (x : Int) + 1) (fun x => (x : Int) + 1) (fun _ => 0) = Outcome.returned C1 ∧
      C1 (1 * 1) = 0 ∧ C1 (5 * 1) = 11 := by
  refine ⟨rfl, _, rfl, ?_, ?_⟩ <;> decide

theorem ofKernel_not_raised (o : Option Mem) (msg : String) (C : Mem) :
    Outcome.ofKernel o ≠ Outcome.raised msg C := by
  cases o <;> simp [Outcome.ofKernel]

/-- C6 (amended): on arrays of the stated lengths, public `ttv` raises a length error if
and only if `m = 0`, `p = 0`, `p < m`, a data pointer is null, some axis `i < m-1` has
`na[i] ≠ nc[i]`, some axis `m ≤ i < p` has `na[i] ≠ nc[i-1]`, or `na[m-1]` differs from
`max(nb[0], nb[1])`. -/
theorem ttv_raises_iff (m p : Nat) (c a b : Option Nat) (nc wc na wa nb wb : List Nat)
    (A B C : Mem) (hna : na.length = p) (hnc : nc.length = p - 1) (hnb : nb.length = 2) :
    (∃ msg C1, ttv m p c nc wc a na wa b nb wb A B C = Outcome.raised msg C1) ↔
      (m = 0 ∨ p = 0 ∨ p < m ∨ c = none ∨ a = none ∨ b = none ∨
        (∃ i, i < m - 1 ∧ na.getD i 0 ≠ nc.getD i 0) ∨
        (∃ i, m ≤ i ∧ i < p ∧ na.getD i 0 ≠ nc.getD (i - 1) 0) ∨
        na.getD (m - 1) 0 ≠ max (nb.getD 0 0) (nb.getD 1 0)) := by
  by_cases hm0 : m = 0
  · have hL : ∃ msg C1, ttv m p c nc wc a na wa b nb wb A B C = Outcome.raised msg C1 :=
      ⟨_, C, by simp only [ttv, if_pos hm0]; rfl⟩
    exact ⟨fun _ => Or.inl hm0, fun _ => hL⟩
  by_cases hpm : p < m
  · have hL : ∃ msg C1, ttv m p c nc wc a na wa b nb wb A B C = Outcome.raised msg C1 :=
      ⟨_, C, by simp only [ttv, if_neg hm0, if_pos hpm]; rfl⟩
    exact ⟨fun _ => Or.inr (Or.inr (Or.inl hpm)), fun _ => hL⟩
  have hp0 : p ≠ 0 := by omega
  have hb1 : ∀ k, k < m - 1 → 0 + k < na.length ∧ 0 + k - 0 < nc.length := by
    intro k hk
    constructor <;> omega
  have hb2 : ∀ k, k < p - m → m + k < na.length ∧ m + k - 1 < nc.length := by
    intro k hk
    constructor <;> omega
  have hrd0 := rd_some nb 0 (by omega)
  have hrd1 := rd_some nb 1 (by omega)
  have hrdm := rd_some na (m - 1) (by omega)
  cases c with
  | none =>
    have hL : ∃ msg C1, ttv m p none nc wc a na wa b nb wb A B C = Outcome.raised msg C1 :=
      ⟨_, C, by simp only [ttv, if_neg hm0, if_neg hpm, if_neg hp0]; rfl⟩
    exact ⟨fun _ => by simp, fun _ => hL⟩
  | some c =>
  cases a with
  | none =>
    have hL : ∃ msg C1, ttv m p (some c) nc wc none na wa b nb wb A B C
        = Outcome.raised msg C1 :=
      ⟨_, C, by simp only [ttv, if_neg hm0, if_neg hpm, if_neg hp0]; rfl⟩
    exact ⟨fun _ => by simp, fun _ => hL⟩
  | some a =>
  cases b with
  | none =>
    have hL : ∃ msg C1, ttv m p (some c) nc wc (some a) na wa none nb wb A B C
        = Outcome.raised msg C1 :=
      ⟨_, C, by simp only [ttv, if_neg hm0, if_neg hpm, if_neg hp0]; rfl⟩
    exact ⟨fun _ => by simp, fun _ => hL⟩
  | some b =>
  obtain ⟨r1, hr1, hiff1⟩ := extents_differ_spec na nc 0 (m - 1) 0 hb1
  obtain ⟨r2, hr2, hiff2⟩ := extents_differ_spec na nc 1 (p - m) m hb2
  simp only [Nat.zero_add, Nat.sub_zero] at hiff1
  have hiff2b : r2 = true ↔ ∃ i, m ≤ i ∧ i < p ∧ na.getD i 0 ≠ nc.getD (i - 1) 0 := by
    rw [hiff2]
    constructor
    · rintro ⟨k, hk, hd⟩
      exact ⟨m + k, Nat.le_add_right m k, by omega, hd⟩
    · rintro ⟨i, h1, h2, hd⟩
      have e : m + (i - m) = i := by omega
      refine ⟨i - m, by omega, ?_⟩
      rw [e]
      exact hd
  cases r1 with
  | true =>
    have hL : ∃ msg C1, ttv m p (some c) nc wc (some a) na wa (some b) nb wb A B C
        = Outcome.raised msg C1 :=
      ⟨_, C, by simp only [ttv, if_neg hm0, if_neg hpm, if_neg hp0, hr1]; rfl⟩
    exact ⟨fun _ => Or.inr (Or.inr (Or.inr (Or.inr (Or.inr (Or.inr (Or.inl (hiff1.mp rfl))))))),
      fun _ => hL⟩
  | false =>
  cases r2 with
  | true =>
    have hL : ∃ msg C1, ttv m p (some c) nc wc (some a) na wa (some b) nb wb A B C
        = Outcome.raised msg C1 :=
      ⟨_, C, by simp only [ttv, if_neg hm0, if_neg hpm, if_neg hp0, hr1, hr2]; rfl⟩
    exact ⟨fun _ => Or.inr (Or.inr (Or.inr (Or.inr (Or.inr (Or.inr (Or.inr
        (Or.inl (hiff2b.mp rfl)))))))), fun _ => hL⟩
  | false =>
  have hn1 : ¬ ∃ i, i < m - 1 ∧ na.getD i 0 ≠ nc.getD i 0 := fun h => by
    have := hiff1.mpr h
    simp at this
  have hn2 : ¬ ∃ i, m ≤ i ∧ i < p ∧ na.getD i 0 ≠ nc.getD (i - 1) 0 := fun h => by
    have := hiff2b.mpr h
    simp at this
  by_cases hmax : na.getD (m - 1) 0 ≠ max (nb.getD 0 0) (nb.getD 1 0)
  · have hL : ∃ msg C1, ttv m p (some c) nc wc (some a) na wa (some b) nb wb A B C
        = Outcome.raised msg C1 :=
      ⟨_, C, by simp only [ttv, if_neg hm0, if_neg hpm, if_neg hp0, hr1, hr2, hrd0, hrd1, hrdm,
        if_pos hmax]; rfl⟩
    exact ⟨fun _ => Or.inr (Or.inr (Or.inr (Or.inr (Or.inr (Or.inr (Or.inr (Or.inr hmax))))))),
      fun _ => hL⟩
  · constructor
    · rintro ⟨msg, C1, h⟩
      simp only [ttv, if_neg hm0, if_neg hpm, if_neg hp0, hr1, hr2, hrd0, hrd1, hrdm,
        if_neg hmax] at h
      split at h
      · exact absurd h (ofKernel_not_raised _ _ _)
      · split at h <;> exact absurd h (ofKernel_not_raised _ _ _)
    · intro h
      simp only [hm0, hp0, hpm, hn1, hn2, hmax, false_or, reduceCtorEq] at h

/-- Witness of C6 (amended): a 2 x 3 matrix with a vector of length 2 at mode 2 (mismatch). -/
theorem ttv_raises_iff_witness :
    (∃ msg C1, ttv 2 2 (some 0) [2] [1] (some 0) [2, 3] [1, 2] (some 0) [2, 1] [1, 1]
        (fun _ => 1) (fun _ => 1) (fun _ => 0) = Outcome.raised msg C1) ↔
      (2 = 0 ∨ 2 = 0 ∨ 2 < 2 ∨ (some 0 : Option Nat) = none ∨ (some 0 : Option Nat) = none
        ∨ (some 0 : Option Nat) = none ∨
        (∃ i, i < 2 - 1 ∧ ([2, 3] : List Nat).getD i 0 ≠ ([2] : List Nat).getD i 0) ∨
        (∃ i, 2 ≤ i ∧ i < 2 ∧ ([2, 3] : List Nat).getD i 0 ≠ ([2] : List Nat).getD (i - 1) 0) ∨
        ([2, 3] : List Nat).getD (2 - 1) 0
          ≠ max (([2, 1] : List Nat).getD 0 0) (([2, 1] : List Nat).getD 1 0)) :=
  ttv_raises_iff 2 2 (some 0) (some 0) (some 0) [2] [1] [2, 3] [1, 2] [2, 1] [1, 1]
    (fun _ => 1) (fun _ => 1) (fun _ => 0) rfl rfl rfl

/-- C6 fails for a vector of length `n = 0` with extents `{0, 1}`: with `na = {1, 1}`,
`nc = {1}` and `m = 1` the extent `na[0] = 1` differs from `n = 0`, and no error is raised,
because the code compares `na[0]` with `max(0, 1) = 1`. -/
theorem ttv_raises_iff_length_zero :
    ¬ ((∃ msg C1, ttv 1 2 (some 0) [1] [1, 1] (some 0) [1, 1] [1, 1] (some 0) [0, 1] [1, 1]
        (fun _ => 1) (fun _ => 1) (fun _ => 0) = Outcome.raised msg C1) ↔
      (1 = 0 ∨ 2 = 0 ∨ 2 < 1 ∨ (some 0 : Option Nat) = none ∨ (some 0 : Option Nat) = none
        ∨ (some 0 : Option Nat) = none ∨
        (∃ i, i < 1 - 1 ∧ ([1, 1] : List Nat).getD i 0 ≠ ([1] : List Nat).getD i 0) ∨
        (∃ i, 1 ≤ i ∧ i < 2 ∧ ([1, 1] : List Nat).getD i 0 ≠ ([1] : List Nat).getD (i - 1) 0) ∨
        ([1, 1] : List Nat).getD (1 - 1) 0 ≠ 0)) := by
  intro h
  have hr : ∃ msg C1, ttv 1 2 (some 0) [1] [1, 1] (some 0) [1, 1] [1, 1] (some 0) [0, 1] [1, 1]
      (fun _ => 1) (fun _ => 1) (fun _ => 0) = Outcome.raised msg C1 :=
    h.mpr (by simp)
  obtain ⟨msg, C1, hC1⟩ := hr
  have hret : ∃ C2, ttv 1 2 (some 0) [1] [1, 1] (some 0) [1, 1] [1, 1] (some 0) [0, 1] [1, 1]
      (fun _ => 1) (fun _ => 1) (fun _ => 0) = Outcome.returned C2 := ⟨_, rfl⟩
  obtain ⟨C2, hC2⟩ := hret
  rw [hC2] at hC1
  cases hC1

/-- C7: on arrays of the stated lengths, public `ttm` raises a length error if and only if
`m = 0`, `p = 0`, `p < m`, a data pointer is null, some axis `i ≠ m-1` below `p` has
`na[i] ≠ nc[i]`, `na[m-1] ≠ nb[1]`, or `nc[m-1] ≠ nb[0]`. -/
theorem ttm_raises_iff (m p : Nat) (c a b : Option Nat) (nc wc na wa nb wb : List Nat)
    (A B C : Mem) (hna : na.length = p) (hnc : nc.length = p) (hnb : nb.length = 2) :
    (∃ msg C1, ttm m p c nc wc a na wa b nb wb A B C = Outcome.raised msg C1) ↔
      (m = 0 ∨ p = 0 ∨ p < m ∨ c = none ∨ a = none ∨ b = none ∨
        (∃ i, i < p ∧ i ≠ m - 1 ∧ na.getD i 0 ≠ nc.getD i 0) ∨
        na.getD (m - 1) 0 ≠ nb.getD 1 0 ∨ nc.getD (m - 1) 0 ≠ nb.getD 0 0) := by
  by_cases hm0 : m = 0
  · have hL : ∃ msg C1, ttm m p c nc wc a na wa b nb wb A B C = Outcome.raised msg C1 :=
      ⟨_, C, by simp only [ttm, if_pos hm0]; rfl⟩
    exact ⟨fun _ => Or.inl hm0, fun _ => hL⟩
  by_cases hpm : p < m
  · have hL : ∃ msg C1, ttm m p c nc wc a na wa b nb wb A B C = Outcome.raised msg C1 :=
      ⟨_, C, by simp only [ttm, if_neg hm0, if_pos hpm]; rfl⟩
    exact ⟨fun _ => Or.inr (Or.inr (Or.inl hpm)), fun _ => hL⟩
  have hp0 : p ≠ 0 := by omega
  have hb1 : ∀ k, k < m - 1 → 0 + k < na.length ∧ 0 + k - 0 < nc.length := by
    intro k hk
    constructor <;> omega
  have hb2 : ∀ k, k < p - m → m + k < na.length ∧ m + k - 0 < nc.length := by
    intro k hk
    constructor <;> omega
  have hrd0 := rd_some nb 0 (by omega)
  have hrd1 := rd_some nb 1 (by omega)
  have hrdm := rd_some na (m - 1) (by omega)
  have hrdc := rd_some nc (m - 1) (by omega)
  cases c with
  | none =>
    have hL : ∃ msg C1, ttm m p none nc wc a na wa b nb wb A B C = Outcome.raised msg C1 :=
      ⟨_, C, by simp only [ttm, if_neg hm0, if_neg hpm, if_neg hp0]; rfl⟩
    exact ⟨fun _ => by simp, fun _ => hL⟩
  | some c =>
  cases a with
  | none =>
    have hL : ∃ msg C1, ttm m p (some c) nc wc none na wa b nb wb A B C
        = Outcome.raised msg C1 :=
      ⟨_, C, by simp only [ttm, if_neg hm0, if_neg hpm, if_neg hp0]; rfl⟩
    exact ⟨fun _ => by simp, fun _ => hL⟩
  | some a =>
  cases b with
  | none =>
    have hL : ∃ msg C1, ttm m p (some c) nc wc (some a) na wa none nb wb A B C
        = Outcome.raised msg C1 :=
      ⟨_, C, by simp only [ttm, if_neg hm0, if_neg hpm, if_neg hp0]; rfl⟩
    exact ⟨fun _ => by simp, fun _ => hL⟩
  | some b =>
  obtain ⟨r1, hr1, hiff1⟩ := extents_differ_spec na nc 0 (m - 1) 0 hb1
  obtain ⟨r2, hr2, hiff2⟩ := extents_differ_spec na nc 0 (p - m) m hb2
  simp only [Nat.zero_add, Nat.sub_zero] at hiff1 hiff2
  have hiff12 : (r1 = true ∨ r2 = true) ↔
      ∃ i, i < p ∧ i ≠ m - 1 ∧ na.getD i 0 ≠ nc.getD i 0 := by
    rw [hiff1, hiff2]
    constructor
    · rintro (⟨k, hk, hd⟩ | ⟨k, hk, hd⟩)
      · have h1 : k < p := by omega
        have h2 : k ≠ m - 1 := by omega
        exact ⟨k, h1, h2, hd⟩
      · have h1 : m + k < p := by omega
        have h2 : m + k ≠ m - 1 := Nat.ne_of_gt (Nat.lt_of_lt_of_le (Nat.sub_lt (Nat.pos_of_ne_zero hm0) Nat.one_pos) (Nat.le_add_right m k))
        exact ⟨m + k, h1, h2, hd⟩
    · rintro ⟨i, h1, h2, hd⟩
      by_cases hi : i < m - 1
      · exact Or.inl ⟨i, hi, hd⟩
      · have e : m + (i - m) = i := by omega
        refine Or.inr ⟨i - m, by omega, ?_⟩
        rw [e]
        exact hd
  cases r1 with
  | true =>
    have hL : ∃ msg C1, ttm m p (some c) nc wc (some a) na wa (some b) nb wb A B C
        = Outcome.raised msg C1 :=
      ⟨_, C, by simp only [ttm, if_neg hm0, if_neg hpm, if_neg hp0, hr1]; rfl⟩
    exact ⟨fun _ => Or.inr (Or.inr (Or.inr (Or.inr (Or.inr (Or.inr (Or.inl
        (hiff12.mp (Or.inl rfl)))))))), fun _ => hL⟩
  | false =>
  cases r2 with
  | true =>
    have hL : ∃ msg C1, ttm m p (some c) nc wc (some a) na wa (some b) nb wb A B C
        = Outcome.raised msg C1 :=
      ⟨_, C, by simp only [ttm, if_neg hm0, if_neg hpm, if_neg hp0, hr1, hr2]; rfl⟩
    exact ⟨fun _ => Or.inr (Or.inr (Or.inr (Or.inr (Or.inr (Or.inr (Or.inl
        (hiff12.mp (Or.inr rfl)))))))), fun _ => hL⟩
  | false =>
  have hn12 : ¬ ∃ i, i < p ∧ i ≠ m - 1 ∧ na.getD i 0 ≠ nc.getD i 0 := fun h => by
    have := hiff12.mpr h
    simp at this
  by_cases hA : na.getD (m - 1) 0 ≠ nb.getD 1 0
  · have hL : ∃ msg C1, ttm m p (some c) nc wc (some a) na wa (some b) nb wb A B C
        = Outcome.raised msg C1 :=
      ⟨_, C, by simp only [ttm, if_neg hm0, if_neg hpm, if_neg hp0, hr1, hr2, hrd1, hrdm,
        if_pos hA]; rfl⟩
    exact ⟨fun _ => Or.inr (Or.inr (Or.inr (Or.inr (Or.inr (Or.inr (Or.inr (Or.inl hA))))))),
      fun _ => hL⟩
  by_cases hCm : nc.getD (m - 1) 0 ≠ nb.getD 0 0
  · have hL : ∃ msg C1, ttm m p (some c) nc wc (some a) na wa (some b) nb wb A B C
        = Outcome.raised msg C1 :=
      ⟨_, C, by simp only [ttm, if_neg hm0, if_neg hpm, if_neg hp0, hr1, hr2, hrd0, hrd1, hrdm,
        hrdc, if_neg hA, if_pos hCm]; rfl⟩
    exact ⟨fun _ => Or.inr (Or.inr (Or.inr (Or.inr (Or.inr (Or.inr (Or.inr (Or.inr hCm))))))),
      fun _ => hL⟩
  · constructor
    · rintro ⟨msg, C1, h⟩
      simp only [ttm, if_neg hm0, if_neg hpm, if_neg hp0, hr1, hr2, hrd0, hrd1, hrdm, hrdc,
        if_neg hA, if_neg hCm] at h
      split at h <;> exact absurd h (ofKernel_not_raised _ _ _)
    · intro h
      simp only [hm0, hp0, hpm, hn12, hA, hCm, false_or, reduceCtorEq] at h

/-- Witness of C7: a 2 x 3 matrix times a 2 x 2 matrix at mode 2 (column count 2 ≠ 3). -/
theorem ttm_raises_iff_witness :
    (∃ msg C1, ttm 2 2 (some 0) [2, 2] [1, 2] (some 0) [2, 3] [1, 2] (some 0) [2, 2] [1, 2]
        (fun _ => 1) (fun _ => 1) (fun _ => 0) = Outcome.raised msg C1) ↔
      (2 = 0 ∨ 2 = 0 ∨ 2 < 2 ∨ (some 0 : Option Nat) = none ∨ (some 0 : Option Nat) = none
        ∨ (some 0 : Option Nat) = none ∨
        (∃ i, i < 2 ∧ i ≠ 2 - 1 ∧ ([2, 3] : List Nat).getD i 0 ≠ ([2, 2] : List Nat).getD i 0) ∨
        ([2, 3] : List Nat).getD (2 - 1) 0 ≠ ([2, 2] : List Nat).getD 1 0 ∨
        ([2, 2] : List Nat).getD (2 - 1) 0 ≠ ([2, 2] : List Nat).getD 0 0) :=
  ttm_raises_iff 2 2 (some 0) (some 0) (some 0) [2, 2] [1, 2] [2, 3] [1, 2] [2, 2] [1, 2]
    (fun _ => 1) (fun _ => 1) (fun _ => 0) rfl rfl rfl

/-- C8: whenever public `ttv` or public `ttm` raises, the output memory at the throw is
the output memory before the call: every raise comes from a check, none from a kernel. -/
theorem raise_leaves_output_untouched (m p : Nat) (c a b : Option Nat)
    (nc wc na wa nb wb : List Nat) (A B C : Mem) :
    (∀ msg C1, ttv m p c nc wc a na wa b nb wb A B C = Outcome.raised msg C1 → C1 = C) ∧
    (∀ msg C1, ttm m p c nc wc a na wa b nb wb A B C = Outcome.raised msg C1 → C1 = C) := by
  constructor
  · intro msg C1 h
    unfold ttv at h
    repeat' split at h
    all_goals first
      | exact absurd h (ofKernel_not_raised _ _ _)
      | (injection h with _ h2; exact h2.symm)
      | cases h
  · intro msg C1 h
    unfold ttm at h
    repeat' split at h
    all_goals first
      | exact absurd h (ofKernel_not_raised _ _ _)
      | (injection h with _ h2; exact h2.symm)
      | cases h

/-- Witness of C8: a call with `m = 0` on an output memory holding 7 everywhere raises and
leaves 7 everywhere. -/
theorem raise_leaves_output_untouched_witness :
    ∃ msg C1, ttv 0 2 (some 0) [2] [1] (some 0) [2, 3] [1, 2] (some 0) [3, 1] [1, 1]
        (fun _ => 1) (fun _ => 1) (fun _ => 7) = Outcome.raised msg C1 ∧ C1 = fun _ => 7 :=
  ⟨_, _, rfl, (raise_leaves_output_untouched 0 2 (some 0) (some 0) (some 0) [2] [1] [2, 3]
    [1, 2] [3, 1] [1, 1] (fun _ => 1) (fun _ => 1) (fun _ => 7)).1 _ _ rfl⟩

theorem offset_cons (w0 : Nat) (ws : List Nat) (p : Nat) (i : Nat → Nat) :
    offset (w0 :: ws) (p + 1) i = w0 * i 0 + offset ws p (fun j => i (j + 1)) := by
  unfold offset
  rw [Finset.sum_range_succ']
  simp [add_comm]

theorem inBox_cons (n0 : Nat) (ns : List Nat) (p : Nat) (i : Nat → Nat) :
    InBox (n0 :: ns) (p + 1) i ↔ i 0 < n0 ∧ InBox ns p (fun j => i (j + 1)) := by
  unfold InBox
  constructor
  · intro h
    refine ⟨by simpa using h 0 (Nat.succ_pos p), fun j hj => ?_⟩
    simpa using h (j + 1) (Nat.succ_lt_succ hj)
  · rintro ⟨h0, h⟩ j hj
    cases j with
    | zero => simpa using h0
    | succ j => simpa using h j (Nat.lt_of_succ_lt_succ hj)

theorem length_first_order_strides (n : List Nat) : ∀ w, (first_order_strides w n).length = n.length := by
  induction n with
  | nil => intro w; rfl
  | cons n0 ns ih => intro w; simp [first_order_strides, ih]

theorem length_last_order_strides (n : List Nat) : (last_order_strides n).length = n.length := by
  induction n with
  | nil => rfl
  | cons n0 ns ih => simp [last_order_strides, ih]

theorem length_strides (F : Layout) (n : List Nat) : (strides F n).length = n.length := by
  unfold strides
  split
  · rename_i h
    rw [h.1]
    rfl
  · cases F
    · exact length_first_order_strides n 1
    · exact length_last_order_strides n

/-- First-order strides scale with the stride of the first axis. -/
theorem offset_first_order_scale (n : List Nat) :
    ∀ (w : Nat) (i : Nat → Nat),
      offset (first_order_strides w n) n.length i
        = w * offset (first_order_strides 1 n) n.length i := by
  induction n with
  | nil =>
    intro w i
    simp [offset]
  | cons n0 ns ih =>
    intro w i
    simp only [first_order_strides, List.length_cons, offset_cons, Nat.one_mul]
    rw [ih (w * n0), ih n0]
    ring

theorem offset_first_order_cons (n0 : Nat) (ns : List Nat) (i : Nat → Nat) :
    offset (first_order_strides 1 (n0 :: ns)) (ns.length + 1) i
      = i 0 + n0 * offset (first_order_strides 1 ns) ns.length (fun j => i (j + 1)) := by
  simp only [first_order_strides, offset_cons, Nat.one_mul]
  rw [offset_first_order_scale ns n0]

theorem offset_last_order_cons (n0 : Nat) (ns : List Nat) (i : Nat → Nat) :
    offset (last_order_strides (n0 :: ns)) (ns.length + 1) i
      = ns.prod * i 0 + offset (last_order_strides ns) ns.length (fun j => i (j + 1)) := by
  simp only [last_order_strides, offset_cons]

theorem distinct_cons_of (n0 : Nat) (ns : List Nat) (i1 i2 : Nat → Nat)
    (h0 : i1 0 = i2 0) (hs : ∀ j, j < ns.length → i1 (j + 1) = i2 (j + 1)) :
    ∀ j, j < (n0 :: ns).length → i1 j = i2 j := by
  intro j hj
  cases j with
  | zero => exact h0
  | succ j => exact hs j (by simpa using hj)

/-- The first-order strides address the index space one to one. -/
theorem addresses_first_order (n : List Nat) : Addresses (first_order_strides 1 n) n := by
  induction n with
  | nil =>
    refine ⟨fun i _ => by simp [offset], fun i1 i2 _ _ _ j hj => absurd hj (Nat.not_lt_zero j),
      fun x hx => ⟨fun _ => 0, fun j hj => absurd hj (Nat.not_lt_zero j), ?_⟩⟩
    simp only [List.prod_nil, Nat.lt_one_iff] at hx
    simp [offset, hx]
  | cons n0 ns ih =>
    obtain ⟨ih1, ih2, ih3⟩ := ih
    refine ⟨?_, ?_, ?_⟩
    · intro i hi
      obtain ⟨h0, hs⟩ := (inBox_cons n0 ns ns.length i).mp hi
      have hE := ih1 _ hs
      rw [List.length_cons, offset_first_order_cons, List.prod_cons]
      calc i 0 + n0 * offset (first_order_strides 1 ns) ns.length (fun j => i (j + 1))
          < n0 + n0 * offset (first_order_strides 1 ns) ns.length (fun j => i (j + 1)) :=
            Nat.add_lt_add_right h0 _
        _ = n0 * (offset (first_order_strides 1 ns) ns.length (fun j => i (j + 1)) + 1) := by ring
        _ ≤ n0 * ns.prod := Nat.mul_le_mul_left n0 hE
    · intro i1 i2 h1 h2 he
      obtain ⟨a0, as⟩ := (inBox_cons n0 ns ns.length i1).mp h1
      obtain ⟨b0, bs⟩ := (inBox_cons n0 ns ns.length i2).mp h2
      rw [List.length_cons, offset_first_order_cons, offset_first_order_cons] at he
      have hmod := congrArg (fun x => x % n0) he
      simp only [Nat.add_mul_mod_self_left, Nat.mod_eq_of_lt a0, Nat.mod_eq_of_lt b0] at hmod
      have hdiv : offset (first_order_strides 1 ns) ns.length (fun j => i1 (j + 1))
          = offset (first_order_strides 1 ns) ns.length (fun j => i2 (j + 1)) := by
        rw [hmod] at he
        exact Nat.eq_of_mul_eq_mul_left (Nat.lt_of_le_of_lt (Nat.zero_le _) a0)
          (Nat.add_left_cancel he)
      exact distinct_cons_of n0 ns i1 i2 hmod (ih2 _ _ as bs hdiv)
    · intro x hx
      rw [List.prod_cons] at hx
      have hn0 : 0 < n0 := by
        rcases Nat.eq_zero_or_pos n0 with h | h
        · rw [h, Nat.zero_mul] at hx
          exact absurd hx (Nat.not_lt_zero x)
        · exact h
      have hq : x / n0 < ns.prod := Nat.div_lt_of_lt_mul hx
      obtain ⟨i, hi, hoff⟩ := ih3 (x / n0) hq
      refine ⟨consIdx (x % n0) i, ?_, ?_⟩
      · rw [List.length_cons, inBox_cons]
        exact ⟨Nat.mod_lt x hn0, hi⟩
      · rw [List.length_cons, offset_first_order_cons]
        simp only [consIdx]
        rw [hoff]
        exact Nat.mod_add_div x n0

/-- The last-order strides address the index space one to one. -/
theorem addresses_last_order (n : List Nat) : Addresses (last_order_strides n) n := by
  induction n with
  | nil =>
    refine ⟨fun i _ => by simp [offset], fun i1 i2 _ _ _ j hj => absurd hj (Nat.not_lt_zero j),
      fun x hx => ⟨fun _ => 0, fun j hj => absurd hj (Nat.not_lt_zero j), ?_⟩⟩
    simp only [List.prod_nil, Nat.lt_one_iff] at hx
    simp [offset, hx]
  | cons n0 ns ih =>
    obtain ⟨ih1, ih2, ih3⟩ := ih
    refine ⟨?_, ?_, ?_⟩
    · intro i hi
      obtain ⟨h0, hs⟩ := (inBox_cons n0 ns ns.length i).mp hi
      have hE := ih1 _ hs
      rw [List.length_cons, offset_last_order_cons, List.prod_cons]
      calc ns.prod * i 0 + offset (last_order_strides ns) ns.length (fun j => i (j + 1))
          < ns.prod * i 0 + ns.prod := Nat.add_lt_add_left hE _
        _ = (i 0 + 1) * ns.prod := by ring
        _ ≤ n0 * ns.prod := Nat.mul_le_mul_right _ h0
    · intro i1 i2 h1 h2 he
      obtain ⟨a0, as⟩ := (inBox_cons n0 ns ns.length i1).mp h1
      obtain ⟨b0, bs⟩ := (inBox_cons n0 ns ns.length i2).mp h2
      have e1 := ih1 _ as
      have e2 := ih1 _ bs
      rw [List.length_cons, offset_last_order_cons, offset_last_order_cons] at he
      have hP : 0 < ns.prod := Nat.lt_of_le_of_lt (Nat.zero_le _) e1
      have hmod := congrArg (fun x => x % ns.prod) he
      simp only [Nat.mul_add_mod, Nat.mod_eq_of_lt e1, Nat.mod_eq_of_lt e2] at hmod
      have h0 : i1 0 = i2 0 := by
        rw [hmod] at he
        exact Nat.eq_of_mul_eq_mul_left hP (Nat.add_right_cancel he)
      exact distinct_cons_of n0 ns i1 i2 h0 (ih2 _ _ as bs hmod)
    · intro x hx
      rw [List.prod_cons] at hx
      have hP : 0 < ns.prod := by
        rcases Nat.eq_zero_or_pos ns.prod with h | h
        · rw [h, Nat.mul_zero] at hx
          exact absurd hx (Nat.not_lt_zero x)
        · exact h
      have hq : x / ns.prod < n0 := Nat.div_lt_of_lt_mul (by rw [Nat.mul_comm]; exact hx)
      obtain ⟨i, hi, hoff⟩ := ih3 (x % ns.prod) (Nat.mod_lt x hP)
      refine ⟨consIdx (x / ns.prod) i, ?_, ?_⟩
      · rw [List.length_cons, inBox_cons]
        exact ⟨hq, hi⟩
      · rw [List.length_cons, offset_last_order_cons]
        simp only [consIdx]
        rw [hoff]
        exact Nat.div_add_mod x ns.prod

/-- The strides of a container address its index space one to one, in both layouts. -/
theorem addresses_strides (F : Layout) (n : List Nat) : Addresses (strides F n) n := by
  unfold strides
  split
  · rename_i h
    obtain ⟨hlen, h1⟩ := h
    match n, hlen with
    | [x, y], _ =>
      simp only [List.getD_cons_zero, List.getD_cons_succ] at h1
      have hoff : ∀ i : Nat → Nat, offset [1, 1] 2 i = i 0 + i 1 := by
        intro i
        simp [offset, Finset.sum_range_succ]
      have hbox : ∀ i : Nat → Nat, InBox [x, y] 2 i ↔ i 0 < x ∧ i 1 < y := by
        intro i
        constructor
        · intro h
          exact ⟨by simpa using h 0 (by omega), by simpa using h 1 (by omega)⟩
        · rintro ⟨h0, h1⟩ j hj
          have : j = 0 ∨ j = 1 := by omega
          rcases this with rfl | rfl
          · simpa using h0
          · simpa using h1
      have hprod : [x, y].prod = x * y := by simp
      refine ⟨?_, ?_, ?_⟩
      · intro i hi
        obtain ⟨a0, a1⟩ := (hbox i).mp hi
        simp only [List.length_cons, List.length_nil, Nat.zero_add, Nat.reduceAdd]
        rw [hoff, hprod]
        rcases h1 with rfl | rfl
        · have : i 0 = 0 := by omega
          rw [this]
          omega
        · have : i 1 = 0 := by omega
          rw [this]
          omega
      · intro i1 i2 hi1 hi2 he j hj
        simp only [List.length_cons, List.length_nil, Nat.zero_add, Nat.reduceAdd] at hi1 hi2 he hj
        obtain ⟨a0, a1⟩ := (hbox i1).mp hi1
        obtain ⟨b0, b1⟩ := (hbox i2).mp hi2
        rw [hoff, hoff] at he
        have : j = 0 ∨ j = 1 := by omega
        rcases h1 with rfl | rfl <;> rcases this with rfl | rfl <;> omega
      · intro z hz
        rw [hprod] at hz
        simp only [List.length_cons, List.length_nil, Nat.zero_add, Nat.reduceAdd]
        rcases h1 with rfl | rfl
        · refine ⟨consIdx 0 (fun _ => z), (hbox _).mpr ⟨by simp [consIdx], ?_⟩, ?_⟩
          · simp only [consIdx]
            omega
          · rw [hoff]
            simp [consIdx]
        · refine ⟨consIdx z (fun _ => 0), (hbox _).mpr ⟨?_, by simp [consIdx]⟩, ?_⟩
          · simp only [consIdx]
            omega
          · rw [hoff]
            simp [consIdx]
  · cases F
    · exact addresses_first_order n
    · exact addresses_last_order n

/-- The offset of a multi-index of the output of `ttv` with the index `k` put in at the
contracted axis `m` of `A`. -/
theorem offset_insert (w : List Nat) (m p k : Nat) (i : Nat → Nat) (hm : m < p) :
    offset w p (fun j => if j < m then i j else if j = m then k else i (j - 1)) =
      ∑ j in range m, w.getD j 0 * i j + w.getD m 0 * k
        + ∑ j in Ico (m + 1) p, w.getD j 0 * i (j - 1) := by
  unfold offset
  rw [← Finset.sum_range_add_sum_Ico _ (Nat.le_of_lt hm),
    Finset.sum_eq_sum_Ico_succ_bot hm]
  have e1 : ∑ j in range m, w.getD j 0 * (if j < m then i j else if j = m then k else i (j - 1))
      = ∑ j in range m, w.getD j 0 * i j := by
    refine Finset.sum_congr rfl (fun j hj => ?_)
    simp [Finset.mem_range.mp hj]
  have e2 : ∑ j in Ico (m + 1) p,
      w.getD j 0 * (if j < m then i j else if j = m then k else i (j - 1))
      = ∑ j in Ico (m + 1) p, w.getD j 0 * i (j - 1) := by
    refine Finset.sum_congr rfl (fun j hj => ?_)
    have := (Finset.mem_Ico.mp hj).1
    have h1 : ¬ j < m := by omega
    have h2 : j ≠ m := by omega
    simp [h1, h2]
  rw [e1, e2]
  simp
  ring

/-- The offset of a multi-index with the index `k` at the axis `m`. -/
theorem offset_update (w : List Nat) (m p k : Nat) (i : Nat → Nat) (hm : m < p) :
    offset w p (Function.update i m k) =
      ∑ j in (range p).erase m, w.getD j 0 * i j + w.getD m 0 * k := by
  unfold offset
  rw [← Finset.add_sum_erase (range p) _ (Finset.mem_range.mpr hm)]
  have e : ∑ j in (range p).erase m, w.getD j 0 * Function.update i m k j
      = ∑ j in (range p).erase m, w.getD j 0 * i j := by
    refine Finset.sum_congr rfl (fun j hj => ?_)
    simp [Function.update, Finset.ne_of_mem_erase hj]
  rw [e]
  simp
  ring

theorem view_replicate (P : Nat) (v : Int) (x : Nat) (h : x < P) :
    view (List.replicate P v) x = v := by
  simp [view, List.getD, List.getElem?_replicate, h]

theorem view_replicate_zero (P x : Nat) : view (List.replicate P 0) x = 0 := by
  by_cases h : x < P
  · exact view_replicate P 0 x h
  · simp [view, List.getD, List.getElem?_replicate, h]

theorem data_ptr_replicate (P : Nat) (v : Int) (h : 0 < P) :
    data_ptr (List.replicate P v) = some 0 := by
  cases P with
  | zero => exact absurd h (Nat.lt_irrefl 0)
  | succ P => rfl

theorem one_le_prod (l : List Nat) (h : ∀ x ∈ l, 1 ≤ x) : 1 ≤ l.prod := by
  induction l with
  | nil => simp
  | cons a l ih =>
    rw [List.prod_cons]
    exact Nat.mul_le_mul (h a (List.mem_cons_self a l))
      (ih (fun x hx => h x (List.mem_cons_of_mem a hx)))

theorem mem_of_getD (l : List Nat) (j : Nat) (h : j < l.length) : l.getD j 0 ∈ l := by
  have : l.getD j 0 = l[j] := by simp [List.getD, List.getElem?_eq_getElem h]
  rw [this]
  exact List.getElem_mem h

theorem forall_mem_of_getD (l : List Nat) (P : Nat → Prop)
    (h : ∀ j, j < l.length → P (l.getD j 0)) : ∀ x ∈ l, P x := by
  intro x hx
  obtain ⟨j, hj, rfl⟩ := List.getElem_of_mem hx
  have : l.getD j 0 = l[j] := by simp [List.getD, List.getElem?_eq_getElem hj]
  rw [← this]
  exact h j hj

/-- A contraction of a constant `v` with ones is `n * v`. -/
theorem dot_constant (A B : Mem) (n s t a b : Nat) (v : Int)
    (hA : ∀ k, k < n → A (a + s * k) = v) (hB : ∀ k, k < n → B (b + t * k) = 1) :
    dot A B n s t a b = (n : Int) * v := by
  unfold dot
  rw [Finset.sum_congr rfl (fun k hk => by
    rw [hA k (Finset.mem_range.mp hk), hB k (Finset.mem_range.mp hk), mul_one])]
  simp

theorem sum_constant (A B : Mem) (n : Nat) (f g : Nat → Nat) (v : Int)
    (hA : ∀ k, k < n → A (f k) = v) (hB : ∀ k, k < n → B (g k) = 1) :
    ∑ k in range n, A (f k) * B (g k) = (n : Int) * v := by
  rw [Finset.sum_congr rfl (fun k hk => by
    rw [hA k (Finset.mem_range.mp hk), hB k (Finset.mem_range.mp hk), mul_one])]
  simp

/-- The loop of `prod(tensor, vector, m)` that fills the extents of the output: it ends
normally, keeps the length of `nc`, writes the extents of `A` other than `m-1` from
position `j` on, in order, and leaves the other entries. -/
theorem prod_nc_spec (na : List Nat) (m : Nat) (hmp : m ≤ na.length) :
    ∀ count i j nc, i + count = na.length → (i ≤ m - 1 → j = i) → (m - 1 < i → j + 1 = i) →
      na.length - 1 ≤ nc.length →
      ∃ nc1, prod_nc na m count i j nc = Except.ok nc1 ∧ nc1.length = nc.length ∧
        ∀ l, nc1.getD l 0 =
          if j ≤ l ∧ l < na.length - 1 then na.getD (ttv_axis (m - 1) l) 0 else nc.getD l 0 := by
  intro count
  induction count with
  | zero =>
    intro i j nc hi h1 h2 _
    refine ⟨nc, rfl, rfl, fun l => ?_⟩
    have : ¬ (j ≤ l ∧ l < na.length - 1) := by omega
    rw [if_neg this]
  | succ count ih =>
    intro i j nc hi h1 h2 hlen
    by_cases him : i = m - 1
    · have hj : j = i := h1 (by omega)
      obtain ⟨nc1, hr, hl, hg⟩ := ih (i + 1) j nc (by omega) (by omega) (by omega) hlen
      refine ⟨nc1, ?_, hl, hg⟩
      simp only [prod_nc, ne_eq, him, not_true_eq_false, if_false]
      rw [← him]
      exact hr
    · have hjl : j < nc.length := by omega
      obtain ⟨nc1, hr, hl, hg⟩ := ih (i + 1) (j + 1) (nc.set j (na.getD i 0)) (by omega)
        (by omega) (by omega) (by rw [List.length_set]; exact hlen)
      refine ⟨nc1, ?_, by rw [hl, List.length_set], fun l => ?_⟩
      · simp only [prod_nc, ne_eq, him, not_false_eq_true, if_true, rd_some na i (by omega),
          if_pos hjl]
        exact hr
      · rw [hg l]
        by_cases hlj : l = j
        · subst hlj
          have c1 : ¬ (l + 1 ≤ l ∧ l < na.length - 1) := by omega
          have c2 : l ≤ l ∧ l < na.length - 1 := by omega
          rw [if_neg c1, if_pos c2, getD_set_eq nc l _ hjl]
          congr 1
          unfold ttv_axis
          split <;> omega
        · by_cases c : j ≤ l ∧ l < na.length - 1
          · have c1 : j + 1 ≤ l ∧ l < na.length - 1 := by omega
            rw [if_pos c, if_pos c1]
          · have c1 : ¬ (j + 1 ≤ l ∧ l < na.length - 1) := by omega
            rw [if_neg c, if_neg c1, getD_set_ne nc j l _ hlj]

/-- Public `ttv` on a tensor of rank at least 3 filled with `v`, a vector of ones and a
zero output, with the strides of the containers: every element of the output is
`na[m-1] * v`. -/
theorem ttv_constant_high (F : Layout) (n nc wb : List Nat) (m : Nat) (v : Int)
    (hp : 3 ≤ n.length) (hm : 1 ≤ m) (hmp : m ≤ n.length) (hpos : 1 ≤ n.getD (m - 1) 0)
    (hnc : nc.length = n.length - 1)
    (heq : ∀ l, l < n.length - 1 → nc.getD l 0 = n.getD (ttv_axis (m - 1) l) 0) :
    ∃ C1, ttv m n.length (some 0) nc (strides F nc) (some 0) n (strides F n) (some 0)
        [n.getD (m - 1) 0, 1] wb (view (List.replicate n.prod v))
        (view (List.replicate (n.getD (m - 1) 0) 1)) (view (List.replicate nc.prod 0))
        = Outcome.returned C1 ∧
      ∀ y, y < nc.prod → C1 y = (n.getD (m - 1) 0 : Int) * v := by
  obtain ⟨C1, hC1, hC1x⟩ := ttv_returns m n.length 0 0 0 nc (strides F nc) n (strides F n)
    [n.getD (m - 1) 0, 1] wb (view (List.replicate n.prod v))
    (view (List.replicate (n.getD (m - 1) 0) 1)) (view (List.replicate nc.prod 0))
    hp hm hmp rfl (length_strides F n) hnc (by rw [length_strides, hnc]) rfl heq
    (by simp only [List.getD_cons_zero, List.getD_cons_succ]; omega)
  refine ⟨C1, hC1, fun y hy => ?_⟩
  obtain ⟨-, hinj, hsurj⟩ := addresses_strides F nc
  obtain ⟨hbound, -, -⟩ := addresses_strides F n
  rw [hnc] at hinj hsurj
  obtain ⟨i, hi, hoff⟩ := hsurj y hy
  have e1 : m - 1 + 1 = m := by omega
  have e2 : n.length - 1 + 1 = n.length := by omega
  have hy0 : y = 0 + offset (strides F nc) (n.length - 1) i := by rw [hoff, Nat.zero_add]
  rw [hC1x, view_replicate_zero, zero_add, hy0,
    ttv_nest_value (m - 1) (n.length - 1) 0 0 0 nc (strides F nc) n (strides F n) _ _
      (by omega) heq hinj i hi, e1, e2]
  refine sum_constant _ _ _ _ _ v (fun k hk => ?_) (fun k hk => ?_)
  · have hm1 : m - 1 < n.length := by omega
    have hoffA := offset_insert (strides F n) (m - 1) n.length k i hm1
    rw [e1] at hoffA
    rw [Nat.zero_add, ← hoffA]
    refine view_replicate _ v _ (hbound _ (fun j hj => ?_))
    by_cases h1 : j < m - 1
    · have := hi j (by omega)
      rw [heq j (by omega)] at this
      simpa [h1, ttv_axis] using this
    · by_cases h2 : j = m - 1
      · simpa [h2] using hk
      · have := hi (j - 1) (by omega)
        have h3 : ¬ j - 1 < m - 1 := by omega
        have h4 : j - 1 + 1 = j := by omega
        rw [heq (j - 1) (by omega)] at this
        simpa [h1, h2, ttv_axis, h3, h4] using this
  · rw [Nat.zero_add]
    exact view_replicate _ 1 k hk

/-- Public `ttv` on a matrix filled with `v`, a vector of ones and a zero output with the
extents `{k, 1}` that `prod` gives it, with the strides of the containers: every element
of the output is `na[m-1] * v`. -/
theorem ttv_constant_matrix (F : Layout) (n nc wb : List Nat) (m : Nat) (v : Int)
    (hp : n.length = 2) (hm : 1 ≤ m) (hmp : m ≤ 2) (hpos : 1 ≤ n.getD (m - 1) 0)
    (hnc : nc.length = 2)
    (heq : nc.getD 0 0 = n.getD (if m - 1 = 0 then 1 else 0) 0) (hone : nc.getD 1 0 = 1) :
    ∃ C1, ttv m 2 (some 0) nc (strides F nc) (some 0) n (strides F n) (some 0)
        [n.getD (m - 1) 0, 1] wb (view (List.replicate n.prod v))
        (view (List.replicate (n.getD (m - 1) 0) 1)) (view (List.replicate nc.prod 0))
        = Outcome.returned C1 ∧
      ∀ y, y < nc.prod → C1 y = (n.getD (m - 1) 0 : Int) * v := by
  have hwc : strides F nc = [1, 1] := by
    unfold strides
    rw [if_pos ⟨hnc, Or.inr hone⟩]
  obtain ⟨C1, hC1, hC1x⟩ := ttv_rank_two_returns m 0 0 0 nc (strides F nc) n (strides F n)
    [n.getD (m - 1) 0, 1] wb (view (List.replicate n.prod v))
    (view (List.replicate (n.getD (m - 1) 0) 1)) (view (List.replicate nc.prod 0))
    hm hmp hp (by rw [length_strides, hp]) (by omega)
    (by rw [length_strides, hnc]; split <;> omega) rfl heq
    (by simp only [List.getD_cons_zero, List.getD_cons_succ]; omega)
  refine ⟨C1, hC1, fun y hy => ?_⟩
  obtain ⟨hbound, -, -⟩ := addresses_strides F n
  have hprod : nc.prod = nc.getD 0 0 := by
    match nc, hnc with
    | [x, z], _ =>
      simp only [List.getD_cons_zero, List.getD_cons_succ] at hone ⊢
      simp [hone]
  have hw1 : (strides F nc).getD (if m - 1 = 0 then 1 else 0) 0 = 1 := by
    rw [hwc]
    split <;> rfl
  have hy1 : y < n.getD (if m - 1 = 0 then 1 else 0) 0 := by
    rw [← heq, ← hprod]
    exact hy
  have hv := loop_nest_value (n.getD (if m - 1 = 0 then 1 else 0) 0) 1
    ((strides F n).getD (if m - 1 = 0 then 1 else 0) 0)
    (dot (view (List.replicate n.prod v)) (view (List.replicate (n.getD (m - 1) 0) 1))
      (n.getD (m - 1) 0) ((strides F n).getD (m - 1) 0) 1) 0 0 0 y (Nat.le_refl 1) hy1
  rw [hC1x, view_replicate_zero, zero_add, hw1]
  simp only [Nat.zero_add, Nat.one_mul] at hv
  rw [hv]
  refine dot_constant _ _ _ _ _ _ _ v (fun k hk => ?_) (fun k hk => ?_)
  · refine view_replicate _ v _ ?_
    have hm12 : m = 1 ∨ m = 2 := by omega
    rcases hm12 with rfl | rfl
    · have hb := hbound (fun j => if j = 0 then k else y) (fun j hj => by
        rw [hp] at hj
        have : j = 0 ∨ j = 1 := by omega
        rcases this with rfl | rfl
        · simpa using hk
        · simpa using hy1)
      rw [hp] at hb
      simp only [offset, Finset.sum_range_succ, Finset.range_zero, Finset.sum_empty,
        zero_add, if_true, Nat.one_ne_zero, if_false] at hb
      simp only [Nat.sub_self, if_true]
      rw [Nat.add_comm]
      exact hb
    · have hb := hbound (fun j => if j = 0 then y else k) (fun j hj => by
        rw [hp] at hj
        have : j = 0 ∨ j = 1 := by omega
        rcases this with rfl | rfl
        · simpa using hy1
        · simpa using hk)
      rw [hp] at hb
      simp only [offset, Finset.sum_range_succ, Finset.range_zero, Finset.sum_empty,
        zero_add, if_true, Nat.one_ne_zero, if_false] at hb
      simp only [Nat.add_one_sub_one, Nat.one_ne_zero, if_false]
      exact hb
  · simp only [Nat.zero_add, Nat.one_mul]
    exact view_replicate _ 1 k hk

theorem getD_replicate_one (L l : Nat) (h : l < L) : (List.replicate L 1).getD l 0 = 1 := by
  simp [List.getD, List.getElem?_replicate, h]

theorem isEmpty_replicate (P : Nat) (v : Int) (h : 0 < P) :
    (List.replicate P v).isEmpty = false := by
  cases P with
  | zero => exact absurd h (Nat.lt_irrefl 0)
  | succ P => rfl

theorem collect_returned (c : Tensor) (C1 : Mem) :
    collect c (Outcome.returned C1)
      = Except.ok { c with data := (List.range c.data.length).map C1 } := rfl

/-- C9: for extents `n` of rank at least 2 with all entries at least 1, both layouts, every
mode `1 ≤ m ≤ p` and every integer `v`: `prod` of the tensor filled with `v` and the
vector of `n[m-1]` ones raises nothing, and every element of the tensor it returns (there
is at least one) equals `n[m-1] * v`. -/
theorem prod_vector_constant_fill (F : Layout) (n : List Nat) (m : Nat) (v : Int)
    (hp : 2 ≤ n.length) (hpos : ∀ x ∈ n, 1 ≤ x) (hm : 1 ≤ m) (hmp : m ≤ n.length) :
    ∃ c, prod_vector F (Tensor.filled F n v) (List.replicate (n.getD (m - 1) 0) 1) m
        = Except.ok c ∧
      c.data ≠ [] ∧ ∀ x ∈ c.data, x = (n.getD (m - 1) 0 : Int) * v := by
  have hm0 : m ≠ 0 := by omega
  have hpm : ¬ n.length < m := by omega
  have hp0 : n.length ≠ 0 := by omega
  have hnprod : 0 < n.prod := one_le_prod n hpos
  have hnm : 1 ≤ n.getD (m - 1) 0 := hpos _ (mem_of_getD n (m - 1) (by omega))
  have hb0 : (List.replicate (n.getD (m - 1) 0) (1 : Int)).length ≠ 0 := by
    rw [List.length_replicate]
    omega
  obtain ⟨nc1, hr, hl, hg⟩ := prod_nc_spec n m hmp n.length 0 0
    (List.replicate (max (n.length - 1) 2) 1) (by omega) (fun _ => rfl)
    (fun h => absurd h (Nat.not_lt_zero _)) (by rw [List.length_replicate]; omega)
  rw [List.length_replicate] at hl
  have hg1 : ∀ l, l < n.length - 1 → nc1.getD l 0 = n.getD (ttv_axis (m - 1) l) 0 := by
    intro l hl1
    rw [hg l, if_pos ⟨Nat.zero_le l, hl1⟩]
  have hg2 : ∀ l, n.length - 1 ≤ l → l < max (n.length - 1) 2 → nc1.getD l 0 = 1 := by
    intro l hl1 hl2
    have : ¬ (0 ≤ l ∧ l < n.length - 1) := by omega
    rw [hg l, if_neg this, getD_replicate_one _ _ hl2]
  have hncpos : ∀ x ∈ nc1, 1 ≤ x := by
    refine forall_mem_of_getD nc1 _ (fun j hj => ?_)
    rw [hl] at hj
    by_cases h1 : j < n.length - 1
    · rw [hg1 j h1]
      refine hpos _ (mem_of_getD n _ ?_)
      unfold ttv_axis
      split <;> omega
    · rw [hg2 j (by omega) hj]
  have hncprod : 0 < nc1.prod := one_le_prod nc1 hncpos
  have hkernel : ∃ C1, ttv m n.length (some 0) nc1 (strides F nc1) (some 0) n (strides F n)
      (some 0) [n.getD (m - 1) 0, 1] [n.getD (m - 1) 0, 1] (view (List.replicate n.prod v))
      (view (List.replicate (n.getD (m - 1) 0) 1)) (view (List.replicate nc1.prod 0))
      = Outcome.returned C1 ∧ ∀ y, y < nc1.prod → C1 y = (n.getD (m - 1) 0 : Int) * v := by
    by_cases h3 : 3 ≤ n.length
    · exact ttv_constant_high F n nc1 _ m v h3 hm hmp hnm (by rw [hl]; omega) hg1
    · have h2 : n.length = 2 := by omega
      have hk := ttv_constant_matrix F n nc1 [n.getD (m - 1) 0, 1] m v h2 hm (by omega) hnm
        (by rw [hl, h2]; rfl) (by
          rw [hg1 0 (by omega)]
          congr 1
          unfold ttv_axis
          split <;> split <;> omega)
        (hg2 1 (by omega) (by omega))
      rw [h2]
      exact hk
  obtain ⟨C1, hC1, hC1y⟩ := hkernel
  refine ⟨{ Tensor.filled F nc1 0 with
    data := (List.range (Tensor.filled F nc1 0).data.length).map C1 }, ?_, ?_, ?_⟩
  · simp only [prod_vector, Tensor.rank, Tensor.empty, Tensor.filled, if_neg hm0, if_neg hpm,
      if_neg hp0, isEmpty_replicate _ v hnprod, Bool.false_eq_true, if_false, if_neg hb0, hr,
      List.length_replicate, data_ptr_replicate _ _ hnprod, data_ptr_replicate _ _ hncprod,
      hC1, collect_returned]
    rw [if_neg (by omega)]
  · simp only [Tensor.filled, List.length_replicate, ne_eq, List.map_eq_nil_iff,
      List.range_eq_nil]
    omega
  · intro x hx
    simp only [Tensor.filled, List.length_replicate, List.mem_map, List.mem_range] at hx
    obtain ⟨y, hy, rfl⟩ := hx
    exact hC1y y hy

/-- Witness of C9: the extents `{2, 3}`, `v = 2`, `m = 2`; the entries are all 6. -/
theorem prod_vector_constant_fill_witness :
    (∃ c, prod_vector Layout.first_order (Tensor.filled Layout.first_order [2, 3] 2)
        (List.replicate (([2, 3] : List Nat).getD (2 - 1) 0) 1) 2 = Except.ok c ∧
      c.data ≠ [] ∧ ∀ x ∈ c.data, x = ((([2, 3] : List Nat).getD (2 - 1) 0 : Nat) : Int) * 2) ∧
    (∃ c, prod_vector Layout.first_order (Tensor.filled Layout.first_order [2, 3] 2)
        [1, 1, 1] 2 = Except.ok c ∧ c.data = [6, 6]) :=
  ⟨prod_vector_constant_fill Layout.first_order [2, 3] 2 2 (by decide) (by decide) (by decide)
    (by decide), _, rfl, by decide⟩

theorem set_getD_self (l : List Nat) : ∀ i, i < l.length → l.set i (l.getD i 0) = l := by
  induction l with
  | nil => intro i _; rfl
  | cons a l ih =>
    intro i h
    cases i with
    | zero => rfl
    | succ i =>
      simp only [List.set, List.getD_cons_succ]
      rw [ih i (by simpa using h)]

/-- Public `ttm` on a tensor filled with `v`, the square matrix of ones of size `na[m-1]`
and a zero output of the extents of `A`, with the strides of the containers: every
element of the output is `na[m-1] * v`. -/
theorem ttm_constant (F : Layout) (n : List Nat) (m : Nat) (v : Int)
    (hp : 2 ≤ n.length) (hm : 1 ≤ m) (hmp : m ≤ n.length) :
    ∃ C1, ttm m n.length (some 0) n (strides F n) (some 0) n (strides F n) (some 0)
        [n.getD (m - 1) 0, n.getD (m - 1) 0] (strides F [n.getD (m - 1) 0, n.getD (m - 1) 0])
        (view (List.replicate n.prod v))
        (view (List.replicate (n.getD (m - 1) 0 * n.getD (m - 1) 0) 1))
        (view (List.replicate n.prod 0)) = Outcome.returned C1 ∧
      ∀ y, y < n.prod → C1 y = (n.getD (m - 1) 0 : Int) * v := by
  obtain ⟨C1, hC1, hC1x⟩ := ttm_returns m n.length 0 0 0 n (strides F n) n (strides F n)
    [n.getD (m - 1) 0, n.getD (m - 1) 0] (strides F [n.getD (m - 1) 0, n.getD (m - 1) 0])
    (view (List.replicate n.prod v))
    (view (List.replicate (n.getD (m - 1) 0 * n.getD (m - 1) 0) 1))
    (view (List.replicate n.prod 0)) hp hm hmp rfl (length_strides F n) rfl
    (length_strides F n) rfl (by rw [length_strides]; rfl) (fun _ _ _ => rfl) rfl rfl
  refine ⟨C1, hC1, fun y hy => ?_⟩
  obtain ⟨hbound, hinj, hsurj⟩ := addresses_strides F n
  obtain ⟨hboundB, -, -⟩ :=
    addresses_strides F [n.getD (m - 1) 0, n.getD (m - 1) 0]
  obtain ⟨i, hi, hoff⟩ := hsurj y hy
  have hm1 : m - 1 < n.length := by omega
  have hy0 : y = 0 + offset (strides F n) n.length i := by rw [hoff, Nat.zero_add]
  rw [hC1x, view_replicate_zero, zero_add, hy0,
    ttm_nest_value (m - 1) n.length 0 0 0 n (strides F n) n (strides F n)
      [n.getD (m - 1) 0, n.getD (m - 1) 0] (strides F [n.getD (m - 1) 0, n.getD (m - 1) 0]) _ _
      hm1 (fun _ _ _ => rfl) hinj i hi]
  simp only [List.getD_cons_zero, List.getD_cons_succ]
  refine sum_constant _ _ _ _ _ v (fun k hk => ?_) (fun k hk => ?_)
  · rw [Nat.zero_add, ← offset_update (strides F n) (m - 1) n.length k i hm1]
    refine view_replicate _ v _ (hbound _ (fun j hj => ?_))
    by_cases h1 : j = m - 1
    · subst h1
      simpa using hk
    · simpa [Function.update, h1] using hi j hj
  · have hb := hboundB (consIdx (i (m - 1)) (fun _ => k)) (fun j hj => by
      simp only [List.length_cons, List.length_nil, Nat.zero_add, Nat.reduceAdd] at hj
      have : j = 0 ∨ j = 1 := by omega
      rcases this with rfl | rfl
      · simpa [consIdx] using hi (m - 1) hm1
      · simpa [consIdx] using hk)
    simp only [List.length_cons, List.length_nil, Nat.zero_add, Nat.reduceAdd, offset,
      Finset.sum_range_succ, Finset.range_zero, Finset.sum_empty, consIdx, List.prod_cons,
      List.prod_nil, Nat.mul_one] at hb
    rw [Nat.zero_add]
    exact view_replicate _ 1 _ hb

/-- C10: for extents `n` of rank at least 2 with all entries at least 1, both layouts, every
mode `1 ≤ m ≤ p` and every integer `v`: `prod` of the tensor filled with `v` and the
`n[m-1] x n[m-1]` matrix of ones raises nothing, the tensor it returns has the extents of
`A`, and every element of it (there is at least one) equals `n[m-1] * v`. -/
theorem prod_matrix_constant_fill (F : Layout) (n : List Nat) (m : Nat) (v : Int)
    (hp : 2 ≤ n.length) (hpos : ∀ x ∈ n, 1 ≤ x) (hm : 1 ≤ m) (hmp : m ≤ n.length) :
    ∃ c, prod_matrix F (Tensor.filled F n v)
        (Matrix.filled (n.getD (m - 1) 0) (n.getD (m - 1) 0) 1) m = Except.ok c ∧
      c.extents = n ∧ c.data ≠ [] ∧ ∀ x ∈ c.data, x = (n.getD (m - 1) 0 : Int) * v := by
  have hm0 : m ≠ 0 := by omega
  have hpm : ¬ (n.length < m ∨ m > n.length) := by omega
  have hp0 : n.length ≠ 0 := by omega
  have hm1 : m - 1 < n.length := by omega
  have hnprod : 0 < n.prod := one_le_prod n hpos
  have hnm : 1 ≤ n.getD (m - 1) 0 := hpos _ (mem_of_getD n (m - 1) hm1)
  have hb0 : n.getD (m - 1) 0 * n.getD (m - 1) 0 ≠ 0 :=
    Nat.ne_of_gt (Nat.mul_pos hnm hnm)
  obtain ⟨C1, hC1, hC1y⟩ := ttm_constant F n m v hp hm hmp
  refine ⟨{ Tensor.filled F n 0 with
    data := (List.range (Tensor.filled F n 0).data.length).map C1 }, ?_, rfl, ?_, ?_⟩
  · simp only [prod_matrix, Tensor.rank, Tensor.empty, Tensor.filled, Matrix.filled,
      if_neg hm0, if_neg hpm, if_neg hp0, isEmpty_replicate _ v hnprod, Bool.false_eq_true,
      if_false, if_neg hb0, if_pos hm1, set_getD_self n (m - 1) hm1, List.length_replicate,
      data_ptr_replicate _ _ hnprod, hC1, collect_returned]
  · simp only [Tensor.filled, List.length_replicate, ne_eq, List.map_eq_nil_iff,
      List.range_eq_nil]
    omega
  · intro x hx
    simp only [Tensor.filled, List.length_replicate, List.mem_map, List.mem_range] at hx
    obtain ⟨y, hy, rfl⟩ := hx
    exact hC1y y hy

/-- Witness of C10: the extents `{2, 3}`, `v = 2`, `m = 2`, last-order layout. -/
theorem prod_matrix_constant_fill_witness :
    (∃ c, prod_matrix Layout.last_order (Tensor.filled Layout.last_order [2, 3] 2)
        (Matrix.filled (([2, 3] : List Nat).getD (2 - 1) 0) (([2, 3] : List Nat).getD (2 - 1) 0)
          1) 2 = Except.ok c ∧
      c.extents = [2, 3] ∧ c.data ≠ [] ∧
      ∀ x ∈ c.data, x = ((([2, 3] : List Nat).getD (2 - 1) 0 : Nat) : Int) * 2) ∧
    (∃ c, prod_matrix Layout.last_order (Tensor.filled Layout.last_order [2, 3] 2)
        (Matrix.filled 3 3 1) 2 = Except.ok c ∧ c.data = [6, 6, 6, 6, 6, 6]) :=
  ⟨prod_matrix_constant_fill Layout.last_order [2, 3] 2 2 (by decide) (by decide) (by decide)
    (by decide), _, rfl, by decide⟩

theorem data_ptr_of_ne_nil (d : List Int) (h : d ≠ []) : data_ptr d = some 0 := by
  cases d with
  | nil => exact absurd rfl h
  | cons x xs => rfl

theorem isEmpty_of_ne_nil (d : List Int) (h : d ≠ []) : d.isEmpty = false := by
  cases d with
  | nil => exact absurd rfl h
  | cons x xs => rfl

theorem getD_eq_getElem (l : List Nat) (k : Nat) (h : k < l.length) : l.getD k 0 = l[k] := by
  simp [List.getD, List.getElem?_eq_getElem h]

/-- Two lists of the same length with the same entries are equal. -/
theorem ext_getD (l1 l2 : List Nat) (hlen : l1.length = l2.length)
    (h : ∀ k, k < l1.length → l1.getD k 0 = l2.getD k 0) : l1 = l2 := by
  refine List.ext_getElem hlen (fun k h1 h2 => ?_)
  rw [← getD_eq_getElem l1 k h1, ← getD_eq_getElem l2 k h2]
  exact h k h1

theorem getD_append_left (l1 l2 : List Nat) (k : Nat) (h : k < l1.length) :
    (l1 ++ l2).getD k 0 = l1.getD k 0 := by
  simp [List.getD, List.getElem?_append_left h]

theorem getD_append_right (l1 l2 : List Nat) (k : Nat) (h : l1.length ≤ k) :
    (l1 ++ l2).getD k 0 = l2.getD (k - l1.length) 0 := by
  simp [List.getD, List.getElem?_append_right h]

/-- The wrapper `prod(tensor, vector, m)` on a valid non-empty tensor of rank at least 2
and a vector of the length of the contracted axis: it returns a tensor, whose extents
are the extents of `A` other than `m-1`, in order, filled up with ones to two entries. -/
theorem prod_vector_returns (F : Layout) (a : Tensor) (b : List Int) (m : Nat)
    (hp : 2 ≤ a.extents.length) (hm : 1 ≤ m) (hmp : m ≤ a.extents.length)
    (hst : a.strides.length = a.extents.length) (hpos : ∀ x ∈ a.extents, 1 ≤ x)
    (hdata : a.data ≠ []) (hb : b.length = a.extents.getD (m - 1) 0) :
    ∃ c, prod_vector F a b m = Except.ok c ∧
      c.extents = a.extents.eraseIdx (m - 1)
        ++ List.replicate (max (a.extents.length - 1) 2 - (a.extents.length - 1)) 1 := by
  have hm0 : m ≠ 0 := by omega
  have hpm : ¬ a.extents.length < m := by omega
  have hp0 : a.extents.length ≠ 0 := by omega
  have hnm : 1 ≤ a.extents.getD (m - 1) 0 := hpos _ (mem_of_getD a.extents (m - 1) (by omega))
  have hb0 : b.length ≠ 0 := by omega
  obtain ⟨nc1, hr, hl, hg⟩ := prod_nc_spec a.extents m hmp a.extents.length 0 0
    (List.replicate (max (a.extents.length - 1) 2) 1) (by omega) (fun _ => rfl)
    (fun h => absurd h (Nat.not_lt_zero _)) (by rw [List.length_replicate]; omega)
  rw [List.length_replicate] at hl
  have hg1 : ∀ l, l < a.extents.length - 1 →
      nc1.getD l 0 = a.extents.getD (ttv_axis (m - 1) l) 0 := by
    intro l hl1
    rw [hg l, if_pos ⟨Nat.zero_le l, hl1⟩]
  have hg2 : ∀ l, a.extents.length - 1 ≤ l → l < max (a.extents.length - 1) 2 →
      nc1.getD l 0 = 1 := by
    intro l hl1 hl2
    have : ¬ (0 ≤ l ∧ l < a.extents.length - 1) := by omega
    rw [hg l, if_neg this, getD_replicate_one _ _ hl2]
  have hncpos : ∀ x ∈ nc1, 1 ≤ x := by
    refine forall_mem_of_getD nc1 _ (fun j hj => ?_)
    rw [hl] at hj
    by_cases h1 : j < a.extents.length - 1
    · rw [hg1 j h1]
      refine hpos _ (mem_of_getD a.extents _ ?_)
      unfold ttv_axis
      split <;> omega
    · rw [hg2 j (by omega) hj]
  have hncprod : 0 < nc1.prod := one_le_prod nc1 hncpos
  have hmax : a.extents.getD (m - 1) 0 = max ([b.length, 1].getD 0 0) ([b.length, 1].getD 1 0) := by
    simp only [List.getD_cons_zero, List.getD_cons_succ]
    omega
  have hkernel : ∃ C1, ttv m a.extents.length (some 0) nc1 (strides F nc1) (some 0) a.extents
      a.strides (some 0) [b.length, 1] [b.length, 1] (view a.data) (view b)
      (view (List.replicate nc1.prod 0)) = Outcome.returned C1 := by
    by_cases h3 : 3 ≤ a.extents.length
    · obtain ⟨C1, hC1, -⟩ := ttv_returns m a.extents.length 0 0 0 nc1 (strides F nc1) a.extents
        a.strides [b.length, 1] [b.length, 1] (view a.data) (view b)
        (view (List.replicate nc1.prod 0)) h3 hm hmp rfl hst (by rw [hl]; omega)
        (by rw [length_strides, hl]; omega) rfl hg1 hmax
      exact ⟨C1, hC1⟩
    · have h2 : a.extents.length = 2 := by omega
      have hl2 : nc1.length = 2 := by rw [hl, h2]; rfl
      obtain ⟨C1, hC1, -⟩ := ttv_rank_two_returns m 0 0 0 nc1 (strides F nc1) a.extents
        a.strides [b.length, 1] [b.length, 1] (view a.data) (view b)
        (view (List.replicate nc1.prod 0)) hm (by omega) h2 (by rw [hst, h2]) (by omega)
        (by rw [length_strides, hl2]; split <;> omega) rfl (by
          rw [hg1 0 (by omega)]
          congr 1
          unfold ttv_axis
          split <;> split <;> omega) hmax
      rw [h2]
      exact ⟨C1, hC1⟩
  obtain ⟨C1, hC1⟩ := hkernel
  refine ⟨{ Tensor.filled F nc1 0 with
    data := (List.range (Tensor.filled F nc1 0).data.length).map C1 }, ?_, ?_⟩
  · simp only [prod_vector, Tensor.rank, Tensor.empty, Tensor.filled, if_neg hm0, if_neg hpm,
      if_neg hp0, isEmpty_of_ne_nil _ hdata, Bool.false_eq_true, if_false, if_neg hb0, hr,
      data_ptr_of_ne_nil _ hdata, data_ptr_replicate _ _ hncprod, hC1, collect_returned]
  · show nc1 = _
    refine ext_getD _ _ ?_ (fun k hk => ?_)
    · rw [hl, List.length_append, List.length_replicate,
        List.length_eraseIdx_of_lt (by omega)]
      omega
    · have hle : (a.extents.eraseIdx (m - 1)).length = a.extents.length - 1 :=
        List.length_eraseIdx_of_lt (by omega)
      rw [hl] at hk
      by_cases h1 : k < a.extents.length - 1
      · rw [hg1 k h1, getD_append_left _ _ _ (by rw [hle]; exact h1), getD_eraseIdx]
      · rw [hg2 k (by omega) hk, getD_append_right _ _ _ (by rw [hle]; omega),
          getD_replicate_one _ _ (by rw [hle]; omega)]

/-- C11 (amended): for a valid non-empty tensor `A` of rank `p ≥ 2`, a mode `1 ≤ m ≤ p`
and a vector `b` of length `na[m-1]`, `prod(A, b, m)` returns a tensor of rank
`max(p-1, 2)`: for `p ≥ 3` its extents are `na` with entry `m-1` removed, in order (rank
`p-1`); for `p = 2` they are the remaining extent followed by 1 (rank 2). -/
theorem prod_vector_shape (F : Layout) (a : Tensor) (b : List Int) (m : Nat)
    (hp : 2 ≤ a.extents.length) (hm : 1 ≤ m) (hmp : m ≤ a.extents.length)
    (hst : a.strides.length = a.extents.length) (hpos : ∀ x ∈ a.extents, 1 ≤ x)
    (hdata : a.data ≠ []) (hb : b.length = a.extents.getD (m - 1) 0) :
    ∃ c, prod_vector F a b m = Except.ok c ∧
      c.extents.length = max (a.extents.length - 1) 2 ∧
      (3 ≤ a.extents.length → c.extents = a.extents.eraseIdx (m - 1)) ∧
      (a.extents.length = 2 → c.extents = a.extents.eraseIdx (m - 1) ++ [1]) := by
  obtain ⟨c, hc, he⟩ := prod_vector_returns F a b m hp hm hmp hst hpos hdata hb
  have hle : (a.extents.eraseIdx (m - 1)).length = a.extents.length - 1 :=
    List.length_eraseIdx_of_lt (by omega)
  refine ⟨c, hc, ?_, ?_, ?_⟩
  · rw [he, List.length_append, List.length_replicate, hle]
    omega
  · intro h3
    have e : max (a.extents.length - 1) 2 - (a.extents.length - 1) = 0 := by omega
    rw [he, e]
    simp
  · intro h2
    have e : max (a.extents.length - 1) 2 - (a.extents.length - 1) = 1 := by
      rw [h2]
      rfl
    rw [he, e]
    rfl

/-- Witness of C11 (amended): a 2 x 3 x 4 tensor at mode 2. -/
theorem prod_vector_shape_witness :
    ∃ c, prod_vector Layout.first_order (Tensor.filled Layout.first_order [2, 3, 4] 1)
        [1, 1, 1] 2 = Except.ok c ∧
      c.extents.length
        = max ((Tensor.filled Layout.first_order [2, 3, 4] 1).extents.length - 1) 2 ∧
      (3 ≤ (Tensor.filled Layout.first_order [2, 3, 4] 1).extents.length →
        c.extents = (Tensor.filled Layout.first_order [2, 3, 4] 1).extents.eraseIdx (2 - 1)) ∧
      ((Tensor.filled Layout.first_order [2, 3, 4] 1).extents.length = 2 →
        c.extents
          = (Tensor.filled Layout.first_order [2, 3, 4] 1).extents.eraseIdx (2 - 1) ++ [1]) :=
  prod_vector_shape Layout.first_order (Tensor.filled Layout.first_order [2, 3, 4] 1)
    [1, 1, 1] 2 (by decide) (by decide) (by decide) rfl (by decide) (by decide) rfl

/-- C11 fails for a matrix: for the extents `{2, 3}`, mode 2 and a vector of length 3,
the tensor that `prod` returns has the extents `{2, 1}`, of rank 2, not the extents
`{2}` of rank `p - 1 = 1`. -/
theorem prod_vector_matrix_result_has_rank_two :
    ∃ c, prod_vector Layout.first_order (Tensor.filled Layout.first_order [2, 3] 2)
        [1, 1, 1] 2 = Except.ok c ∧
      c.extents = [2, 1] ∧ c.extents.length ≠ 2 - 1 ∧
      c.extents ≠ ([2, 3] : List Nat).eraseIdx (2 - 1) :=
  ⟨_, rfl, rfl, by decide, by decide⟩

theorem mem_set_cases (l : List Nat) (i v x : Nat) (h : x ∈ l.set i v) : x = v ∨ x ∈ l := by
  rcases List.mem_or_eq_of_mem_set h with h1 | h1
  · exact Or.inr h1
  · exact Or.inl h1

/-- The wrapper `prod(tensor, matrix, m)` on a valid non-empty tensor of rank at least 2
and a non-empty matrix whose column count is the extent of the contracted axis: it
returns a tensor, whose extents are those of `A` with the row count of the matrix at
axis `m-1`. -/
theorem prod_matrix_returns (F : Layout) (a : Tensor) (b : Matrix) (m : Nat)
    (hp : 2 ≤ a.extents.length) (hm : 1 ≤ m) (hmp : m ≤ a.extents.length)
    (hst : a.strides.length = a.extents.length) (hpos : ∀ x ∈ a.extents, 1 ≤ x)
    (hdata : a.data ≠ []) (hb1 : 1 ≤ b.size1) (hb2 : b.size2 = a.extents.getD (m - 1) 0) :
    ∃ c, prod_matrix F a b m = Except.ok c ∧ c.extents = a.extents.set (m - 1) b.size1 := by
  have hm0 : m ≠ 0 := by omega
  have hpm : ¬ (a.extents.length < m ∨ m > a.extents.length) := by omega
  have hp0 : a.extents.length ≠ 0 := by omega
  have hm1 : m - 1 < a.extents.length := by omega
  have hnm : 1 ≤ a.extents.getD (m - 1) 0 := hpos _ (mem_of_getD a.extents (m - 1) hm1)
  have hb0 : b.size1 * b.size2 ≠ 0 := by
    rw [hb2]
    exact Nat.ne_of_gt (Nat.mul_pos hb1 hnm)
  have hncpos : ∀ x ∈ a.extents.set (m - 1) b.size1, 1 ≤ x := by
    intro x hx
    rcases mem_set_cases _ _ _ _ hx with h | h
    · rw [h]; exact hb1
    · exact hpos x h
  have hncprod : 0 < (a.extents.set (m - 1) b.size1).prod := one_le_prod _ hncpos
  obtain ⟨C1, hC1, -⟩ := ttm_returns m a.extents.length 0 0 0 (a.extents.set (m - 1) b.size1)
    (strides F (a.extents.set (m - 1) b.size1)) a.extents a.strides [b.size1, b.size2]
    (strides F [b.size1, b.size2]) (view a.data) (view b.data)
    (view (List.replicate (a.extents.set (m - 1) b.size1).prod 0)) hp hm hmp rfl hst
    (by rw [List.length_set]) (by rw [length_strides, List.length_set]) rfl
    (by rw [length_strides]; rfl)
    (fun j _ hj => (getD_set_ne a.extents (m - 1) j b.size1 hj).symm)
    (by simp only [List.getD_cons_zero, List.getD_cons_succ]; exact hb2.symm)
    (by simp only [List.getD_cons_zero]; exact getD_set_eq a.extents (m - 1) b.size1 hm1)
  refine ⟨{ Tensor.filled F (a.extents.set (m - 1) b.size1) 0 with
    data := (List.range (Tensor.filled F (a.extents.set (m - 1) b.size1) 0).data.length).map
      C1 }, ?_, rfl⟩
  simp only [prod_matrix, Tensor.rank, Tensor.empty, Tensor.filled, if_neg hm0, if_neg hpm,
    if_neg hp0, isEmpty_of_ne_nil _ hdata, Bool.false_eq_true, if_false, if_neg hb0, if_pos hm1,
    data_ptr_of_ne_nil _ hdata, data_ptr_replicate _ _ hncprod, hC1, collect_returned]

/-- C12 on tensors of rank 1: for a valid non-empty tensor `A` with the single extent `n`
and a non-empty matrix with `n` columns, `prod(A, B, 1)` builds the output and calls
`ttm`, whose kernel `detail::ttm0` enters its base case with `r = 0` and reads `nc[1]`,
past the end of the extents of the output: the call has undefined behaviour and returns
no tensor. -/
theorem prod_matrix_rank_one_undefined (F : Layout) (a : Tensor) (b : Matrix)
    (hp : a.extents.length = 1) (hst : a.strides.length = 1) (hpos : ∀ x ∈ a.extents, 1 ≤ x)
    (hdata : a.data ≠ []) (hb1 : 1 ≤ b.size1) (hb2 : b.size2 = a.extents.getD 0 0) :
    prod_matrix F a b 1 = Except.error Failure.undefined := by
  match a, hp with
  | ⟨[n], wa, d⟩, _ =>
    simp only [List.getD_cons_zero] at hb2
    simp only at hdata hpos
    have hn : 1 ≤ n := hpos n (List.mem_singleton.mpr rfl)
    have hb0 : b.size1 * b.size2 ≠ 0 := by
      rw [hb2]
      exact Nat.ne_of_gt (Nat.mul_pos hb1 hn)
    have hprod : 0 < ([b.size1] : List Nat).prod := by simpa using hb1
    have hne1 : ¬ n ≠ b.size2 := by rw [hb2]; simp
    simp only [prod_matrix, Tensor.rank, Tensor.empty, Tensor.filled, List.length_cons,
      List.length_nil, Nat.zero_add, Nat.one_ne_zero, if_false, Nat.lt_irrefl, gt_iff_lt,
      or_self, isEmpty_of_ne_nil _ hdata, Bool.false_eq_true, if_neg hb0, Nat.sub_self,
      Nat.zero_lt_one, if_true, List.set_cons_zero, data_ptr_of_ne_nil _ hdata,
      data_ptr_replicate _ _ hprod, ttm, extents_differ, List.getElem?_cons_zero,
      List.getElem?_cons_succ, if_neg hne1, ne_eq, not_true_eq_false, detail.ttm0, cfor,
      List.getElem?_nil, Option.bind, Outcome.ofKernel, collect]

/-- Witness of C12 on rank 1: the extents `{3}` and a 2 x 3 matrix. -/
theorem prod_matrix_rank_one_undefined_witness :
    prod_matrix Layout.first_order (Tensor.filled Layout.first_order [3] 2)
      (Matrix.filled 2 3 1) 1 = Except.error Failure.undefined :=
  prod_matrix_rank_one_undefined Layout.first_order (Tensor.filled Layout.first_order [3] 2)
    (Matrix.filled 2 3 1) rfl rfl (by decide) (by decide) (by decide) rfl

/-- C13: for a rank-1 input `na = {n}`, `wa = {w}` with `n ≥ 1`, a vector of length `n`
(extents `{n, 1}`) and `m = p = 1`, public `ttv` raises no error and takes the `mtv`
path with the zero-based mode 0; there `mtv` takes the free axis `o = 1` and reads
`na[1]`, past the end of the length-1 extents: the call has undefined behaviour and
leaves no defined `C[0]`, whatever the output arrays and the buffers are. -/
theorem ttv_rank_one_undefined (n w c a b : Nat) (nc wc wb : List Nat) (A B C : Mem)
    (hn : 1 ≤ n) :
    ttv 1 1 (some c) nc wc (some a) [n] [w] (some b) [n, 1] wb A B C
        = Outcome.ofKernel (detail.mtv 0 c nc wc a [n] [w] b A B C) ∧
      ttv 1 1 (some c) nc wc (some a) [n] [w] (some b) [n, 1] wb A B C
        = Outcome.undefined := by
  have hmax : ¬ n ≠ max n 1 := by
    rw [Nat.max_eq_left hn]
    simp
  have h1 : ttv 1 1 (some c) nc wc (some a) [n] [w] (some b) [n, 1] wb A B C
      = Outcome.ofKernel (detail.mtv 0 c nc wc a [n] [w] b A B C) := by
    simp only [ttv, extents_differ, Nat.one_ne_zero, if_false, Nat.lt_irrefl, Nat.sub_self,
      List.getElem?_cons_zero, List.getElem?_cons_succ, if_neg hmax, ne_eq, not_true_eq_false,
      false_and, gt_iff_lt]
    simp
  refine ⟨h1, ?_⟩
  rw [h1]
  simp [detail.mtv, cfor, Outcome.ofKernel]

/-- Witness of C13: the rank-1 input `{3}` with stride 1 and a zero output cell. -/
theorem ttv_rank_one_undefined_witness :
    ttv 1 1 (some 0) [] [] (some 0) [3] [1] (some 0) [3, 1] [1, 1]
        (fun _ => 1) (fun _ => 1) (fun _ => 0)
        = Outcome.ofKernel (detail.mtv 0 0 [] [] 0 [3] [1] 0
            (fun _ => 1) (fun _ => 1) (fun _ => 0)) ∧
      ttv 1 1 (some 0) [] [] (some 0) [3] [1] (some 0) [3, 1] [1, 1]
        (fun _ => 1) (fun _ => 1) (fun _ => 0)
        = Outcome.undefined :=
  ttv_rank_one_undefined 3 1 0 0 0 [] [] [1, 1] (fun _ => 1) (fun _ => 1) (fun _ => 0)
    (by decide)

/-- C20 (amended): for `p = 1`, `m = 1`, extents `na = {n}`, `nc = {k}`, `nb = {k, n}` and
non-null pointers, public `ttm` raises no error: every check passes and the call enters
the kernel `detail::ttm0` with `r = 0`. -/
theorem ttm_rank_one_enters_kernel (n k c a b : Nat) (wc wa wb : List Nat) (A B C : Mem) :
    ttm 1 1 (some c) [k] wc (some a) [n] wa (some b) [k, n] wb A B C
        = Outcome.ofKernel (detail.ttm0 0 c [k] wc a [n] wa b [k, n] wb A B C) ∧
      ∀ msg C1, ttm 1 1 (some c) [k] wc (some a) [n] wa (some b) [k, n] wb A B C
        ≠ Outcome.raised msg C1 := by
  have h1 : ttm 1 1 (some c) [k] wc (some a) [n] wa (some b) [k, n] wb A B C
      = Outcome.ofKernel (detail.ttm0 0 c [k] wc a [n] wa b [k, n] wb A B C) := by
    simp [ttm, extents_differ]
  refine ⟨h1, ?_⟩
  intro msg C1
  rw [h1]
  exact ofKernel_not_raised _ msg C1

/-- C20 fails on the extents `na = {2}`, `nc = {3}`, `nb = {3, 2}`: public `ttm` raises no
error there. -/
theorem ttm_rank_one_not_rejected :
    ¬ ∃ msg C1, ttm 1 1 (some 0) [3] [1] (some 0) [2] [1] (some 0) [3, 2] [1, 3]
        (fun _ => 1) (fun _ => 1) (fun _ => 0) = Outcome.raised msg C1 := by
  rintro ⟨msg, C1, h⟩
  have e : ttm 1 1 (some 0) [3] [1] (some 0) [2] [1] (some 0) [3, 2] [1, 3]
      (fun _ => 1) (fun _ => 1) (fun _ => 0) = Outcome.undefined := rfl
  rw [e] at h
  cases h

theorem scatterN_length (idx val : Nat → Nat) (count i : Nat) (nc : List Nat) :
    (scatterN idx val count i nc).length = nc.length := by
  induction count generalizing i nc with
  | zero => rfl
  | succ count ih =>
    rw [scatterN, ih, List.length_set]

/-- A cell that none of the writes addresses keeps its content. -/
theorem scatterN_getD_miss (idx val : Nat → Nat) (count i : Nat) (nc : List Nat) (k : Nat)
    (h : ∀ j, i ≤ j → j < i + count → idx j ≠ k) :
    (scatterN idx val count i nc).getD k 0 = nc.getD k 0 := by
  induction count generalizing i nc with
  | zero => rfl
  | succ count ih =>
    rw [scatterN, ih (i + 1) _ (fun j h1 h2 => h j (by omega) (by omega))]
    exact getD_set_ne nc (idx i) k (val i) (Ne.symm (h i (Nat.le_refl i) (by omega)))

/-- A cell that exactly one of the writes addresses holds the value of that write. -/
theorem scatterN_getD_hit (idx val : Nat → Nat) (count i : Nat) (nc : List Nat) (j : Nat)
    (h1 : i ≤ j) (h2 : j < i + count) (hlt : idx j < nc.length)
    (hinj : ∀ t, i ≤ t → t < i + count → idx t = idx j → t = j) :
    (scatterN idx val count i nc).getD (idx j) 0 = val j := by
  induction count generalizing i nc with
  | zero => omega
  | succ count ih =>
    rw [scatterN]
    by_cases hij : j = i
    · subst hij
      rw [scatterN_getD_miss idx val count (j + 1) _ (idx j)
        (fun t ht1 ht2 e => by have := hinj t (by omega) (by omega) e; omega)]
      exact getD_set_eq nc (idx j) (val j) hlt
    · exact ih (i + 1) _ (by omega) (by omega) (by rw [List.length_set]; exact hlt)
        (fun t ht1 ht2 e => hinj t (by omega) (by omega) e)

/-- The first loop shape of `outer_prod`: when all accesses are in range, the checked
loop is the sequence of its writes. -/
theorem copy_extents_eq (src : List Nat) (off count i : Nat) (nc : List Nat)
    (hs : i + count ≤ src.length) (hn : off + i + count ≤ nc.length) :
    copy_extents src off count i nc
      = Except.ok (scatterN (fun t => off + t) (fun t => src.getD t 0) count i nc) := by
  induction count generalizing i nc with
  | zero => rfl
  | succ count ih =>
    have hi : i < src.length := by omega
    have hoi : off + i < nc.length := by omega
    rw [copy_extents, List.getElem?_eq_getElem hi]
    simp only [if_pos hoi]
    rw [ih (i + 1) _ (by omega) (by rw [List.length_set]; omega), scatterN,
      getD_eq_getElem src i hi]

theorem getD_replicate_zero (L k : Nat) : (List.replicate L 0).getD k 0 = 0 := by
  by_cases h : k < L
  · simp [List.getD, List.getElem?_replicate, h]
  · simp [List.getD, List.getElem?_replicate, h]

/-- The two loops of `outer_prod` leave the extents of `a` followed by those of `b`. -/
theorem outer_prod_extents_eq (a b : Tensor) (ha : a.empty = false) (hb : b.empty = false) :
    outer_prod_extents a b = Except.ok (a.extents ++ b.extents) := by
  have h1 := copy_extents_eq a.extents 0 a.extents.length 0
    (List.replicate (a.extents.length + b.extents.length) 0) (by omega)
    (by rw [List.length_replicate]; omega)
  have h2 := copy_extents_eq b.extents a.extents.length b.extents.length 0
    (scatterN (fun t => 0 + t) (fun t => a.extents.getD t 0) a.extents.length 0
      (List.replicate (a.extents.length + b.extents.length) 0)) (by omega)
    (by rw [scatterN_length, List.length_replicate]; omega)
  simp only [outer_prod_extents, ha, hb, Bool.or_self, Bool.false_eq_true, if_false,
    Tensor.rank, h1, h2]
  congr 1
  apply ext_getD
  · rw [scatterN_length, scatterN_length, List.length_replicate, List.length_append]
  · intro k hk
    rw [scatterN_length, scatterN_length, List.length_replicate] at hk
    by_cases hka : k < a.extents.length
    · rw [scatterN_getD_miss _ _ _ _ _ k (fun j _ _ => by omega), getD_append_left _ _ k hka]
      have e := scatterN_getD_hit (fun t => 0 + t) (fun t => a.extents.getD t 0)
        a.extents.length 0 (List.replicate (a.extents.length + b.extents.length) 0) k
        (Nat.zero_le k) (by omega) (by dsimp only; rw [List.length_replicate]; omega)
        (fun t _ _ e => by dsimp only at e; omega)
      simp only [Nat.zero_add] at e
      simp only [Nat.zero_add]
      exact e
    · have hka1 : a.extents.length ≤ k := by omega
      rw [getD_append_right _ _ k hka1]
      have e := scatterN_getD_hit (fun t => a.extents.length + t) (fun t => b.extents.getD t 0)
        b.extents.length 0
        (scatterN (fun t => 0 + t) (fun t => a.extents.getD t 0) a.extents.length 0
          (List.replicate (a.extents.length + b.extents.length) 0)) (k - a.extents.length)
        (Nat.zero_le _) (by omega)
        (by dsimp only; rw [scatterN_length, List.length_replicate]; omega)
        (fun t _ _ e => by dsimp only at e; omega)
      have ek : a.extents.length + (k - a.extents.length) = k := by omega
      simp only [ek] at e
      exact e

/-- C14: for two non-empty tensors `A` (rank `p`, extents `na`) and `B` (rank `q`,
extents `nb`), the extents that `outer_prod` builds for its result are `na` followed by
`nb`: they have length `p + q`, with `nc[i] = na[i]` for `i < p` and `nc[p+i] = nb[i]`
for `i < q`; if `A` or `B` is empty, `outer_prod` raises a length error instead. -/
theorem outer_prod_extents_concat (a b : Tensor) :
    ((a.empty = false ∧ b.empty = false) →
      ∃ nc, outer_prod_extents a b = Except.ok nc ∧ nc.length = a.rank + b.rank ∧
        (∀ i, i < a.rank → nc.getD i 0 = a.extents.getD i 0) ∧
        (∀ i, i < b.rank → nc.getD (a.rank + i) 0 = b.extents.getD i 0)) ∧
    ((a.empty = true ∨ b.empty = true) →
      outer_prod_extents a b = Except.error (Failure.length_error
          "Error in boost::numeric::ublas::outer_prod: tensors should not be empty.") ∧
        ∀ F outer, outer_prod F outer a b = Except.error (Failure.length_error
          "Error in boost::numeric::ublas::outer_prod: tensors should not be empty.")) := by
  constructor
  · rintro ⟨ha, hb⟩
    refine ⟨a.extents ++ b.extents, outer_prod_extents_eq a b ha hb, ?_, ?_, ?_⟩
    · rw [List.length_append]; rfl
    · intro i hi
      exact getD_append_left _ _ i hi
    · intro i hi
      have e := getD_append_right a.extents b.extents (a.extents.length + i)
        (Nat.le_add_right _ _)
      rw [Nat.add_sub_cancel_left] at e
      exact e
  · intro h
    have he : (a.empty || b.empty) = true := by
      rcases h with h | h
      · rw [h]; rfl
      · rw [h]; simp
    have h1 : outer_prod_extents a b = Except.error (Failure.length_error
        "Error in boost::numeric::ublas::outer_prod: tensors should not be empty.") := by
      simp only [outer_prod_extents, he, if_true]
    refine ⟨h1, ?_⟩
    intro F outer
    simp only [outer_prod, h1]

/-- Witness of C14: the extents `{2, 3}` and `{4, 1, 5}`. -/
theorem outer_prod_extents_concat_witness :
    ∃ nc, outer_prod_extents (Tensor.filled Layout.first_order [2, 3] 1)
        (Tensor.filled Layout.first_order [4, 1, 5] 1) = Except.ok nc ∧
      nc.length = (Tensor.filled Layout.first_order [2, 3] 1).rank
        + (Tensor.filled Layout.first_order [4, 1, 5] 1).rank ∧
      (∀ i, i < (Tensor.filled Layout.first_order [2, 3] 1).rank →
        nc.getD i 0 = (Tensor.filled Layout.first_order [2, 3] 1).extents.getD i 0) ∧
      (∀ i, i < (Tensor.filled Layout.first_order [4, 1, 5] 1).rank →
        nc.getD ((Tensor.filled Layout.first_order [2, 3] 1).rank + i) 0
          = (Tensor.filled Layout.first_order [4, 1, 5] 1).extents.getD i 0) :=
  (outer_prod_extents_concat (Tensor.filled Layout.first_order [2, 3] 1)
    (Tensor.filled Layout.first_order [4, 1, 5] 1)).1 ⟨rfl, rfl⟩

theorem size_pred_pos (t : Nat) (h : 1 ≤ t) : size_pred t = t - 1 := by
  have h0 : t ≠ 0 := by omega
  simp only [size_pred, if_neg h0]

/-- The loop of `trans` with all accesses in range is the sequence of its writes. -/
theorem trans_nc_eq (na tau : List Nat) (count i : Nat) (nc : List Nat)
    (hs : i + count ≤ na.length) (ht : i + count ≤ tau.length)
    (hr : ∀ j, i ≤ j → j < i + count → 1 ≤ tau.getD j 0 ∧ tau.getD j 0 ≤ nc.length) :
    trans_nc na tau count i nc
      = Except.ok (scatterN (fun t => tau.getD t 0 - 1) (fun t => na.getD t 0) count i nc) := by
  induction count generalizing i nc with
  | zero => rfl
  | succ count ih =>
    have hi : i < na.length := by omega
    have hti : i < tau.length := by omega
    have hri := hr i (Nat.le_refl i) (by omega)
    rw [getD_eq_getElem tau i hti] at hri
    have hlt : size_pred tau[i] < nc.length := by
      rw [size_pred_pos _ hri.1]
      omega
    rw [trans_nc, List.getElem?_eq_getElem hi, List.getElem?_eq_getElem hti]
    simp only [if_pos hlt]
    rw [ih (i + 1) _ (by omega) (by omega)
      (fun j h1 h2 => by rw [List.length_set]; exact hr j (by omega) (by omega)), scatterN,
      getD_eq_getElem na i hi, getD_eq_getElem tau i hti, size_pred_pos _ hri.1]

/-- The loop of `trans` throws when one of its accesses is out of range: `tau` has no
entry `j`, or the entry, decremented in `size_t`, is no index of `nc`. -/
theorem trans_nc_error (na tau : List Nat) (count i : Nat) (nc : List Nat)
    (hs : i + count ≤ na.length)
    (hbad : ∃ j, i ≤ j ∧ j < i + count ∧
      (tau.length ≤ j ∨ nc.length ≤ size_pred (tau.getD j 0))) :
    trans_nc na tau count i nc = Except.error Failure.out_of_range := by
  induction count generalizing i nc with
  | zero =>
    obtain ⟨j, h1, h2, -⟩ := hbad
    omega
  | succ count ih =>
    have hi : i < na.length := by omega
    rw [trans_nc, List.getElem?_eq_getElem hi]
    by_cases hti : i < tau.length
    · rw [List.getElem?_eq_getElem hti]
      by_cases hlt : size_pred tau[i] < nc.length
      · simp only [if_pos hlt]
        apply ih (i + 1) _ (by omega)
        obtain ⟨j, h1, h2, h3⟩ := hbad
        have hji : j ≠ i := by
          intro e
          rw [e, getD_eq_getElem tau i hti] at h3
          omega
        refine ⟨j, by omega, by omega, ?_⟩
        rw [List.length_set]
        exact h3
      · simp only [if_neg hlt]
    · have e : tau[i]? = none := List.getElem?_eq_none (by omega)
      rw [e]

theorem ofFn_getD (l : List Nat) (p : Nat) (h : l.length = p) :
    List.ofFn (fun k : Fin p => l.getD k.1 0) = l := by
  subst h
  apply List.ext_getElem
  · simp
  · intro k h1 h2
    simp [getD_eq_getElem l k h2]

/-- A bijection on `{1, ..., p}` as a permutation of the zero-based axes. -/
theorem permutation_equiv (tau : List Nat) (p : Nat) (h : IsPermutation tau p) :
    ∃ e : Equiv.Perm (Fin p), ∀ i : Fin p, (e i).1 = tau.getD i.1 0 - 1 := by
  obtain ⟨-, hr, hinj⟩ := h
  have hlt : ∀ i : Fin p, tau.getD i.1 0 - 1 < p := by
    intro i
    have := hr i.1 i.2
    omega
  have hi : Function.Injective (fun i : Fin p => (⟨tau.getD i.1 0 - 1, hlt i⟩ : Fin p)) := by
    intro i j e
    have e1 : tau.getD i.1 0 - 1 = tau.getD j.1 0 - 1 := congrArg Fin.val e
    have h1 := hr i.1 i.2
    have h2 := hr j.1 j.2
    exact Fin.ext (hinj i.1 i.2 j.1 j.2 (by omega))
  exact ⟨Equiv.ofBijective _ (Finite.injective_iff_bijective.mp hi), fun i => rfl⟩

/-- Every value of `{1, ..., p}` is an entry of a bijection on `{1, ..., p}`. -/
theorem permutation_surjective (tau : List Nat) (p : Nat) (h : IsPermutation tau p)
    (k : Nat) (hk : k < p) : ∃ j, j < p ∧ tau.getD j 0 = k + 1 := by
  obtain ⟨e, he⟩ := permutation_equiv tau p h
  obtain ⟨j, hj⟩ := e.surjective ⟨k, hk⟩
  have h1 := he j
  rw [hj] at h1
  have h2 := h.2.1 j.1 j.2
  exact ⟨j.1, j.2, by simp only at h1; omega⟩

/-- Extents that are a scattered copy along a bijection are a rearrangement. -/
theorem perm_of_scatter (na nc tau : List Nat) (p : Nat) (hna : na.length = p)
    (hnc : nc.length = p) (h : IsPermutation tau p)
    (hv : ∀ i, i < p → nc.getD (tau.getD i 0 - 1) 0 = na.getD i 0) : List.Perm nc na := by
  obtain ⟨e, he⟩ := permutation_equiv tau p h
  have h1 := Equiv.Perm.ofFn_comp_perm e (fun k : Fin p => nc.getD k.1 0)
  have h2 : ((fun k : Fin p => nc.getD k.1 0) ∘ e) = fun i : Fin p => na.getD i.1 0 := by
    funext i
    simp only [Function.comp_apply, he i]
    exact hv i.1 i.2
  rw [h2, ofFn_getD na p hna, ofFn_getD nc p hnc] at h1
  exact h1.symm

/-- The extents loop of `trans` for a bijection `tau` on `{1, ..., p}`: it returns extents
`nc` of the same length with `nc[tau[i]-1] = na[i]`. -/
theorem trans_extents_spec (na tau : List Nat) (h : IsPermutation tau na.length) :
    ∃ nc, trans_extents na tau = Except.ok nc ∧ nc.length = na.length ∧
      ∀ i, i < na.length → nc.getD (tau.getD i 0 - 1) 0 = na.getD i 0 := by
  have hr : ∀ j, 0 ≤ j → j < 0 + na.length →
      1 ≤ tau.getD j 0 ∧ tau.getD j 0 ≤ (List.replicate na.length 0).length := by
    intro j _ hj
    rw [List.length_replicate]
    exact h.2.1 j (by omega)
  refine ⟨_, trans_nc_eq na tau na.length 0 (List.replicate na.length 0) (by omega)
    (by rw [h.1]; omega) hr, ?_, ?_⟩
  · rw [scatterN_length, List.length_replicate]
  · intro i hi
    have hb := h.2.1 i hi
    exact scatterN_getD_hit (fun t => tau.getD t 0 - 1) (fun t => na.getD t 0) na.length 0
      (List.replicate na.length 0) i (Nat.zero_le i) (by omega)
      (by dsimp only; rw [List.length_replicate]; omega)
      (fun t _ ht e => by
        dsimp only at e
        have hbt := h.2.1 t (by omega)
        exact h.2.2 t (by omega) i hi (by omega))

/-- C15: for a non-empty tensor `A` of rank `p` with extents `na` and a 1-based `tau` of
length `p` that is a bijection on `{1, ..., p}`, `trans` builds extents `nc` of length `p`
with `nc[tau[i]-1] = na[i]` for every axis `i < p`; `nc` is a rearrangement of `na`, the
product of `nc` is the product of `na`, and the container handed to the kernel and
returned has these extents. -/
theorem trans_extents_permuted (a : Tensor) (tau : List Nat) (hne : a.empty = false)
    (h : IsPermutation tau a.rank) :
    ∃ nc, trans_extents a.extents tau = Except.ok nc ∧ nc.length = a.rank ∧
      (∀ i, i < a.rank → nc.getD (tau.getD i 0 - 1) 0 = a.extents.getD i 0) ∧
      List.Perm nc a.extents ∧ nc.prod = a.extents.prod ∧
      ∀ F kernel, trans F kernel a tau =
        match kernel (Tensor.filled F nc 0) a tau with
        | Except.error e => Except.error e
        | Except.ok d => Except.ok { Tensor.filled F nc 0 with data := d } := by
  obtain ⟨nc, h1, h2, h3⟩ := trans_extents_spec a.extents tau h
  have hp : List.Perm nc a.extents := perm_of_scatter a.extents nc tau a.rank rfl h2 h h3
  refine ⟨nc, h1, h2, h3, hp, hp.prod_eq, ?_⟩
  intro F kernel
  simp only [trans, hne, Bool.false_eq_true, if_false, h1]

/-- Witness of C15: the extents `{2, 3, 4}` under `tau = {2, 3, 1}`. -/
theorem trans_extents_permuted_witness :
    ∃ nc, trans_extents (Tensor.filled Layout.first_order [2, 3, 4] 1).extents [2, 3, 1]
        = Except.ok nc ∧
      nc.length = (Tensor.filled Layout.first_order [2, 3, 4] 1).rank ∧
      (∀ i, i < (Tensor.filled Layout.first_order [2, 3, 4] 1).rank →
        nc.getD (([2, 3, 1] : List Nat).getD i 0 - 1) 0
          = (Tensor.filled Layout.first_order [2, 3, 4] 1).extents.getD i 0) ∧
      List.Perm nc (Tensor.filled Layout.first_order [2, 3, 4] 1).extents ∧
      nc.prod = (Tensor.filled Layout.first_order [2, 3, 4] 1).extents.prod ∧
      ∀ F kernel, trans F kernel (Tensor.filled Layout.first_order [2, 3, 4] 1) [2, 3, 1] =
        match kernel (Tensor.filled F nc 0)
          (Tensor.filled Layout.first_order [2, 3, 4] 1) [2, 3, 1] with
        | Except.error e => Except.error e
        | Except.ok d => Except.ok { Tensor.filled F nc 0 with data := d } :=
  trans_extents_permuted (Tensor.filled Layout.first_order [2, 3, 4] 1) [2, 3, 1] rfl
    ⟨rfl, by decide, by decide⟩

/-- The loop of the lambda `inverse` with all accesses in range is the sequence of its
writes. -/
theorem inverse_loop_eq (pi : List Nat) (count j : Nat) (pi_inv : List Nat)
    (hs : j + count ≤ pi.length)
    (hr : ∀ t, j ≤ t → t < j + count → 1 ≤ pi.getD t 0 ∧ pi.getD t 0 ≤ pi_inv.length) :
    inverse_loop pi count j pi_inv
      = some (scatterN (fun t => pi.getD t 0 - 1) (fun t => t + 1) count j pi_inv) := by
  induction count generalizing j pi_inv with
  | zero => rfl
  | succ count ih =>
    have hj : j < pi.length := by omega
    have hrj := hr j (Nat.le_refl j) (by omega)
    rw [getD_eq_getElem pi j hj] at hrj
    have hlt : size_pred pi[j] < pi_inv.length := by
      rw [size_pred_pos _ hrj.1]
      omega
    rw [inverse_loop, List.getElem?_eq_getElem hj]
    simp only [if_pos hlt]
    rw [ih (j + 1) _ (by omega)
      (fun t h1 h2 => by rw [List.length_set]; exact hr t (by omega) (by omega)), scatterN,
      getD_eq_getElem pi j hj, size_pred_pos _ hrj.1]

/-- The lambda `inverse` on a bijection `tau` on `{1, ..., p}` returns a bijection on
`{1, ..., p}` with `inverse[tau[j]-1] = j + 1`. -/
theorem inverse_spec (tau : List Nat) (p : Nat) (h : IsPermutation tau p) :
    ∃ inv, inverse tau = some inv ∧ IsPermutation inv p ∧
      ∀ j, j < p → inv.getD (tau.getD j 0 - 1) 0 = j + 1 := by
  have hlen := h.1
  have hr : ∀ t, 0 ≤ t → t < 0 + tau.length →
      1 ≤ tau.getD t 0 ∧ tau.getD t 0 ≤ tau.length := by
    intro t _ ht
    rw [hlen]
    exact h.2.1 t (by omega)
  have hv : ∀ j, j < p →
      (scatterN (fun t => tau.getD t 0 - 1) (fun t => t + 1) tau.length 0 tau).getD
        (tau.getD j 0 - 1) 0 = j + 1 := by
    intro j hj
    have hb := h.2.1 j hj
    exact scatterN_getD_hit (fun t => tau.getD t 0 - 1) (fun t => t + 1) tau.length 0 tau j
      (Nat.zero_le j) (by omega) (by dsimp only; omega)
      (fun t _ ht e => by
        dsimp only at e
        have hbt := h.2.1 t (by omega)
        exact h.2.2 t (by omega) j hj (by omega))
  refine ⟨_, inverse_loop_eq tau tau.length 0 tau (by omega) hr, ⟨?_, ?_, ?_⟩, hv⟩
  · rw [scatterN_length, hlen]
  · intro k hk
    obtain ⟨j, hj, e⟩ := permutation_surjective tau p h k hk
    have e1 := hv j hj
    rw [e, Nat.add_sub_cancel] at e1
    rw [e1]
    omega
  · intro k1 hk1 k2 hk2 e
    obtain ⟨j1, hj1, e1⟩ := permutation_surjective tau p h k1 hk1
    obtain ⟨j2, hj2, e2⟩ := permutation_surjective tau p h k2 hk2
    have v1 := hv j1 hj1
    have v2 := hv j2 hj2
    rw [e1, Nat.add_sub_cancel] at v1
    rw [e2, Nat.add_sub_cancel] at v2
    rw [v1, v2] at e
    have ej : j1 = j2 := by omega
    rw [ej, e2] at e1
    omega

theorem isPermutation_iota (p : Nat) : IsPermutation (List.range' 1 p) p := by
  have hg : ∀ i, i < p → (List.range' 1 p).getD i 0 = 1 + i := by
    intro i hi
    rw [getD_eq_getElem _ i (by rw [List.length_range']; exact hi), List.getElem_range']
    omega
  refine ⟨List.length_range' _ _ _, ?_, ?_⟩
  · intro i hi
    rw [hg i hi]
    omega
  · intro i hi j hj e
    rw [hg i hi, hg j hj] at e
    omega

/-- C16: for extents `na` of rank `p` and a permutation `tau` of `{1, ..., p}`, the lambda
`inverse` of the test returns `inverse(tau)`, `trans` computes extents `nc` for `tau`,
and the extents that `trans` computes from `nc` for `inverse(tau)` are `na`; for the
identity permutation `{1, ..., p}` the extents that `trans` computes are `na`. -/
theorem trans_extents_round_trip (na tau : List Nat) (h : IsPermutation tau na.length) :
    (∃ inv nc, inverse tau = some inv ∧ trans_extents na tau = Except.ok nc ∧
      trans_extents nc inv = Except.ok na) ∧
    trans_extents na (List.range' 1 na.length) = Except.ok na := by
  constructor
  · obtain ⟨inv, hi1, hi2, hi3⟩ := inverse_spec tau na.length h
    obtain ⟨nc, h1, h2, h3⟩ := trans_extents_spec na tau h
    have hinv : IsPermutation inv nc.length := by rw [h2]; exact hi2
    obtain ⟨nc2, g1, g2, g3⟩ := trans_extents_spec nc inv hinv
    refine ⟨inv, nc, hi1, h1, ?_⟩
    rw [g1]
    congr 1
    apply ext_getD _ _ (by rw [g2, h2])
    intro j hj
    rw [g2, h2] at hj
    have hb := h.2.1 j hj
    have hk : tau.getD j 0 - 1 < nc.length := by rw [h2]; omega
    have e := g3 (tau.getD j 0 - 1) hk
    rw [hi3 j hj, Nat.add_sub_cancel, h3 j hj] at e
    exact e
  · obtain ⟨nc, h1, h2, h3⟩ := trans_extents_spec na (List.range' 1 na.length)
      (isPermutation_iota na.length)
    rw [h1]
    congr 1
    apply ext_getD _ _ h2
    intro j hj
    rw [h2] at hj
    have e := h3 j hj
    have hg : (List.range' 1 na.length).getD j 0 = 1 + j := by
      rw [getD_eq_getElem _ j (by rw [List.length_range']; exact hj), List.getElem_range']
      omega
    rw [hg, Nat.add_sub_cancel_left] at e
    exact e

/-- Witness of C16: the extents `{2, 3, 4}` under `tau = {2, 3, 1}`. -/
theorem trans_extents_round_trip_witness :
    (∃ inv nc, inverse [2, 3, 1] = some inv ∧
      trans_extents [2, 3, 4] [2, 3, 1] = Except.ok nc ∧
      trans_extents nc inv = Except.ok [2, 3, 4]) ∧
    trans_extents [2, 3, 4] (List.range' 1 ([2, 3, 4] : List Nat).length)
      = Except.ok [2, 3, 4] :=
  trans_extents_round_trip [2, 3, 4] [2, 3, 1] ⟨rfl, by decide, by decide⟩

/-- C17 (amended): the accesses `tau.at(i)` and `nc.at(tau.at(i) - 1)` of `trans` are
checked.  For a non-empty tensor `A` of rank `p < 2^64`: when `tau` has at least `p`
entries and each of the first `p` lies between 1 and `p`, the extents loop signals no
error and returns extents, also when an entry is repeated; in every other case (fewer
than `p` entries, an entry 0, whose decrement wraps, or an entry greater than `p`) the
loop, and with it the wrapper `trans`, throws `std::out_of_range`. -/
theorem trans_extents_checks_tau (a : Tensor) (tau : List Nat) (hne : a.empty = false)
    (hp : a.rank < 2 ^ 64) :
    ((a.rank ≤ tau.length ∧ ∀ i, i < a.rank → 1 ≤ tau.getD i 0 ∧ tau.getD i 0 ≤ a.rank) →
      ∃ nc, trans_extents a.extents tau = Except.ok nc) ∧
    ((tau.length < a.rank ∨
        ∃ i, i < a.rank ∧ (tau.getD i 0 = 0 ∨ a.rank < tau.getD i 0)) →
      trans_extents a.extents tau = Except.error Failure.out_of_range ∧
        ∀ F kernel, trans F kernel a tau = Except.error Failure.out_of_range) := by
  constructor
  · rintro ⟨hl, hr⟩
    exact ⟨_, trans_nc_eq a.extents tau a.extents.length 0
      (List.replicate a.extents.length 0) (by omega) (by simpa [Tensor.rank] using hl)
      (fun j _ hj => by
        rw [List.length_replicate]
        exact hr j (by simpa [Tensor.rank] using hj))⟩
  · intro hbad
    have hp1 : a.extents.length < 2 ^ 64 := hp
    have hb : ∃ j, 0 ≤ j ∧ j < 0 + a.extents.length ∧
        (tau.length ≤ j ∨
          (List.replicate a.extents.length 0).length ≤ size_pred (tau.getD j 0)) := by
      rcases hbad with h | ⟨i, hi, h⟩
      · have h1 : tau.length < a.extents.length := h
        exact ⟨tau.length, Nat.zero_le _, by omega, Or.inl (Nat.le_refl _)⟩
      · have hi1 : i < a.extents.length := hi
        refine ⟨i, Nat.zero_le _, by omega, Or.inr ?_⟩
        rw [List.length_replicate]
        rcases h with h | h
        · rw [h]
          simp only [size_pred, if_true]
          omega
        · have h1 : a.extents.length < tau.getD i 0 := h
          rw [size_pred_pos _ (by omega)]
          omega
    have h1 : trans_extents a.extents tau = Except.error Failure.out_of_range :=
      trans_nc_error a.extents tau a.extents.length 0 (List.replicate a.extents.length 0)
        (by omega) hb
    refine ⟨h1, ?_⟩
    intro F kernel
    simp only [trans, hne, Bool.false_eq_true, if_false, h1]

/-- Witness of C17 (amended): on a 2 x 3 x 4 tensor, `tau = {2, 2, 3}` with a repeated
entry passes, `tau = {0, 2, 3}` throws. -/
theorem trans_extents_checks_tau_witness :
    (∃ nc, trans_extents (Tensor.filled Layout.first_order [2, 3, 4] 1).extents [2, 2, 3]
        = Except.ok nc) ∧
      trans_extents (Tensor.filled Layout.first_order [2, 3, 4] 1).extents [0, 2, 3]
        = Except.error Failure.out_of_range :=
  ⟨(trans_extents_checks_tau (Tensor.filled Layout.first_order [2, 3, 4] 1) [2, 2, 3] rfl
      (by decide)).1 ⟨by decide, by decide⟩,
    ((trans_extents_checks_tau (Tensor.filled Layout.first_order [2, 3, 4] 1) [0, 2, 3] rfl
      (by decide)).2 (Or.inr ⟨0, by decide, Or.inl rfl⟩)).1⟩

/-- C17 fails for three of its four kinds of `tau`: on a non-empty 2 x 3 x 4 tensor, an
entry equal to 0, an entry greater than `p` and a `tau` with fewer than `p` entries each
make `trans` throw `std::out_of_range` while it computes the output extents. -/
theorem trans_signals_out_of_range :
    trans Layout.first_order (fun _ _ _ => Except.ok [])
        (Tensor.filled Layout.first_order [2, 3, 4] 1) [0, 2, 3]
        = Except.error Failure.out_of_range ∧
      trans Layout.first_order (fun _ _ _ => Except.ok [])
        (Tensor.filled Layout.first_order [2, 3, 4] 1) [4, 2, 3]
        = Except.error Failure.out_of_range ∧
      trans Layout.first_order (fun _ _ _ => Except.ok [])
        (Tensor.filled Layout.first_order [2, 3, 4] 1) [2, 3]
        = Except.error Failure.out_of_range :=
  ⟨rfl, rfl, rfl⟩

theorem foldl_range_succ_shift (g : Nat → Int → Int) (n : Nat) (v : Int) :
    (List.range (n + 1)).foldl (fun acc i => g i acc) v
      = (List.range n).foldl (fun acc i => g (i + 1) acc) (g 0 v) := by
  rw [List.range_succ_eq_map, List.foldl_cons, List.foldl_map]

theorem foldl_all_id (g : Nat → Int → Int) (l : List Nat)
    (h : ∀ i, i ∈ l → ∀ v, g i v = v) (v : Int) :
    l.foldl (fun acc i => g i acc) v = v := by
  induction l generalizing v with
  | nil => rfl
  | cons i l ih =>
    rw [List.foldl_cons, h i (List.mem_cons_self i l),
      ih (fun j hj => h j (List.mem_cons_of_mem i hj))]

/-- A loop of which only the iteration `j` changes the value does what that iteration
does. -/
theorem foldl_range_single (g : Nat → Int → Int) (n j : Nat) (hj : j < n)
    (hid : ∀ i, i < n → i ≠ j → ∀ v, g i v = v) (v : Int) :
    (List.range n).foldl (fun acc i => g i acc) v = g j v := by
  induction n with
  | zero => omega
  | succ n ih =>
    rw [List.range_succ, List.foldl_append, List.foldl_cons, List.foldl_nil]
    by_cases h : j = n
    · subst h
      rw [foldl_all_id g (List.range j)
        (fun i hi => hid i (by have := List.mem_range.mp hi; omega)
          (by have := List.mem_range.mp hi; omega))]
    · rw [ih (by omega) (fun i hi hne => hid i (by omega) hne),
        hid n (by omega) (fun e => h e.symm)]

theorem acts_congr {f : Mem → Option Mem} {G H : Nat → Int → Int} (h : Acts f G)
    (hGH : ∀ x v, G x v = H x v) : Acts f H := by
  intro C
  obtain ⟨C1, h1, h1x⟩ := h C
  exact ⟨C1, h1, fun x => by rw [h1x x, hGH x]⟩

theorem acts_fma (add mul : Int → Int → Int) (A B : Mem) (c a b : Nat) :
    Acts (fun C => some (generic.fma add mul A B c a b C))
      (fun x v => if x = c then add v (mul (A a) (B b)) else v) := by
  intro C
  refine ⟨_, rfl, fun x => ?_⟩
  by_cases h : x = c
  · simp [generic.fma, Mem.write, h]
  · simp [generic.fma, Mem.write, h]

/-- A loop acts on a cell as its iterations do, one after the other in ascending
order. -/
theorem acts_cforN (body : Nat → Nat → Mem → Option Mem) (s1 s2 : Nat) :
    ∀ (n p1 p2 : Nat) (G : Nat → Nat → Int → Int),
      (∀ i, i < n → Acts (body (p1 + s1 * i) (p2 + s2 * i)) (G i)) →
      Acts (cforN (some s1) (some s2) body n p1 p2)
        (fun x v => (List.range n).foldl (fun acc i => G i x acc) v) := by
  intro n
  induction n with
  | zero =>
    intro p1 p2 G _ C
    exact ⟨C, rfl, fun x => rfl⟩
  | succ n ih =>
    intro p1 p2 G h C
    obtain ⟨C1, h1, h1x⟩ := h 0 (Nat.succ_pos n) C
    have hstep : ∀ i, i < n →
        Acts (body (p1 + s1 + s1 * i) (p2 + s2 + s2 * i)) (fun x v => G (i + 1) x v) := by
      intro i hi
      have := h (i + 1) (Nat.succ_lt_succ hi)
      have e1 : p1 + s1 * (i + 1) = p1 + s1 + s1 * i := by ring
      have e2 : p2 + s2 * (i + 1) = p2 + s2 + s2 * i := by ring
      rw [e1, e2] at this
      exact this
    obtain ⟨C2, h2, h2x⟩ := ih (p1 + s1) (p2 + s2) (fun i => G (i + 1)) hstep C1
    refine ⟨C2, ?_, fun x => ?_⟩
    · simp only [Nat.mul_zero, Nat.add_zero] at h1
      simp [cforN, h1, h2]
    · rw [h2x x, h1x x]
      exact (foldl_range_succ_shift (fun i acc => G i x acc) n (C x)).symm

theorem acts_cfor (body : Nat → Nat → Mem → Option Mem) (n s1 s2 p1 p2 : Nat)
    (G : Nat → Nat → Int → Int)
    (h : ∀ i, i < n → Acts (body (p1 + s1 * i) (p2 + s2 * i)) (G i)) :
    Acts (cfor (some n) (some s1) (some s2) body p1 p2)
      (fun x v => (List.range n).foldl (fun acc i => G i x acc) v) := by
  intro C
  simpa [cfor] using acts_cforN body s1 s2 n p1 p2 G h C

/-- The innermost loop is the nest without levels: it folds the products into the cell
`c`, in ascending order. -/
theorem acts_leaf {n sc sa sb : Nat → Nat} (add mul : Int → Int → Int) (A B : Mem)
    (nm s t c a b : Nat) :
    Acts (cfor (some nm) (some s) (some t)
        (fun a1 b1 C => some (generic.fma add mul A B c a1 b1 C)) a b)
      (nestG n sc sa sb (fold_dot add mul A B nm s t) 0 c a b) := by
  refine acts_congr (acts_cfor _ nm s t a b
    (fun k x v => if x = c then add v (mul (A (a + s * k)) (B (b + t * k))) else v)
    (fun k _ => acts_fma add mul A B c _ _)) ?_
  intro x v
  by_cases h : x = c
  · simp only [h, if_true, nestG, fold_dot]
  · simp only [h, if_false, nestG]
    exact foldl_all_id (fun _ acc => acc) _ (fun _ _ _ => rfl) v

/-- One loop over the pointers `c` and `a` around a nest is a nest with one more level. -/
theorem acts_level {n sc sa sb : Nat → Nat} {leaf : Nat → Nat → Int → Int} (L c a b : Nat)
    (body : Nat → Nat → Mem → Option Mem) (nL sL tL : Nat)
    (hn : n L = nL) (hsc : sc L = sL) (hsa : sa L = tL) (hsb : sb L = 0)
    (h : ∀ c a, Acts (body c a) (nestG n sc sa sb leaf L c a b)) :
    Acts (cfor (some nL) (some sL) (some tL) body c a)
      (nestG n sc sa sb leaf (L + 1) c a b) := by
  subst hn hsc hsa
  refine acts_congr (acts_cfor body (n L) (sc L) (sa L) c a
    (fun i => nestG n sc sa sb leaf L (c + sc L * i) (a + sa L * i) b) (fun i _ => h _ _)) ?_
  intro x v
  simp [nestG, hsb]

/-- A loop nest leaves alone every cell that is not the offset of an index of its box. -/
theorem nestG_frame (n sc sa sb : Nat → Nat) (leaf : Nat → Nat → Int → Int) :
    ∀ (L c a b x : Nat),
      (∀ e : Nat → Nat, (∀ l, l < L → e l < n l) → x ≠ c + lsum sc e L) →
      ∀ v, nestG n sc sa sb leaf L c a b x v = v := by
  intro L
  induction L with
  | zero =>
    intro c a b x h v
    have hx : x ≠ c := by
      simpa [lsum] using h (fun _ => 0) (fun l hl => absurd hl (Nat.not_lt_zero l))
    simp [nestG, hx]
  | succ L ih =>
    intro c a b x h v
    simp only [nestG]
    refine foldl_all_id (fun i acc =>
      nestG n sc sa sb leaf L (c + sc L * i) (a + sa L * i) (b + sb L * i) x acc) _
      (fun i hi => ?_) v
    refine ih _ _ _ _ (fun e he => ?_)
    have hbox : ∀ l, l < L + 1 → Function.update e L i l < n l := by
      intro l hl
      by_cases hlL : l = L
      · subst hlL
        simpa using List.mem_range.mp hi
      · have : l < L := by omega
        simpa [Function.update, hlL] using he l this
    have := h (Function.update e L i) hbox
    rw [lsum_update] at this
    intro hx
    apply this
    rw [hx]
    ring

/-- With pairwise distinct offsets, a loop nest does to the cell of the index `e` exactly
what the innermost statement does at `e`. -/
theorem nestG_target (n sc sa sb : Nat → Nat) (leaf : Nat → Nat → Int → Int) :
    ∀ (L c a b : Nat) (e : Nat → Nat), LevelInj n sc L → (∀ l, l < L → e l < n l) →
      ∀ v, nestG n sc sa sb leaf L c a b (c + lsum sc e L) v
        = leaf (a + lsum sa e L) (b + lsum sb e L) v := by
  intro L
  induction L with
  | zero =>
    intro c a b e _ _ v
    simp [nestG, lsum]
  | succ L ih =>
    intro c a b e hinj he v
    simp only [nestG]
    have heL : e L < n L := he L (Nat.lt_succ_self L)
    rw [foldl_range_single (fun i acc =>
      nestG n sc sa sb leaf L (c + sc L * i) (a + sa L * i) (b + sb L * i)
        (c + lsum sc e (L + 1)) acc) (n L) (e L) heL]
    · have hx : c + lsum sc e (L + 1) = (c + sc L * e L) + lsum sc e L := by
        rw [lsum_succ]; ring
      rw [hx, ih _ _ _ e (hinj.pred (e L) heL) (fun l hl => he l (by omega))]
      rw [lsum_succ, lsum_succ]
      congr 1 <;> ring
    · intro i hi hne
      refine nestG_frame n sc sa sb leaf L _ _ _ _ (fun e2 he2 hx => ?_)
      have hb : ∀ l, l < L + 1 → Function.update e2 L i l < n l := by
        intro l hl
        by_cases hlL : l = L
        · subst hlL
          simpa using hi
        · have : l < L := by omega
          simpa [Function.update, hlL] using he2 l this
      have hs : lsum sc e (L + 1) = lsum sc (Function.update e2 L i) (L + 1) := by
        rw [lsum_update]
        omega
      have := hinj e (Function.update e2 L i) he hb hs L (Nat.lt_succ_self L)
      apply hne
      simpa using this.symm

theorem generic_ttv_zero_eq (add mul : Int → Int → Int) (m q c : Nat) (nc wc : List Nat)
    (a : Nat) (na wa : List Nat) (b : Nat) (A B : Mem) (hm : 0 ≠ m) :
    generic.detail.ttv add mul m 0 q c nc wc a na wa b A B =
      cfor na[0]? wc[0]? wa[0]? (fun c a C =>
        cfor na[m]? wa[m]? (some 1)
          (fun a1 b1 C => some (generic.fma add mul A B c a1 b1 C)) a b C) c a := by
  funext C
  rw [generic.detail.ttv]
  simp [hm]

theorem generic_ttv_succ_eq (add mul : Int → Int → Int) (m r q c : Nat) (nc wc : List Nat)
    (a : Nat) (na wa : List Nat) (b : Nat) (A B : Mem) :
    generic.detail.ttv add mul m (r + 1) q c nc wc a na wa b A B =
      if r + 1 = m then generic.detail.ttv add mul m r q c nc wc a na wa b A B
      else cfor na[r + 1]? wc[q]? wa[r + 1]? (fun c a C =>
        generic.detail.ttv add mul m r (size_pred q) c nc wc a na wa b A B C) c a := by
  funext C
  rw [generic.detail.ttv]
  split <;> rfl

theorem generic_ttv0_one_eq (add mul : Int → Int → Int) (c : Nat) (nc wc : List Nat)
    (a : Nat) (na wa : List Nat) (b : Nat) (A B : Mem) :
    generic.detail.ttv0 add mul 1 c nc wc a na wa b A B =
      cfor na[1]? wc[0]? wa[1]? (fun c a C =>
        cfor na[0]? wa[0]? (some 1)
          (fun a1 b1 C => some (generic.fma add mul A B c a1 b1 C)) a b C) c a := by
  funext C
  rw [generic.detail.ttv0]
  intro r hr
  omega

theorem generic_ttv0_succ_eq (add mul : Int → Int → Int) (r c : Nat) (nc wc : List Nat)
    (a : Nat) (na wa : List Nat) (b : Nat) (A B : Mem) :
    generic.detail.ttv0 add mul (r + 2) c nc wc a na wa b A B =
      cfor na[r + 2]? wc[r + 1]? wa[r + 2]? (fun c a C =>
        generic.detail.ttv0 add mul (r + 1) c nc wc a na wa b A B C) c a := by
  funext C
  rw [generic.detail.ttv0]

/-- The kernel `detail::ttv` over `add` and `mul`, entered at level `r` with the `q` that
goes with it, is the nest of `ttv_levels m r` loops over the axes of `A` other than `m`
around the fold along axis `m`. -/
theorem acts_ttv (add mul : Int → Int → Int) (m : Nat) (nc wc : List Nat) (na wa : List Nat)
    (b : Nat) (A B : Mem) (hm : 1 ≤ m) (hmna : m < na.length) (hmwa : m < wa.length) :
    ∀ r, r < na.length → r < wa.length → ttv_levels m r ≤ wc.length → ∀ c a,
      Acts (generic.detail.ttv add mul m r (ttv_q m r) c nc wc a na wa b A B)
        (nestG (fun l => na.getD (ttv_axis m l) 0) (fun l => wc.getD l 0)
          (fun l => wa.getD (ttv_axis m l) 0) (fun _ => 0)
          (fold_dot add mul A B (na.getD m 0) (wa.getD m 0) 1) (ttv_levels m r) c a b) := by
  intro r
  induction r with
  | zero =>
    intro hna hwa hwc c a
    have h0 : (0 : Nat) < m := hm
    have hl : ttv_levels m 0 = 1 := by simp [ttv_levels, h0]
    rw [hl] at hwc ⊢
    rw [generic_ttv_zero_eq _ _ _ _ _ _ _ _ _ _ _ _ _ (Nat.ne_of_lt h0)]
    rw [rd_some na 0 hna, rd_some wc 0 (by omega), rd_some wa 0 hwa, rd_some na m hmna,
      rd_some wa m hmwa]
    exact acts_level 0 c a b _ _ _ _ (by simp [ttv_axis, h0]) rfl (by simp [ttv_axis, h0]) rfl
      (fun c a => acts_leaf add mul A B _ _ _ c a b)
  | succ r ih =>
    intro hna hwa hwc c a
    rw [generic_ttv_succ_eq]
    by_cases h1 : r + 1 = m
    · have hr : r < m := by omega
      have hq : ttv_q m (r + 1) = ttv_q m r := by
        simp only [ttv_q, if_pos hr, if_neg (Nat.lt_irrefl m), h1]
        omega
      have hl : ttv_levels m (r + 1) = ttv_levels m r := by simp [ttv_levels, hr, h1]
      simp only [if_pos h1]
      rw [hq, hl]
      exact ih (by omega) (by omega) (by rw [← hl]; exact hwc) c a
    · simp only [if_neg h1]
      by_cases h2 : r + 1 < m
      · have hr : r < m := by omega
        have hq : ttv_q m (r + 1) = r + 1 := by simp [ttv_q, h2]
        have hl : ttv_levels m (r + 1) = ttv_levels m r + 1 := by simp [ttv_levels, hr, h2]
        have hl0 : ttv_levels m r = r + 1 := by simp [ttv_levels, hr]
        have hq0 : size_pred (r + 1) = ttv_q m r := by simp [size_pred, ttv_q, hr]
        rw [hq, hl, hq0]
        rw [hl, hl0] at hwc
        rw [rd_some na _ hna, rd_some wc _ (by omega), rd_some wa _ hwa]
        refine acts_level (ttv_levels m r) c a b _ _ _ _ ?_ ?_ ?_ rfl
          (fun c a => ih (by omega) (by omega) (by omega) c a)
        · simp [hl0, ttv_axis, h2]
        · simp [hl0]
        · simp [hl0, ttv_axis, h2]
      · have hr : m ≤ r := by omega
        have hr1 : ¬ r < m := by omega
        have hq : ttv_q m (r + 1) = r := by simp [ttv_q, h2]
        have hl : ttv_levels m (r + 1) = ttv_levels m r + 1 := by simp [ttv_levels, hr1, h2]
        have hl0 : ttv_levels m r = r := by simp [ttv_levels, hr1]
        have hq0 : size_pred r = ttv_q m r := by
          have : r ≠ 0 := by omega
          simp [size_pred, ttv_q, hr1, this]
        rw [hq, hl, hq0]
        rw [hl, hl0] at hwc
        rw [rd_some na _ hna, rd_some wc _ (by omega), rd_some wa _ hwa]
        refine acts_level (ttv_levels m r) c a b _ _ _ _ ?_ ?_ ?_ rfl
          (fun c a => ih (by omega) (by omega) (by omega) c a)
        · simp [hl0, ttv_axis, hr1]
        · simp [hl0]
        · simp [hl0, ttv_axis, hr1]

/-- The kernel `detail::ttv0` over `add` and `mul`, entered at level `r + 1`, is the nest
of `r + 1` loops over the axes `1, ..., r + 1` of `A` around the fold along axis 0. -/
theorem acts_ttv0 (add mul : Int → Int → Int) (nc wc : List Nat) (na wa : List Nat) (b : Nat)
    (A B : Mem) :
    ∀ r, r + 1 < na.length → r + 1 < wa.length → r + 1 ≤ wc.length → ∀ c a,
      Acts (generic.detail.ttv0 add mul (r + 1) c nc wc a na wa b A B)
        (nestG (fun l => na.getD (ttv_axis 0 l) 0) (fun l => wc.getD l 0)
          (fun l => wa.getD (ttv_axis 0 l) 0) (fun _ => 0)
          (fold_dot add mul A B (na.getD 0 0) (wa.getD 0 0) 1) (r + 1) c a b) := by
  intro r
  induction r with
  | zero =>
    intro hna hwa hwc c a
    rw [generic_ttv0_one_eq]
    rw [rd_some na 1 hna, rd_some wc 0 (by omega), rd_some wa 1 hwa, rd_some na 0 (by omega),
      rd_some wa 0 (by omega)]
    exact acts_level 0 c a b _ _ _ _ (by simp [ttv_axis]) rfl (by simp [ttv_axis]) rfl
      (fun c a => acts_leaf add mul A B _ _ _ c a b)
  | succ r ih =>
    intro hna hwa hwc c a
    rw [generic_ttv0_succ_eq]
    rw [rd_some na _ hna, rd_some wc _ (by omega), rd_some wa _ hwa]
    exact acts_level (r + 1) c a b _ _ _ _ (by simp [ttv_axis]) rfl (by simp [ttv_axis]) rfl
      (fun c a => ih (by omega) (by omega) (by omega) c a)

/-- Public `ttv` over `add` and `mul` on an input of rank at least 3 that passes its
checks: it returns, and what it has done to each cell of the output is the nest of `p - 1`
loops of its kernel around the fold along the contracted axis. -/
theorem generic_ttv_returns (add mul : Int → Int → Int) (m p c a b : Nat)
    (nc wc na wa nb wb : List Nat) (A B C : Mem)
    (hp : 3 ≤ p) (hm : 1 ≤ m) (hmp : m ≤ p)
    (hna : na.length = p) (hwa : wa.length = p) (hnc : nc.length = p - 1)
    (hwc : wc.length = p - 1) (hnb : nb.length = 2)
    (heq : ∀ l, l < p - 1 → nc.getD l 0 = na.getD (ttv_axis (m - 1) l) 0)
    (hmax : na.getD (m - 1) 0 = max (nb.getD 0 0) (nb.getD 1 0)) :
    ∃ C1, generic.ttv add mul m p (some c) nc wc (some a) na wa (some b) nb wb A B C
        = Outcome.returned C1 ∧
      ∀ x, C1 x = nestG (fun l => na.getD (ttv_axis (m - 1) l) 0) (fun l => wc.getD l 0)
        (fun l => wa.getD (ttv_axis (m - 1) l) 0) (fun _ => 0)
        (fold_dot add mul A B (na.getD (m - 1) 0) (wa.getD (m - 1) 0) 1) (p - 1) c a b x
        (C x) := by
  have hm0 : m ≠ 0 := by omega
  have hpm : ¬ p < m := by omega
  have hp0 : p ≠ 0 := by omega
  have hd1 : extents_differ na nc 0 (m - 1) 0 = some false := by
    refine extents_differ_false na nc 0 (m - 1) 0 (fun k hk => ⟨by omega, by omega⟩) ?_
    intro k hk
    simp only [Nat.zero_add, Nat.sub_zero]
    rw [heq k (by omega)]
    simp [ttv_axis, hk]
  have hd2 : extents_differ na nc 1 (p - m) m = some false := by
    refine extents_differ_false na nc 1 (p - m) m (fun k hk => ⟨by omega, by omega⟩) ?_
    intro k hk
    have hlt : ¬ m + k - 1 < m - 1 := by omega
    rw [heq (m + k - 1) (by omega)]
    simp only [ttv_axis, if_neg hlt]
    congr 1
    omega
  have hkernel : Acts (if m ≠ 1 ∧ p > 2 then
        generic.detail.ttv add mul (m - 1) (p - 1) (p - 2) c nc wc a na wa b A B
      else if m = 1 ∧ p > 2 then generic.detail.ttv0 add mul (p - 1) c nc wc a na wa b A B
      else generic.detail.mtv add mul (m - 1) c nc wc a na wa b A B)
      (nestG (fun l => na.getD (ttv_axis (m - 1) l) 0) (fun l => wc.getD l 0)
        (fun l => wa.getD (ttv_axis (m - 1) l) 0) (fun _ => 0)
        (fold_dot add mul A B (na.getD (m - 1) 0) (wa.getD (m - 1) 0) 1) (p - 1) c a b) := by
    by_cases hm1 : m = 1
    · subst hm1
      have hp2 : p > 2 := by omega
      have e1 : p - 1 = (p - 2) + 1 := by omega
      simp only [ne_eq, not_true_eq_false, false_and, if_false, hp2, and_self, if_true,
        Nat.sub_self]
      have := acts_ttv0 add mul nc wc na wa b A B (p - 2) (by omega) (by omega) (by omega) c a
      rw [← e1] at this
      exact this
    · have hq : ttv_q (m - 1) (p - 1) = p - 2 := by
        have : ¬ p - 1 < m - 1 := by omega
        simp only [ttv_q, if_neg this]
        omega
      have hl : ttv_levels (m - 1) (p - 1) = p - 1 := by
        have : ¬ p - 1 < m - 1 := by omega
        simp only [ttv_levels, if_neg this]
      have hdisp : m ≠ 1 ∧ p > 2 := ⟨hm1, by omega⟩
      rw [if_pos hdisp]
      have := acts_ttv add mul (m - 1) nc wc na wa b A B (by omega) (by omega) (by omega)
        (p - 1) (by omega) (by omega) (by rw [hl]; omega) c a
      rw [hq, hl] at this
      exact this
  obtain ⟨C1, hC1, hC1x⟩ := hkernel C
  refine ⟨C1, ?_, hC1x⟩
  have hne : ¬ na.getD (m - 1) 0 ≠ max (nb.getD 0 0) (nb.getD 1 0) := by simpa using hmax
  simp only [generic.ttv, if_neg hm0, if_neg hpm, if_neg hp0, hd1, hd2,
    rd_some nb 0 (by omega), rd_some nb 1 (by omega), rd_some na (m - 1) (by omega),
    if_neg hne]
  by_cases hm1 : m = 1
  · have hp2 : p > 2 := by omega
    simp only [hm1, ne_eq, not_true_eq_false, false_and, if_false, hp2, and_self,
      if_true] at hC1 ⊢
    rw [hC1]
    rfl
  · have hdisp : m ≠ 1 ∧ p > 2 := ⟨hm1, by omega⟩
    rw [if_pos hdisp] at hC1 ⊢
    rw [hC1]
    rfl

/-- What the nest of `detail::ttv` or `detail::ttv0` over `add` and `mul` does to the
output cell of a multi-index (zero-based mode `m`, rank `L + 1` of `A`): the left fold of
the products along axis `m` onto the content of the cell. -/
theorem ttv_nest_fold (add mul : Int → Int → Int) (m L c a b : Nat) (nc wc na wa : List Nat)
    (A B : Mem) (hm : m ≤ L)
    (heq : ∀ l, l < L → nc.getD l 0 = na.getD (ttv_axis m l) 0)
    (hinj : DistinctOffsets wc nc L) (i : Nat → Nat) (hi : InBox nc L i) (v : Int) :
    nestG (fun l => na.getD (ttv_axis m l) 0) (fun l => wc.getD l 0)
        (fun l => wa.getD (ttv_axis m l) 0) (fun _ => 0)
        (fold_dot add mul A B (na.getD m 0) (wa.getD m 0) 1) L c a b (c + offset wc L i) v =
      (List.range (na.getD m 0)).foldl (fun acc k => add acc (mul
        (A (a + (∑ j in range m, wa.getD j 0 * i j + wa.getD m 0 * k
            + ∑ j in Ico (m + 1) (L + 1), wa.getD j 0 * i (j - 1)))) (B (b + k)))) v := by
  have hLI : LevelInj (fun l => na.getD (ttv_axis m l) 0) (fun l => wc.getD l 0) L :=
    levelInj_of_distinct wc nc L _ (fun l hl => (heq l hl).symm) hinj
  have hbox : ∀ l, l < L → i l < (fun l => na.getD (ttv_axis m l) 0) l := by
    intro l hl
    have := hi l hl
    rw [heq l hl] at this
    exact this
  rw [offset_eq_lsum, nestG_target _ _ _ _ _ L c a b i hLI hbox, lsum_zero_stride,
    lsum_ttv_axis wa m L i hm]
  simp only [fold_dot]
  congr 1
  funext acc k
  congr 3
  · ring
  · ring

theorem generic_detail_ttv_int (m : Nat) (nc wc na wa : List Nat) (b : Nat) (A B : Mem) :
    ∀ r q c a C, generic.detail.ttv (fun x y => x + y) (fun x y => x * y) m r q c nc wc a na
        wa b A B C = detail.ttv m r q c nc wc a na wa b A B C := by
  intro r
  induction r with
  | zero =>
    intro q c a C
    rw [generic.detail.ttv, detail.ttv]
    rfl
  | succ r ih =>
    intro q c a C
    rw [generic.detail.ttv, detail.ttv]
    by_cases h : r + 1 = m
    · simp only [if_pos h]
      exact ih q c a C
    · simp only [if_neg h]
      congr 1
      funext c1 a1 C1
      exact ih _ c1 a1 C1

theorem generic_detail_ttv0_int (nc wc na wa : List Nat) (b : Nat) (A B : Mem) :
    ∀ r c a C, generic.detail.ttv0 (fun x y => x + y) (fun x y => x * y) r c nc wc a na
        wa b A B C = detail.ttv0 r c nc wc a na wa b A B C := by
  intro r
  induction r using Nat.strong_induction_on with
  | _ r ih =>
    intro c a C
    match r with
    | 0 =>
      rw [generic.detail.ttv0, detail.ttv0]
      · rfl
      · intro r hr; omega
      · intro r hr; omega
    | 1 =>
      rw [generic.detail.ttv0, detail.ttv0]
      · rfl
      · intro r hr; omega
      · intro r hr; omega
    | r + 2 =>
      rw [generic.detail.ttv0, detail.ttv0]
      congr 1
      funext c1 a1 C1
      exact ih (r + 1) (by omega) c1 a1 C1

/-- With the addition and the multiplication of the integers for `add` and `mul`, public
`ttv` over the operators is public `ttv`. -/
theorem generic_ttv_int (m p : Nat) (c : Option Nat) (nc wc : List Nat) (a : Option Nat)
    (na wa : List Nat) (b : Option Nat) (nb wb : List Nat) (A B C : Mem) :
    generic.ttv (fun x y => x + y) (fun x y => x * y) m p c nc wc a na wa b nb wb A B C
      = ttv m p c nc wc a na wa b nb wb A B C := by
  unfold generic.ttv ttv
  have hf : ∀ (c a : Nat), generic.detail.mtv (fun x y => x + y) (fun x y => x * y) (m - 1) c
      nc wc a na wa = detail.mtv (m - 1) c nc wc a na wa := fun _ _ => rfl
  cases c with
  | none => rfl
  | some c =>
    cases a with
    | none => rfl
    | some a =>
      cases b with
      | none => rfl
      | some b =>
        simp only [generic_detail_ttv_int, generic_detail_ttv0_int, hf]

/-- C18: a valid public `ttv` call with `p ≥ 3` (mode 1 through `detail::ttv0`, modes
`2 ≤ m ≤ p` through `detail::ttv`), any initial output buffer `C0` and pairwise distinct
output offsets.  Over any operators `add` and `mul` of the value type, each addressed
output cell ends as the left fold
`(...((C0[o] + A_0 * b[0]) + A_1 * b[1]) + ... + A_{n-1} * b[n-1])` over
`k = 0, 1, ..., n - 1` in this order, where `A_k` is the element of `A` at the multi-index
of the cell with `k` on axis `m-1` and `n = na[m-1]`.  Over the integers the cell ends as
`C0[o]` plus the contraction, which is the plain contraction exactly when `C0[o]` is
zero. -/
theorem ttv_accumulates_in_order (add mul : Int → Int → Int) (m p c a b : Nat)
    (nc wc na wa nb wb : List Nat) (A B C : Mem)
    (hp : 3 ≤ p) (hm : 1 ≤ m) (hmp : m ≤ p)
    (hna : na.length = p) (hwa : wa.length = p) (hwc : wc.length = p - 1)
    (hpos : ∀ j, j < p → 1 ≤ na.getD j 0)
    (hnc : nc = na.eraseIdx (m - 1)) (hnb : nb = [na.getD (m - 1) 0, 1])
    (hinj : DistinctOffsets wc nc (p - 1)) :
    (∃ C1, generic.ttv add mul m p (some c) nc wc (some a) na wa (some b) nb wb A B C
        = Outcome.returned C1 ∧
      ∀ i, InBox nc (p - 1) i →
        C1 (c + offset wc (p - 1) i) =
          (List.range (na.getD (m - 1) 0)).foldl (fun acc k => add acc (mul
            (A (a + (∑ j in range (m - 1), wa.getD j 0 * i j + wa.getD (m - 1) 0 * k
              + ∑ j in Ico m p, wa.getD j 0 * i (j - 1)))) (B (b + k))))
            (C (c + offset wc (p - 1) i))) ∧
    (∃ C1, ttv m p (some c) nc wc (some a) na wa (some b) nb wb A B C = Outcome.returned C1 ∧
      ∀ i, InBox nc (p - 1) i →
        C1 (c + offset wc (p - 1) i) =
          C (c + offset wc (p - 1) i) + ∑ k in range (na.getD (m - 1) 0),
            A (a + (∑ j in range (m - 1), wa.getD j 0 * i j + wa.getD (m - 1) 0 * k
              + ∑ j in Ico m p, wa.getD j 0 * i (j - 1))) * B (b + k) ∧
        (C1 (c + offset wc (p - 1) i) =
          ∑ k in range (na.getD (m - 1) 0),
            A (a + (∑ j in range (m - 1), wa.getD j 0 * i j + wa.getD (m - 1) 0 * k
              + ∑ j in Ico m p, wa.getD j 0 * i (j - 1))) * B (b + k)
          ↔ C (c + offset wc (p - 1) i) = 0)) := by
  have heq : ∀ l, l < p - 1 → nc.getD l 0 = na.getD (ttv_axis (m - 1) l) 0 := by
    intro l _
    rw [hnc, getD_eraseIdx]
  have hmax : na.getD (m - 1) 0 = max (nb.getD 0 0) (nb.getD 1 0) := by
    have := hpos (m - 1) (by omega)
    rw [hnb]
    simp only [List.getD_cons_zero, List.getD_cons_succ]
    omega
  have hlnc : nc.length = p - 1 := by rw [hnc, List.length_eraseIdx_of_lt (by omega), hna]
  have hlnb : nb.length = 2 := by rw [hnb]; rfl
  have e1 : m - 1 + 1 = m := by omega
  have e2 : p - 1 + 1 = p := by omega
  constructor
  · obtain ⟨C1, hC1, hC1x⟩ := generic_ttv_returns add mul m p c a b nc wc na wa nb wb A B C
      hp hm hmp hna hwa hlnc hwc hlnb heq hmax
    refine ⟨C1, hC1, fun i hi => ?_⟩
    rw [hC1x, ttv_nest_fold add mul (m - 1) (p - 1) c a b nc wc na wa A B (by omega) heq
      hinj i hi, e1, e2]
  · obtain ⟨C1, hC1, hC1x⟩ := ttv_returns m p c a b nc wc na wa nb wb A B C hp hm hmp hna
      hwa hlnc hwc hlnb heq hmax
    refine ⟨C1, hC1, fun i hi => ?_⟩
    have hv : C1 (c + offset wc (p - 1) i) =
        C (c + offset wc (p - 1) i) + ∑ k in range (na.getD (m - 1) 0),
          A (a + (∑ j in range (m - 1), wa.getD j 0 * i j + wa.getD (m - 1) 0 * k
            + ∑ j in Ico m p, wa.getD j 0 * i (j - 1))) * B (b + k) := by
      rw [hC1x, ttv_nest_value (m - 1) (p - 1) c a b nc wc na wa A B (by omega) heq
        hinj i hi, e1, e2]
    refine ⟨hv, ?_⟩
    rw [hv]
    constructor
    · intro h
      linarith
    · intro h
      rw [h, zero_add]

/-- Witness of C18: a 2 x 2 x 2 tensor (first-order strides) contracted at mode 2, on an
output buffer filled with 7, with the order-revealing operator `add acc x = 10 * acc + x`. -/
theorem ttv_accumulates_in_order_witness :
    (∃ C1, generic.ttv (fun acc x => 10 * acc + x) (fun x y => x * y) 2 3 (some 0) [2, 2]
        [1, 2] (some 0) [2, 2, 2] [1, 2, 4] (some 0) [2, 1] [1, 1]
        (fun x => (x : Int) + 1) (fun x => (x : Int) + 1) (fun _ => 7) = Outcome.returned C1 ∧
      ∀ i, InBox [2, 2] (3 - 1) i →
        C1 (0 + offset [1, 2] (3 - 1) i) =
          (List.range (([2, 2, 2] : List Nat).getD (2 - 1) 0)).foldl
            (fun acc k => (fun acc x => 10 * acc + x) acc ((fun x y => x * y)
              ((fun x : Nat => (x : Int) + 1)
                (0 + (∑ j in range (2 - 1), ([1, 2, 4] : List Nat).getD j 0 * i j
                  + ([1, 2, 4] : List Nat).getD (2 - 1) 0 * k
                  + ∑ j in Ico 2 3, ([1, 2, 4] : List Nat).getD j 0 * i (j - 1))))
              ((fun x : Nat => (x : Int) + 1) (0 + k))))
            ((fun _ => 7) (0 + offset [1, 2] (3 - 1) i))) ∧
    (∃ C1, ttv 2 3 (some 0) [2, 2] [1, 2] (some 0) [2, 2, 2] [1, 2, 4] (some 0) [2, 1] [1, 1]
        (fun x => (x : Int) + 1) (fun x => (x : Int) + 1) (fun _ => 7) = Outcome.returned C1 ∧
      ∀ i, InBox [2, 2] (3 - 1) i →
        C1 (0 + offset [1, 2] (3 - 1) i) =
          (fun _ => 7) (0 + offset [1, 2] (3 - 1) i)
            + ∑ k in range (([2, 2, 2] : List Nat).getD (2 - 1) 0),
            (fun x : Nat => (x : Int) + 1)
              (0 + (∑ j in range (2 - 1), ([1, 2, 4] : List Nat).getD j 0 * i j
                + ([1, 2, 4] : List Nat).getD (2 - 1) 0 * k
                + ∑ j in Ico 2 3, ([1, 2, 4] : List Nat).getD j 0 * i (j - 1))) *
              (fun x : Nat => (x : Int) + 1) (0 + k) ∧
        (C1 (0 + offset [1, 2] (3 - 1) i) =
          ∑ k in range (([2, 2, 2] : List Nat).getD (2 - 1) 0),
            (fun x : Nat => (x : Int) + 1)
              (0 + (∑ j in range (2 - 1), ([1, 2, 4] : List Nat).getD j 0 * i j
                + ([1, 2, 4] : List Nat).getD (2 - 1) 0 * k
                + ∑ j in Ico 2 3, ([1, 2, 4] : List Nat).getD j 0 * i (j - 1))) *
              (fun x : Nat => (x : Int) + 1) (0 + k)
          ↔ (fun _ => 7) (0 + offset [1, 2] (3 - 1) i) = (0 : Int))) :=
  ttv_accumulates_in_order (fun acc x => 10 * acc + x) (fun x y => x * y) 2 3 0 0 0 [2, 2]
    [1, 2] [2, 2, 2] [1, 2, 4] [2, 1] [1, 1]
    (fun x => (x : Int) + 1) (fun x => (x : Int) + 1) (fun _ => 7)
    (by decide) (by decide) (by decide) rfl rfl rfl
    (by intro j hj; have : j = 0 ∨ j = 1 ∨ j = 2 := by omega
        rcases this with rfl | rfl | rfl <;> simp)
    rfl rfl distinct_offsets_2x2

theorem size_pred_succ (r : Nat) : size_pred (r + 1) = r := by
  simp [size_pred]

/-- The activations of `detail::ttv` from level `r` with the `q` that goes with it, for a
zero-based mode `m ≥ 1`: the levels `r, r - 1, ..., 0`. -/
theorem chain_ttv (m : Nat) (hm : 1 ≤ m) :
    ∀ r fuel, r + 1 ≤ fuel →
      chain (ttv_callee m) fuel (r, ttv_q m r)
        = (List.range (r + 1)).reverse.map (fun r => (r, ttv_q m r)) := by
  intro r
  induction r with
  | zero =>
    intro fuel hf
    obtain ⟨f, rfl⟩ : ∃ f, fuel = f + 1 := ⟨fuel - 1, by omega⟩
    have h0 : ¬ (0 = m) := by omega
    simp only [chain, ttv_callee, if_neg h0, if_true]
    rfl
  | succ r ih =>
    intro fuel hf
    obtain ⟨f, rfl⟩ : ∃ f, fuel = f + 1 := ⟨fuel - 1, by omega⟩
    have hcal : ttv_callee m (r + 1, ttv_q m (r + 1)) = some (r, ttv_q m r) := by
      by_cases h1 : r + 1 = m
      · have hr : r < m := by omega
        have hq : ttv_q m (r + 1) = ttv_q m r := by
          simp only [ttv_q, if_pos hr, if_neg (Nat.lt_irrefl m), h1]
          omega
        simp only [ttv_callee, if_pos h1, size_pred_succ, hq]
      · by_cases h2 : r + 1 < m
        · have hr : r < m := by omega
          simp only [ttv_callee, if_neg h1, Nat.succ_ne_zero, if_false, size_pred_succ, ttv_q,
            if_pos h2, if_pos hr]
        · have hr1 : ¬ r < m := by omega
          have hr0 : r ≠ 0 := by omega
          simp only [ttv_callee, if_neg h1, Nat.succ_ne_zero, if_false, size_pred_succ, ttv_q,
            if_neg h2, if_neg hr1, Nat.add_sub_cancel, size_pred, if_neg hr0]
    rw [chain, hcal]
    simp only []
    rw [ih f (by omega), List.range_succ (r + 1), List.reverse_append, List.reverse_singleton,
      List.singleton_append, List.map_cons]

/-- The activations of `detail::ttm` from level `r`, for a zero-based mode `m ≥ 1`: the
levels `r, r - 1, ..., 0`. -/
theorem chain_ttm (m : Nat) (hm : 1 ≤ m) :
    ∀ r fuel, r + 1 ≤ fuel → chain (ttm_callee m) fuel r = (List.range (r + 1)).reverse := by
  intro r
  induction r with
  | zero =>
    intro fuel hf
    obtain ⟨f, rfl⟩ : ∃ f, fuel = f + 1 := ⟨fuel - 1, by omega⟩
    have h0 : ¬ (0 = m) := by omega
    simp only [chain, ttm_callee, if_neg h0, if_true]
    rfl
  | succ r ih =>
    intro fuel hf
    obtain ⟨f, rfl⟩ : ∃ f, fuel = f + 1 := ⟨fuel - 1, by omega⟩
    have hcal : ttm_callee m (r + 1) = some r := by
      by_cases h1 : r + 1 = m
      · simp only [ttm_callee, if_pos h1, size_pred_succ]
      · simp only [ttm_callee, if_neg h1, Nat.succ_ne_zero, if_false, size_pred_succ]
    rw [chain, hcal]
    simp only []
    rw [ih f (by omega), List.range_succ (r + 1), List.reverse_append, List.reverse_singleton,
      List.singleton_append]

/-- The activations of `detail::ttv0` from level `r + 1`: the levels `r + 1, r, ..., 1`. -/
theorem chain_ttv0 :
    ∀ r fuel, r + 1 ≤ fuel →
      chain ttv0_callee fuel (r + 1) = (List.range' 1 (r + 1)).reverse := by
  intro r
  induction r with
  | zero =>
    intro fuel hf
    obtain ⟨f, rfl⟩ : ∃ f, fuel = f + 1 := ⟨fuel - 1, by omega⟩
    simp [chain, ttv0_callee]
  | succ r ih =>
    intro fuel hf
    obtain ⟨f, rfl⟩ : ∃ f, fuel = f + 1 := ⟨fuel - 1, by omega⟩
    have hcal : ttv0_callee (r + 1 + 1) = some (r + 1) := by
      have h : r + 1 + 1 > 1 := by omega
      simp only [ttv0_callee, if_pos h, size_pred_succ]
    rw [chain, hcal]
    simp only []
    rw [ih f (by omega), List.range'_1_concat 1 (r + 1), List.reverse_append,
      List.reverse_singleton, List.singleton_append, Nat.add_comm 1 (r + 1)]

theorem ttm0_callee_eq : ttm0_callee = ttv0_callee := rfl

/-- The recursion that public `ttv` and public `ttm` start, for `p ≥ 1`, a mode
`1 ≤ m ≤ p` and any fuel of at least `p`, as the list of the activations that nest.
`detail::ttv` from `(m-1, p-1, p-2)`: the levels `p-1, p-2, ..., 0`, each one less than the
one before, with `q = r - 1` while `r ≥ m-1` and `q = r` once `r < m-1`; `detail::ttv0` from
`p-1`: the levels `p-1, ..., 1`; `detail::ttm` from `(m-1, p-1)`: the levels `p-1, ..., 0`;
`detail::ttm0` from `p-1`: the levels `p-1, ..., 1`, or the level 0 alone when `p = 1`.  No
decrement wraps, at most `p` activations nest and the last one makes no further call.
That the bodies of the kernels make these calls is `detail_ttv_calls_callee`,
`detail_ttv0_calls_callee`, `detail_ttm_calls_callee` and `detail_ttm0_calls_callee`. -/
theorem kernel_recursion_depth (m p fuel : Nat) (hm : 1 ≤ m) (hmp : m ≤ p) (hf : p ≤ fuel) :
    ((m ≠ 1 ∧ p > 2) → chain (ttv_callee (m - 1)) fuel (p - 1, p - 2)
        = (List.range p).reverse.map (fun r => (r, ttv_q (m - 1) r))) ∧
    ((m = 1 ∧ p > 2) → chain ttv0_callee fuel (p - 1) = (List.range' 1 (p - 1)).reverse) ∧
    (m ≠ 1 → chain (ttm_callee (m - 1)) fuel (p - 1) = (List.range p).reverse) ∧
    (m = 1 → chain ttm0_callee fuel (p - 1)
        = if p = 1 then [0] else (List.range' 1 (p - 1)).reverse) := by
  have e1 : p - 1 + 1 = p := by omega
  refine ⟨?_, ?_, ?_, ?_⟩
  · rintro ⟨h1, h2⟩
    have hq : ttv_q (m - 1) (p - 1) = p - 2 := by
      have : ¬ p - 1 < m - 1 := by omega
      simp only [ttv_q, if_neg this]
      omega
    have := chain_ttv (m - 1) (by omega) (p - 1) fuel (by omega)
    rw [hq, e1] at this
    exact this
  · rintro ⟨-, h2⟩
    have e2 : p - 1 = (p - 2) + 1 := by omega
    have := chain_ttv0 (p - 2) fuel (by omega)
    rw [← e2] at this
    exact this
  · intro h1
    have := chain_ttm (m - 1) (by omega) (p - 1) fuel (by omega)
    rw [e1] at this
    exact this
  · intro _
    rw [ttm0_callee_eq]
    by_cases hp1 : p = 1
    · subst hp1
      obtain ⟨f, rfl⟩ : ∃ f, fuel = f + 1 := ⟨fuel - 1, by omega⟩
      simp [chain, ttv0_callee]
    · have e2 : p - 1 = (p - 2) + 1 := by omega
      have := chain_ttv0 (p - 2) fuel (by omega)
      rw [← e2] at this
      rw [if_neg hp1]
      exact this

/-- The activations for rank 4, with mode 2 and with mode 1, fuel 10. -/
theorem kernel_recursion_depth_witness :
    chain (ttv_callee (2 - 1)) 10 (4 - 1, 4 - 2) = [(3, 2), (2, 1), (1, 0), (0, 0)] ∧
      chain (ttm_callee (2 - 1)) 10 (4 - 1) = [3, 2, 1, 0] ∧
      chain ttv0_callee 10 (4 - 1) = [3, 2, 1] ∧
      chain ttm0_callee 10 (4 - 1) = [3, 2, 1] :=
  ⟨(kernel_recursion_depth 2 4 10 (by decide) (by decide) (by decide)).1
      ⟨by decide, by decide⟩,
    (kernel_recursion_depth 2 4 10 (by decide) (by decide) (by decide)).2.2.1 (by decide),
    (kernel_recursion_depth 1 4 10 (by decide) (by decide) (by decide)).2.1
      ⟨rfl, by decide⟩,
    (kernel_recursion_depth 1 4 10 (by decide) (by decide) (by decide)).2.2.2 rfl⟩

/-- C21: in public `ttv` and in public `ttm` the check `p == 0` never fires: no input
makes either function raise its message `Rank must be greater than zero`.  An input with
`p = 0` raises the contraction-mode message when `m = 0` and the message of the check
`p < m` otherwise, and an input with `m = 0` raises the contraction-mode message whatever
`p` is. -/
theorem rank_zero_check_unreachable (m p : Nat) (c a b : Option Nat)
    (nc wc na wa nb wb : List Nat) (A B C : Mem) :
    (∀ C1, ttv m p c nc wc a na wa b nb wb A B C ≠ Outcome.raised
      "Error in boost::numeric::ublas::tensor_times_vector: Rank must be greater than zero."
      C1) ∧
    (∀ C1, ttm m p c nc wc a na wa b nb wb A B C ≠ Outcome.raised
      "Error in boost::numeric::ublas::tensor_times_matrix:Rank must be greater than zero."
      C1) ∧
    (m = 0 →
      ttv m p c nc wc a na wa b nb wb A B C = Outcome.raised
        "Error in boost::numeric::ublas::tensor_times_vector: Contraction mode must be greater than zero." C ∧
      ttm m p c nc wc a na wa b nb wb A B C = Outcome.raised
        "Error in boost::numeric::ublas::tensor_times_matrix: Contraction mode must be greater than zero." C) ∧
    ((p = 0 ∧ m ≠ 0) →
      ttv m p c nc wc a na wa b nb wb A B C = Outcome.raised
        "Error in boost::numeric::ublas::tensor_times_vector: Rank must be greater equal the modus." C ∧
      ttm m p c nc wc a na wa b nb wb A B C = Outcome.raised
        "Error in boost::numeric::ublas::tensor_times_matrix: Rank must be greater equal than the specified mode." C) := by
  refine ⟨?_, ?_, ?_, ?_⟩
  · intro C1 h
    unfold ttv at h
    split at h
    · simp at h
    · split at h
      · simp at h
      · split at h
        · omega
        · split at h
          · split at h
            · cases h
            · simp at h
            · split at h
              · cases h
              · simp at h
              · split at h
                · split at h
                  · simp at h
                  · split at h
                    · exact ofKernel_not_raised _ _ _ h
                    · split at h
                      · exact ofKernel_not_raised _ _ _ h
                      · exact ofKernel_not_raised _ _ _ h
                · cases h
          · simp at h
  · intro C1 h
    unfold ttm at h
    split at h
    · simp at h
    · split at h
      · simp at h
      · split at h
        · omega
        · split at h
          · split at h
            · cases h
            · simp at h
            · split at h
              · cases h
              · simp at h
              · split at h
                · split at h
                  · simp at h
                  · split at h
                    · split at h
                      · simp at h
                      · split at h
                        · exact ofKernel_not_raised _ _ _ h
                        · exact ofKernel_not_raised _ _ _ h
                    · cases h
                · cases h
          · simp at h
  · intro hm
    constructor
    · simp only [ttv, if_pos hm]
    · simp only [ttm, if_pos hm]
  · rintro ⟨hp, hm⟩
    have hpm : p < m := by omega
    constructor
    · simp only [ttv, if_neg hm, if_pos hpm]
    · simp only [ttm, if_neg hm, if_pos hpm]

/-- Witness of C21: `p = 0` with `m = 1` and with `m = 0`. -/
theorem rank_zero_check_unreachable_witness :
    (ttv 1 0 (some 0) [] [] (some 0) [] [] (some 0) [1, 1] [1, 1] (fun _ => 1) (fun _ => 1)
        (fun _ => 0) = Outcome.raised
        "Error in boost::numeric::ublas::tensor_times_vector: Rank must be greater equal the modus." (fun _ => 0) ∧
      ttm 1 0 (some 0) [] [] (some 0) [] [] (some 0) [1, 1] [1, 1] (fun _ => 1) (fun _ => 1)
        (fun _ => 0) = Outcome.raised
        "Error in boost::numeric::ublas::tensor_times_matrix: Rank must be greater equal than the specified mode." (fun _ => 0)) ∧
    (ttv 0 0 (some 0) [] [] (some 0) [] [] (some 0) [1, 1] [1, 1] (fun _ => 1) (fun _ => 1)
        (fun _ => 0) = Outcome.raised
        "Error in boost::numeric::ublas::tensor_times_vector: Contraction mode must be greater than zero." (fun _ => 0) ∧
      ttm 0 0 (some 0) [] [] (some 0) [] [] (some 0) [1, 1] [1, 1] (fun _ => 1) (fun _ => 1)
        (fun _ => 0) = Outcome.raised
        "Error in boost::numeric::ublas::tensor_times_matrix: Contraction mode must be greater than zero." (fun _ => 0)) :=
  ⟨(rank_zero_check_unreachable 1 0 (some 0) (some 0) (some 0) [] [] [] [] [1, 1] [1, 1]
      (fun _ => 1) (fun _ => 1) (fun _ => 0)).2.2.2 ⟨rfl, by decide⟩,
    (rank_zero_check_unreachable 0 0 (some 0) (some 0) (some 0) [] [] [] [] [1, 1] [1, 1]
      (fun _ => 1) (fun _ => 1) (fun _ => 0)).2.2.1 rfl⟩

/-- The trip counts of the nest of `detail::ttm` are the extents of `C`, when `C` has the
extents of `A` away from the mode. -/
theorem ttm_n_eq (m p : Nat) (nc na : List Nat) (hm : m < p)
    (heq : ∀ j, j < p → j ≠ m → na.getD j 0 = nc.getD j 0) (l : Nat) (hl : l < p) :
    ttm_n m nc na l = nc.getD (ttm_axis m l) 0 := by
  unfold ttm_n
  by_cases h2 : l < 2
  · simp [h2]
  · have : ttm_axis m l ≠ m := fun hh => by
      have := (ttm_axis_eq_mode m l).mp hh
      omega
    simp only [if_neg h2]
    exact heq _ (ttm_axis_lt m p l hm hl) this

/-- An index of the nest of `detail::ttm`, level by level, is a multi-index of `C` with the
same offset. -/
theorem ttm_index_of_levels (m p : Nat) (nc wc na : List Nat) (hm : m < p)
    (heq : ∀ j, j < p → j ≠ m → na.getD j 0 = nc.getD j 0) (e : Nat → Nat)
    (he : ∀ l, l < p → e l < ttm_n m nc na l) :
    InBox nc p (fun j => e (ttm_level m j)) ∧
      offset wc p (fun j => e (ttm_level m j)) = lsum (ttm_sc m wc) e p := by
  constructor
  · intro j hj
    have := he (ttm_level m j) (ttm_level_lt m p j hj hm)
    rw [ttm_n_eq m p nc na hm heq _ (ttm_level_lt m p j hj hm), ttm_axis_level] at this
    exact this
  · rw [← lsum_ttm_sc m p wc _ hm]
    refine lsum_congr _ _ _ _ (fun l _ => ?_)
    simp only [ttm_level_axis]

/-- C25: public `ttm` for rank `p ≥ 2` and a mode `1 ≤ m ≤ p` on an input that passes its
checks (non-null pointers, `nc[j] = na[j]` for every axis `j ≠ m-1`, `na[m-1] = nb[1]`,
`nc[m-1] = nb[0]`): the call returns, and every cell of the output buffer whose offset is
not `Σ_j wc[j] * i_j` for a multi-index with `i_j < nc[j]` for all `j < p` holds the same
value after the call as before it. -/
theorem ttm_writes_inside_index_space (m p c a b : Nat) (nc wc na wa nb wb : List Nat)
    (A B C : Mem)
    (hp : 2 ≤ p) (hm : 1 ≤ m) (hmp : m ≤ p)
    (hna : na.length = p) (hwa : wa.length = p) (hnc : nc.length = p) (hwc : wc.length = p)
    (hnb : nb.length = 2) (hwb : wb.length = 2)
    (heq : ∀ j, j < p → j ≠ m - 1 → na.getD j 0 = nc.getD j 0)
    (h1 : na.getD (m - 1) 0 = nb.getD 1 0) (h0 : nc.getD (m - 1) 0 = nb.getD 0 0) :
    ∃ C1, ttm m p (some c) nc wc (some a) na wa (some b) nb wb A B C = Outcome.returned C1 ∧
      ∀ x, (∀ i, InBox nc p i → x ≠ c + offset wc p i) → C1 x = C x := by
  obtain ⟨C1, hC1, hC1x⟩ := ttm_returns m p c a b nc wc na wa nb wb A B C hp hm hmp hna hwa
    hnc hwc hnb hwb heq h1 h0
  have hm1 : m - 1 < p := by omega
  refine ⟨C1, hC1, fun x hx => ?_⟩
  rw [hC1x x, nestD_frame _ _ _ _ _ p c a b x (fun e he => ?_), add_zero]
  obtain ⟨hbox, hoff⟩ := ttm_index_of_levels (m - 1) p nc wc na hm1 heq e he
  rw [← hoff]
  exact hx _ hbox

/-- Witness of C25: a 2 x 2 matrix times a 2 x 2 matrix at mode 2, the output with the
strides `{1, 3}` in a buffer filled with 7; the cell at offset 2 is outside the index
space. -/
theorem ttm_writes_inside_index_space_witness :
    ∃ C1, ttm 2 2 (some 0) [2, 2] [1, 3] (some 0) [2, 2] [1, 2] (some 0) [2, 2] [1, 2]
        (fun x => (x : Int) + 1) (fun x => (x : Int) + 1) (fun _ => 7) = Outcome.returned C1 ∧
      ∀ x, (∀ i, InBox [2, 2] 2 i → x ≠ 0 + offset [1, 3] 2 i) → C1 x = (fun _ => 7) x :=
  ttm_writes_inside_index_space 2 2 0 0 0 [2, 2] [1, 3] [2, 2] [1, 2] [2, 2] [1, 2]
    (fun x => (x : Int) + 1) (fun x => (x : Int) + 1) (fun _ => 7)
    (by decide) (by decide) (by decide) rfl rfl rfl rfl rfl rfl
    (by intro j hj hne; have : j = 0 := by omega
        subst this; rfl)
    rfl rfl

/-- The offset of a multi-index, with the term of the axis `m` taken out of the sum. -/
theorem offset_split (w : List Nat) (m p : Nat) (i : Nat → Nat) (hm : m < p) :
    offset w p i = ∑ j in (range p).erase m, w.getD j 0 * i j + w.getD m 0 * i m := by
  unfold offset
  rw [← Finset.add_sum_erase (range p) _ (Finset.mem_range.mpr hm)]
  ring

/-- C24: public `ttm` for rank `p ≥ 2` and a mode `1 ≤ m ≤ p` with the `n x n` identity
matrix for `B`, `n = na[m-1]` (`B[j,k] = 1` if `j = k`, else 0), output extents `nc = na`,
pairwise distinct output offsets and an output that is zero at these offsets: the call
returns and `C[Σ_j wc[j] * i_j] = A[Σ_j wa[j] * i_j]` for every multi-index within
`na`. -/
theorem ttm_identity_is_neutral (m p c a b : Nat) (wc na wa wb : List Nat) (A B C : Mem)
    (hp : 2 ≤ p) (hm : 1 ≤ m) (hmp : m ≤ p)
    (hna : na.length = p) (hwa : wa.length = p) (hwc : wc.length = p) (hwb : wb.length = 2)
    (hid : ∀ j k, j < na.getD (m - 1) 0 → k < na.getD (m - 1) 0 →
      B (b + (wb.getD 0 0 * j + wb.getD 1 0 * k)) = if j = k then 1 else 0)
    (hinj : DistinctOffsets wc na p)
    (hzero : ∀ i, InBox na p i → C (c + offset wc p i) = 0) :
    ∃ C1, ttm m p (some c) na wc (some a) na wa (some b)
        [na.getD (m - 1) 0, na.getD (m - 1) 0] wb A B C = Outcome.returned C1 ∧
      ∀ i, InBox na p i → C1 (c + offset wc p i) = A (a + offset wa p i) := by
  have hm1 : m - 1 < p := by omega
  obtain ⟨C1, hC1, hC1x⟩ := ttm_returns m p c a b na wc na wa
    [na.getD (m - 1) 0, na.getD (m - 1) 0] wb A B C hp hm hmp hna hwa hna hwc rfl hwb
    (fun _ _ _ => rfl) rfl rfl
  refine ⟨C1, hC1, fun i hi => ?_⟩
  have him : i (m - 1) < na.getD (m - 1) 0 := hi (m - 1) hm1
  rw [hC1x, hzero i hi, ttm_nest_value (m - 1) p c a b na wc na wa
    [na.getD (m - 1) 0, na.getD (m - 1) 0] wb A B hm1 (fun _ _ _ => rfl) hinj i hi, zero_add]
  simp only [List.getD_cons_succ, List.getD_cons_zero]
  rw [Finset.sum_eq_single (i (m - 1))]
  · rw [hid _ _ him him, if_pos rfl, mul_one, ← offset_split wa (m - 1) p i hm1]
  · intro k hk hne
    rw [hid _ _ him (Finset.mem_range.mp hk), if_neg (Ne.symm hne), mul_zero]
  · intro hnot
    exact absurd (Finset.mem_range.mpr him) hnot

/-- Witness of C24: a 2 x 2 matrix times the 2 x 2 identity matrix at mode 2 (first-order
strides). -/
theorem ttm_identity_is_neutral_witness :
    ∃ C1, ttm 2 2 (some 0) [2, 2] [1, 2] (some 0) [2, 2] [1, 2] (some 0)
        [([2, 2] : List Nat).getD (2 - 1) 0, ([2, 2] : List Nat).getD (2 - 1) 0] [1, 2]
        (fun x => (x : Int) + 5) (fun x => if x = 0 ∨ x = 3 then 1 else 0) (fun _ => 0)
        = Outcome.returned C1 ∧
      ∀ i, InBox [2, 2] 2 i →
        C1 (0 + offset [1, 2] 2 i) = (fun x : Nat => (x : Int) + 5) (0 + offset [1, 2] 2 i) :=
  ttm_identity_is_neutral 2 2 0 0 0 [1, 2] [2, 2] [1, 2] [1, 2]
    (fun x => (x : Int) + 5) (fun x => if x = 0 ∨ x = 3 then 1 else 0) (fun _ => 0)
    (by decide) (by decide) (by decide) rfl rfl rfl rfl
    (by
      intro j k hj hk
      have hj2 : j < 2 := hj
      have hk2 : k < 2 := hk
      have hjc : j = 0 ∨ j = 1 := by omega
      have hkc : k = 0 ∨ k = 1 := by omega
      rcases hjc with rfl | rfl <;> rcases hkc with rfl | rfl <;> simp)
    distinct_offsets_2x2 (fun _ _ => rfl)

/-- A multi-index of the output of `ttv` with 0 put in at the contracted axis is a
multi-index of the output of `ttm` for a matrix with one row. -/
theorem inBox_insert_zero (na : List Nat) (m p : Nat) (i : Nat → Nat) (hm : m < p)
    (hna : na.length = p) (hi : InBox (na.eraseIdx m) (p - 1) i) :
    InBox (na.set m 1) p (fun j => if j < m then i j else if j = m then 0 else i (j - 1)) := by
  intro j hj
  by_cases h1 : j < m
  · have := hi j (by omega)
    rw [getD_eraseIdx_lt na m j h1] at this
    simp only [if_pos h1]
    rw [getD_set_ne na m j 1 (by omega)]
    exact this
  · by_cases h2 : j = m
    · subst h2
      simp only [if_neg h1, if_true]
      rw [getD_set_eq na j 1 (by omega)]
      exact Nat.zero_lt_one
    · have h3 : m ≤ j - 1 := by omega
      have := hi (j - 1) (by omega)
      rw [getD_eraseIdx_ge na m (j - 1) h3] at this
      have e : j - 1 + 1 = j := by omega
      rw [e] at this
      simp only [if_neg h1, if_neg h2]
      rw [getD_set_ne na m j 1 h2]
      exact this

/-- C23: for rank `p ≥ 3`, a mode `1 ≤ m ≤ p`, extents `na` (all at least 1) and a vector
`b` of length `n = na[m-1]`, public `ttv` and public `ttm` with the `1 x n` matrix
`B[0,k] = b[k]` (`nb = {1, n}`, `wb = {n, 1}`) and the output extents `na` with entry `m-1`
replaced by 1, each on a zero output with pairwise distinct output offsets: both calls
return, and the value `ttv` leaves at the output multi-index `(i_0, ..., i_{p-2})` is the
value `ttm` leaves at the multi-index with 0 put in at position `m-1`. -/
theorem ttv_agrees_with_one_row_ttm (m p c c2 a b : Nat) (nc wc nc2 wc2 na wa wbv : List Nat)
    (A B C C2 : Mem)
    (hp : 3 ≤ p) (hm : 1 ≤ m) (hmp : m ≤ p)
    (hna : na.length = p) (hwa : wa.length = p)
    (hpos : ∀ j, j < p → 1 ≤ na.getD j 0)
    (hnc : nc = na.eraseIdx (m - 1)) (hwc : wc.length = p - 1)
    (hinj : DistinctOffsets wc nc (p - 1))
    (hzero : ∀ i, InBox nc (p - 1) i → C (c + offset wc (p - 1) i) = 0)
    (hnc2 : nc2 = na.set (m - 1) 1) (hwc2 : wc2.length = p)
    (hinj2 : DistinctOffsets wc2 nc2 p)
    (hzero2 : ∀ i, InBox nc2 p i → C2 (c2 + offset wc2 p i) = 0) :
    ∃ C1 C3,
      ttv m p (some c) nc wc (some a) na wa (some b) [na.getD (m - 1) 0, 1] wbv A B C
        = Outcome.returned C1 ∧
      ttm m p (some c2) nc2 wc2 (some a) na wa (some b) [1, na.getD (m - 1) 0]
        [na.getD (m - 1) 0, 1] A B C2 = Outcome.returned C3 ∧
      ∀ i, InBox nc (p - 1) i →
        InBox nc2 p (fun j => if j < m - 1 then i j else if j = m - 1 then 0 else i (j - 1)) ∧
        C1 (c + offset wc (p - 1) i) =
          C3 (c2 + offset wc2 p
            (fun j => if j < m - 1 then i j else if j = m - 1 then 0 else i (j - 1))) := by
  have hm1 : m - 1 < p := by omega
  have heq : ∀ l, l < p - 1 → nc.getD l 0 = na.getD (ttv_axis (m - 1) l) 0 := by
    intro l _
    rw [hnc, getD_eraseIdx]
  have hmax : na.getD (m - 1) 0
      = max (([na.getD (m - 1) 0, 1] : List Nat).getD 0 0)
          (([na.getD (m - 1) 0, 1] : List Nat).getD 1 0) := by
    have := hpos (m - 1) hm1
    simp only [List.getD_cons_zero, List.getD_cons_succ]
    omega
  have heq2 : ∀ j, j < p → j ≠ m - 1 → na.getD j 0 = nc2.getD j 0 := by
    intro j _ hj
    rw [hnc2, getD_set_ne na (m - 1) j 1 hj]
  obtain ⟨C1, hC1, hC1x⟩ := ttv_returns m p c a b nc wc na wa [na.getD (m - 1) 0, 1] wbv A B C
    hp hm hmp hna hwa (by rw [hnc, List.length_eraseIdx_of_lt (by omega), hna]) hwc rfl heq hmax
  obtain ⟨C3, hC3, hC3x⟩ := ttm_returns m p c2 a b nc2 wc2 na wa [1, na.getD (m - 1) 0]
    [na.getD (m - 1) 0, 1] A B C2 (by omega) hm hmp hna hwa
    (by rw [hnc2, List.length_set, hna]) hwc2 rfl rfl heq2 rfl
    (by rw [hnc2, getD_set_eq na (m - 1) 1 (by omega)]; rfl)
  refine ⟨C1, C3, hC1, hC3, fun i hi => ?_⟩
  have hbox : InBox nc2 p
      (fun j => if j < m - 1 then i j else if j = m - 1 then 0 else i (j - 1)) := by
    rw [hnc2]
    exact inBox_insert_zero na (m - 1) p i hm1 hna (by rw [← hnc]; exact hi)
  refine ⟨hbox, ?_⟩
  have e1 : m - 1 + 1 = m := by omega
  have e2 : p - 1 + 1 = p := by omega
  have hsplit := offset_split wa (m - 1) p
    (fun j => if j < m - 1 then i j else if j = m - 1 then 0 else i (j - 1)) hm1
  have hins := offset_insert wa (m - 1) p 0 i hm1
  rw [hsplit] at hins
  simp only [Nat.lt_irrefl, if_false, if_true, Nat.mul_zero, Nat.add_zero, e1] at hins
  rw [hC1x, hzero i hi, ttv_nest_value (m - 1) (p - 1) c a b nc wc na wa A B (by omega) heq
    hinj i hi, hC3x, hzero2 _ hbox, ttm_nest_value (m - 1) p c2 a b nc2 wc2 na wa
    [1, na.getD (m - 1) 0] [na.getD (m - 1) 0, 1] A B hm1 heq2 hinj2 _ hbox, e1, e2, hins]
  simp only [List.getD_cons_succ, List.getD_cons_zero, Nat.lt_irrefl, if_false, if_true,
    Nat.mul_zero, Nat.zero_add, Nat.one_mul, zero_add]
  refine Finset.sum_congr rfl (fun k _ => ?_)
  congr 3
  ring

theorem distinct_offsets_2x1x2 : DistinctOffsets [1, 2, 2] [2, 1, 2] 3 := by
  intro i1 i2 h1 h2 hs j hj
  have a0 := h1 0 (by omega)
  have a1 := h1 1 (by omega)
  have a2 := h1 2 (by omega)
  have b0 := h2 0 (by omega)
  have b1 := h2 1 (by omega)
  have b2 := h2 2 (by omega)
  simp [offset, Finset.sum_range_succ] at hs a0 a1 a2 b0 b1 b2
  have : j = 0 ∨ j = 1 ∨ j = 2 := by omega
  rcases this with rfl | rfl | rfl <;> omega

/-- Witness of C23: a 2 x 2 x 2 tensor (first-order strides) contracted at mode 2 with a
vector of length 2, and with the 1 x 2 matrix of the same elements. -/
theorem ttv_agrees_with_one_row_ttm_witness :
    ∃ C1 C3,
      ttv 2 3 (some 0) [2, 2] [1, 2] (some 0) [2, 2, 2] [1, 2, 4] (some 0)
        [([2, 2, 2] : List Nat).getD (2 - 1) 0, 1] [1, 1]
        (fun x => (x : Int) + 1) (fun x => (x : Int) + 1) (fun _ => 0) = Outcome.returned C1 ∧
      ttm 2 3 (some 0) [2, 1, 2] [1, 2, 2] (some 0) [2, 2, 2] [1, 2, 4] (some 0)
        [1, ([2, 2, 2] : List Nat).getD (2 - 1) 0] [([2, 2, 2] : List Nat).getD (2 - 1) 0, 1]
        (fun x => (x : Int) + 1) (fun x => (x : Int) + 1) (fun _ => 0) = Outcome.returned C3 ∧
      ∀ i, InBox [2, 2] (3 - 1) i →
        InBox [2, 1, 2] 3
          (fun j => if j < 2 - 1 then i j else if j = 2 - 1 then 0 else i (j - 1)) ∧
        C1 (0 + offset [1, 2] (3 - 1) i) =
          C3 (0 + offset [1, 2, 2] 3
            (fun j => if j < 2 - 1 then i j else if j = 2 - 1 then 0 else i (j - 1))) :=
  ttv_agrees_with_one_row_ttm 2 3 0 0 0 0 [2, 2] [1, 2] [2, 1, 2] [1, 2, 2] [2, 2, 2] [1, 2, 4]
    [1, 1] (fun x => (x : Int) + 1) (fun x => (x : Int) + 1) (fun _ => 0) (fun _ => 0)
    (by decide) (by decide) (by decide) rfl rfl
    (by intro j hj; have : j = 0 ∨ j = 1 ∨ j = 2 := by omega
        rcases this with rfl | rfl | rfl <;> simp)
    rfl rfl distinct_offsets_2x2 (fun _ _ => rfl) rfl rfl distinct_offsets_2x1x2
    (fun _ _ => rfl)

/-- Public `ttv` with non-null pointers, a mode `1 ≤ m ≤ p` and extents that pass the two
loops of axis checks: the check of the contracted axis decides between the length error
and the kernel call. -/
theorem ttv_mode_check (m p c a b nb0 nb1 : Nat) (nc wc na wa wb : List Nat) (A B C : Mem)
    (hm0 : m ≠ 0) (hpm : ¬ p < m) (hna : m - 1 < na.length)
    (hd1 : extents_differ na nc 0 (m - 1) 0 = some false)
    (hd2 : extents_differ na nc 1 (p - m) m = some false) :
    (na.getD (m - 1) 0 ≠ max nb0 nb1 →
      ttv m p (some c) nc wc (some a) na wa (some b) [nb0, nb1] wb A B C = Outcome.raised
        "Error in boost::numeric::ublas::tensor_times_vector: Extent of dimension mode of A and b must be equal." C) ∧
    (na.getD (m - 1) 0 = max nb0 nb1 →
      ∃ k, ttv m p (some c) nc wc (some a) na wa (some b) [nb0, nb1] wb A B C
        = Outcome.ofKernel k) := by
  have hp0 : p ≠ 0 := by omega
  constructor
  · intro hmax
    simp only [ttv, if_neg hm0, if_neg hpm, if_neg hp0, hd1, hd2, rd_some na (m - 1) hna,
      List.getElem?_cons_zero, List.getElem?_cons_succ, if_pos hmax]
  · intro hmax
    have hne : ¬ na.getD (m - 1) 0 ≠ max nb0 nb1 := by simpa using hmax
    simp only [ttv, if_neg hm0, if_neg hpm, if_neg hp0, hd1, hd2, rd_some na (m - 1) hna,
      List.getElem?_cons_zero, List.getElem?_cons_succ, if_neg hne]
    split
    · exact ⟨_, rfl⟩
    · split <;> exact ⟨_, rfl⟩

theorem collect_ofKernel_not_length_error (c : Tensor) (k : Option Mem) (msg : String) :
    collect c (Outcome.ofKernel k) ≠ Except.error (Failure.length_error msg) := by
  cases k <;> simp [Outcome.ofKernel, collect]

/-- C22: for a non-empty tensor `A` of rank `p ≥ 2` with extents `na`, a mode
`1 ≤ m ≤ p` and a non-empty vector `b`, the output extents `nc` that
`prod(tensor, vector, m)` builds have length `max(p-1, 2)` and satisfy `na[i] = nc[i]` for
every `i < m-1` and `na[i] = nc[i-1]` for every `m ≤ i < p`.  Hence the `ttv` call with
these extents, the extents `{b.size(), 1}` of `b` and non-null pointers raises if and only
if `b.size() ≠ na[m-1]`, and so does `prod` when the output has elements. -/
theorem prod_vector_extents_pass_checks (F : Layout) (a : Tensor) (b : List Int) (m : Nat)
    (hp : 2 ≤ a.rank) (hm : 1 ≤ m) (hmp : m ≤ a.rank) (hdata : a.data ≠ []) (hb : b ≠ []) :
    ∃ nc, prod_nc a.extents m a.rank 0 0 (List.replicate (max (a.rank - 1) 2) 1)
        = Except.ok nc ∧
      nc.length = max (a.rank - 1) 2 ∧
      (∀ i, i < m - 1 → a.extents.getD i 0 = nc.getD i 0) ∧
      (∀ i, m ≤ i → i < a.rank → a.extents.getD i 0 = nc.getD (i - 1) 0) ∧
      (∀ (c pa pb : Nat) (wc wa wb : List Nat) (A B C : Mem),
        (∃ msg C1, ttv m a.rank (some c) nc wc (some pa) a.extents wa (some pb)
            [b.length, 1] wb A B C = Outcome.raised msg C1)
          ↔ b.length ≠ a.extents.getD (m - 1) 0) ∧
      ((Tensor.filled F nc 0).data ≠ [] →
        ((∃ msg, prod_vector F a b m = Except.error (Failure.length_error msg))
          ↔ b.length ≠ a.extents.getD (m - 1) 0)) := by
  have hm0 : m ≠ 0 := by omega
  have hpm : ¬ a.extents.length < m := by have : m ≤ a.extents.length := hmp; omega
  have hp2 : 2 ≤ a.extents.length := hp
  have hmp1 : m ≤ a.extents.length := hmp
  have hp0 : a.extents.length ≠ 0 := by omega
  have hb0 : b.length ≠ 0 := by
    intro h
    exact hb (List.length_eq_zero.mp h)
  obtain ⟨nc1, hr, hl, hg⟩ := prod_nc_spec a.extents m hmp1 a.extents.length 0 0
    (List.replicate (max (a.extents.length - 1) 2) 1) (by omega) (fun _ => rfl)
    (fun h => absurd h (Nat.not_lt_zero _)) (by rw [List.length_replicate]; omega)
  rw [List.length_replicate] at hl
  have hg1 : ∀ l, l < a.extents.length - 1 →
      nc1.getD l 0 = a.extents.getD (ttv_axis (m - 1) l) 0 := by
    intro l hl1
    rw [hg l, if_pos ⟨Nat.zero_le l, hl1⟩]
  have hlow : ∀ i, i < m - 1 → a.extents.getD i 0 = nc1.getD i 0 := by
    intro i hi
    rw [hg1 i (by omega)]
    simp [ttv_axis, hi]
  have hhigh : ∀ i, m ≤ i → i < a.extents.length →
      a.extents.getD i 0 = nc1.getD (i - 1) 0 := by
    intro i h1 h2
    have hlt : ¬ i - 1 < m - 1 := by omega
    rw [hg1 (i - 1) (by omega)]
    simp only [ttv_axis, if_neg hlt]
    congr 1
    omega
  have hd1 : extents_differ a.extents nc1 0 (m - 1) 0 = some false := by
    refine extents_differ_false a.extents nc1 0 (m - 1) 0
      (fun k hk => ⟨by omega, by omega⟩) ?_
    intro k hk
    simp only [Nat.zero_add, Nat.sub_zero]
    exact hlow k hk
  have hd2 : extents_differ a.extents nc1 1 (a.extents.length - m) m = some false := by
    refine extents_differ_false a.extents nc1 1 (a.extents.length - m) m
      (fun k hk => ⟨by omega, by omega⟩) ?_
    intro k hk
    exact hhigh (m + k) (by omega) (by omega)
  have hmaxb : max b.length 1 = b.length := by omega
  have hcall : ∀ (c pa pb : Nat) (wc wa wb : List Nat) (A B C : Mem),
      ((∃ msg C1, ttv m a.extents.length (some c) nc1 wc (some pa) a.extents wa (some pb)
          [b.length, 1] wb A B C = Outcome.raised msg C1)
        ↔ b.length ≠ a.extents.getD (m - 1) 0) := by
    intro c pa pb wc wa wb A B C
    obtain ⟨hraise, hpass⟩ := ttv_mode_check m a.extents.length c pa pb b.length 1 nc1 wc
      a.extents wa wb A B C hm0 hpm (by omega) hd1 hd2
    rw [hmaxb] at hraise hpass
    constructor
    · rintro ⟨msg, C1, h⟩ heq
      obtain ⟨k, hk⟩ := hpass heq.symm
      rw [hk] at h
      exact ofKernel_not_raised _ _ _ h
    · intro hne
      exact ⟨_, C, hraise (Ne.symm hne)⟩
  refine ⟨nc1, hr, hl, hlow, hhigh, hcall, ?_⟩
  intro hout
  obtain ⟨hraise, hpass⟩ := ttv_mode_check m a.extents.length 0 0 0 b.length 1 nc1
    (strides F nc1) a.extents a.strides [b.length, 1] (view a.data) (view b)
    (view (Tensor.filled F nc1 0).data) hm0 hpm (by omega) hd1 hd2
  rw [hmaxb] at hraise hpass
  have hprod : prod_vector F a b m = collect (Tensor.filled F nc1 0)
      (ttv m a.extents.length (some 0) nc1 (strides F nc1) (some 0) a.extents a.strides
        (some 0) [b.length, 1] [b.length, 1] (view a.data) (view b)
        (view (Tensor.filled F nc1 0).data)) := by
    simp only [prod_vector, Tensor.rank, Tensor.empty, if_neg hm0, if_neg hpm, if_neg hp0,
      isEmpty_of_ne_nil _ hdata, Bool.false_eq_true, if_false, if_neg hb0, hr,
      data_ptr_of_ne_nil _ hdata, data_ptr_of_ne_nil _ hout]
    rfl
  rw [hprod]
  constructor
  · rintro ⟨msg, h⟩ heq
    obtain ⟨k, hk⟩ := hpass heq.symm
    rw [hk] at h
    exact collect_ofKernel_not_length_error _ _ _ h
  · intro hne
    rw [hraise (Ne.symm hne)]
    exact ⟨_, rfl⟩

/-- Witness of C22: a 2 x 3 tensor at mode 2 with a vector of length 2. -/
theorem prod_vector_extents_pass_checks_witness :
    ∃ nc, prod_nc (Tensor.filled Layout.first_order [2, 3] 2).extents 2
        (Tensor.filled Layout.first_order [2, 3] 2).rank 0 0
        (List.replicate (max ((Tensor.filled Layout.first_order [2, 3] 2).rank - 1) 2) 1)
        = Except.ok nc ∧
      nc.length = max ((Tensor.filled Layout.first_order [2, 3] 2).rank - 1) 2 ∧
      (∀ i, i < 2 - 1 →
        (Tensor.filled Layout.first_order [2, 3] 2).extents.getD i 0 = nc.getD i 0) ∧
      (∀ i, 2 ≤ i → i < (Tensor.filled Layout.first_order [2, 3] 2).rank →
        (Tensor.filled Layout.first_order [2, 3] 2).extents.getD i 0 = nc.getD (i - 1) 0) ∧
      (∀ (c pa pb : Nat) (wc wa wb : List Nat) (A B C : Mem),
        (∃ msg C1, ttv 2 (Tensor.filled Layout.first_order [2, 3] 2).rank (some c) nc wc
            (some pa) (Tensor.filled Layout.first_order [2, 3] 2).extents wa (some pb)
            [([1, 1] : List Int).length, 1] wb A B C = Outcome.raised msg C1)
          ↔ ([1, 1] : List Int).length
            ≠ (Tensor.filled Layout.first_order [2, 3] 2).extents.getD (2 - 1) 0) ∧
      ((Tensor.filled Layout.first_order nc 0).data ≠ [] →
        ((∃ msg, prod_vector Layout.first_order (Tensor.filled Layout.first_order [2, 3] 2)
            [1, 1] 2 = Except.error (Failure.length_error msg))
          ↔ ([1, 1] : List Int).length
            ≠ (Tensor.filled Layout.first_order [2, 3] 2).extents.getD (2 - 1) 0)) :=
  prod_vector_extents_pass_checks Layout.first_order
    (Tensor.filled Layout.first_order [2, 3] 2) [1, 1] 2 (by decide) (by decide) (by decide)
    (by decide) (by decide)

/-- The body of `detail::ttv` entered with `(m, r, q)`, `m ≥ 1`: in the base case, where
`ttv_callee` gives no call, it runs the two innermost loops; otherwise every recursive call
it makes, directly for `r = m` or inside the loop over axis `r`, is the call at
`ttv_callee m (r, q)`. -/
theorem detail_ttv_calls_callee (m r q c : Nat) (nc wc : List Nat) (a : Nat)
    (na wa : List Nat) (b : Nat) (A B : Mem) (hm : 1 ≤ m) :
    detail.ttv m r q c nc wc a na wa b A B =
      match ttv_callee m (r, q) with
      | none =>
        cfor na[0]? wc[0]? wa[0]? (fun c a C =>
          cfor na[m]? wa[m]? (some 1) (fun a1 b1 C => some (fma A B c a1 b1 C)) a b C) c a
      | some s =>
        if r = m then detail.ttv m s.1 s.2 c nc wc a na wa b A B
        else cfor na[r]? wc[q]? wa[r]? (fun c a C =>
          detail.ttv m s.1 s.2 c nc wc a na wa b A B C) c a := by
  cases r with
  | zero =>
    have h0 : (0 : Nat) ≠ m := by omega
    rw [ttv_zero_eq m q c nc wc a na wa b A B h0]
    simp only [ttv_callee, if_neg h0, if_true]
  | succ r =>
    rw [ttv_succ_eq]
    by_cases h : r + 1 = m
    · simp only [ttv_callee, if_pos h, size_pred_succ]
    · simp only [ttv_callee, if_neg h, Nat.succ_ne_zero, if_false, size_pred_succ]

/-- The body of `detail::ttv0` entered with `r`: in the base case it runs the two
innermost loops; otherwise the recursive call inside its loop over axis `r` is the call at
`ttv0_callee r`. -/
theorem detail_ttv0_calls_callee (r c : Nat) (nc wc : List Nat) (a : Nat)
    (na wa : List Nat) (b : Nat) (A B : Mem) :
    detail.ttv0 r c nc wc a na wa b A B =
      match ttv0_callee r with
      | none =>
        cfor na[1]? wc[0]? wa[1]? (fun c a C =>
          cfor na[0]? wa[0]? (some 1) (fun a1 b1 C => some (fma A B c a1 b1 C)) a b C) c a
      | some s =>
        cfor na[r]? wc[r - 1]? wa[r]? (fun c a C =>
          detail.ttv0 s c nc wc a na wa b A B C) c a := by
  match r with
  | 0 =>
    funext C
    rw [detail.ttv0]
    · rfl
    · intro r hr; omega
  | 1 =>
    rw [ttv0_one_eq]
    rfl
  | r + 2 =>
    have h : r + 2 > 1 := by omega
    have e : r + 2 - 1 = r + 1 := by omega
    rw [ttv0_succ_eq]
    simp only [ttv0_callee, if_pos h, size_pred_succ, e]

/-- The body of `detail::ttm` entered with `(m, r)`, `m ≥ 1`: in the base case it runs the
three innermost loops; otherwise every recursive call it makes, directly for `r = m` or
inside the loop over axis `r`, is the call at `ttm_callee m r`. -/
theorem detail_ttm_calls_callee (m r c : Nat) (nc wc : List Nat) (a : Nat)
    (na wa : List Nat) (b : Nat) (nb wb : List Nat) (A B : Mem) (hm : 1 ≤ m) :
    detail.ttm m r c nc wc a na wa b nb wb A B =
      match ttm_callee m r with
      | none =>
        cfor nc[0]? wc[0]? wa[0]? (fun c a C =>
          cfor nc[m]? wc[m]? wb[0]? (fun cm b0 C =>
            cfor nb[1]? wa[m]? wb[1]? (fun am b1 C => some (fma A B cm am b1 C)) a b0 C)
            c b C) c a
      | some s =>
        if r = m then detail.ttm m s c nc wc a na wa b nb wb A B
        else cfor na[r]? wc[r]? wa[r]? (fun c a C =>
          detail.ttm m s c nc wc a na wa b nb wb A B C) c a := by
  cases r with
  | zero =>
    have h0 : (0 : Nat) ≠ m := by omega
    rw [ttm_zero_eq m c nc wc a na wa b nb wb A B h0]
    simp only [ttm_callee, if_neg h0, if_true]
  | succ r =>
    rw [ttm_succ_eq]
    by_cases h : r + 1 = m
    · simp only [ttm_callee, if_pos h, size_pred_succ]
    · simp only [ttm_callee, if_neg h, Nat.succ_ne_zero, if_false, size_pred_succ]

/-- The body of `detail::ttm0` entered with `r`: in the base case it runs the three
innermost loops; otherwise the recursive call inside its loop over axis `r` is the call at
`ttm0_callee r`. -/
theorem detail_ttm0_calls_callee (r c : Nat) (nc wc : List Nat) (a : Nat)
    (na wa : List Nat) (b : Nat) (nb wb : List Nat) (A B : Mem) :
    detail.ttm0 r c nc wc a na wa b nb wb A B =
      match ttm0_callee r with
      | none =>
        cfor nc[1]? wc[1]? wa[1]? (fun c a C =>
          cfor nc[0]? wc[0]? wb[0]? (fun cm b0 C =>
            cfor nb[1]? wa[0]? wb[1]? (fun am b1 C => some (fma A B cm am b1 C)) a b0 C)
            c b C) c a
      | some s =>
        cfor na[r]? wc[r]? wa[r]? (fun c a C =>
          detail.ttm0 s c nc wc a na wa b nb wb A B C) c a := by
  match r with
  | 0 =>
    funext C
    rw [detail.ttm0]
    · rfl
    · intro r hr; omega
  | 1 =>
    rw [ttm0_one_eq]
    rfl
  | r + 2 =>
    have h : r + 2 > 1 := by omega
    rw [ttm0_succ_eq]
    simp only [ttm0_callee, if_pos h, size_pred_succ]

/-- Public `ttv` on an input that passes its checks (rank `p ≥ 1`, mode `1 ≤ m ≤ p`):
the call is the call of the kernel it dispatches to, `detail::ttv` from
`(m-1, p-1, p-2)`, `detail::ttv0` from `p-1` or `detail::mtv`. -/
theorem ttv_enters_kernel (m p c a b : Nat) (nc wc na wa nb wb : List Nat) (A B C : Mem)
    (hm : 1 ≤ m) (hmp : m ≤ p)
    (hna : na.length = p) (hnc : nc.length = p - 1) (hnb : nb.length = 2)
    (heq : ∀ l, l < p - 1 → nc.getD l 0 = na.getD (ttv_axis (m - 1) l) 0)
    (hmax : na.getD (m - 1) 0 = max (nb.getD 0 0) (nb.getD 1 0)) :
    ttv m p (some c) nc wc (some a) na wa (some b) nb wb A B C =
      Outcome.ofKernel
        (if m ≠ 1 ∧ p > 2 then detail.ttv (m - 1) (p - 1) (p - 2) c nc wc a na wa b A B C
         else if m = 1 ∧ p > 2 then detail.ttv0 (p - 1) c nc wc a na wa b A B C
         else detail.mtv (m - 1) c nc wc a na wa b A B C) := by
  have hm0 : m ≠ 0 := by omega
  have hpm : ¬ p < m := by omega
  have hp0 : p ≠ 0 := by omega
  have hd1 : extents_differ na nc 0 (m - 1) 0 = some false := by
    refine extents_differ_false na nc 0 (m - 1) 0 (fun k hk => ⟨by omega, by omega⟩) ?_
    intro k hk
    simp only [Nat.zero_add, Nat.sub_zero]
    rw [heq k (by omega)]
    simp [ttv_axis, hk]
  have hd2 : extents_differ na nc 1 (p - m) m = some false := by
    refine extents_differ_false na nc 1 (p - m) m (fun k hk => ⟨by omega, by omega⟩) ?_
    intro k hk
    have hlt : ¬ m + k - 1 < m - 1 := by omega
    rw [heq (m + k - 1) (by omega)]
    simp only [ttv_axis, if_neg hlt]
    congr 1
    omega
  have hne : ¬ na.getD (m - 1) 0 ≠ max (nb.getD 0 0) (nb.getD 1 0) := by simpa using hmax
  simp only [ttv, if_neg hm0, if_neg hpm, if_neg hp0, hd1, hd2, rd_some nb 0 (by omega),
    rd_some nb 1 (by omega), rd_some na (m - 1) (by omega), if_neg hne]
  split
  · rfl
  · split <;> rfl

/-- Public `ttm` on an input that passes its checks (rank `p ≥ 1`, mode `1 ≤ m ≤ p`):
the call is the call of the kernel it dispatches to, `detail::ttm` from `(m-1, p-1)` or
`detail::ttm0` from `p-1`. -/
theorem ttm_enters_kernel (m p c a b : Nat) (nc wc na wa nb wb : List Nat) (A B C : Mem)
    (hm : 1 ≤ m) (hmp : m ≤ p)
    (hna : na.length = p) (hnc : nc.length = p) (hnb : nb.length = 2)
    (heq : ∀ j, j < p → j ≠ m - 1 → na.getD j 0 = nc.getD j 0)
    (h1 : na.getD (m - 1) 0 = nb.getD 1 0) (h0 : nc.getD (m - 1) 0 = nb.getD 0 0) :
    ttm m p (some c) nc wc (some a) na wa (some b) nb wb A B C =
      Outcome.ofKernel
        (if m ≠ 1 then detail.ttm (m - 1) (p - 1) c nc wc a na wa b nb wb A B C
         else detail.ttm0 (p - 1) c nc wc a na wa b nb wb A B C) := by
  have hm0 : m ≠ 0 := by omega
  have hpm : ¬ p < m := by omega
  have hp0 : p ≠ 0 := by omega
  have hd1 : extents_differ na nc 0 (m - 1) 0 = some false := by
    refine extents_differ_false na nc 0 (m - 1) 0 (fun k hk => ⟨by omega, by omega⟩) ?_
    intro k hk
    simp only [Nat.zero_add, Nat.sub_zero]
    exact heq k (by omega) (by omega)
  have hd2 : extents_differ na nc 0 (p - m) m = some false := by
    refine extents_differ_false na nc 0 (p - m) m (fun k hk => ⟨by omega, by omega⟩) ?_
    intro k hk
    simp only [Nat.sub_zero]
    exact heq (m + k) (by omega) (by omega)
  have hne1 : ¬ na.getD (m - 1) 0 ≠ nb.getD 1 0 := by simpa using h1
  have hne0 : ¬ nc.getD (m - 1) 0 ≠ nb.getD 0 0 := by simpa using h0
  simp only [ttm, if_neg hm0, if_neg hpm, if_neg hp0, hd1, hd2, rd_some na (m - 1) (by omega),
    rd_some nb 1 (by omega), rd_some nc (m - 1) (by omega), rd_some nb 0 (by omega),
    if_neg hne1, if_neg hne0]
  split <;> rfl

/-- C19 at the failing input: `p = m = 1` with the extents `na = {n}`, `nc = {k}`,
`nb = {k, n}` and non-null pointers.  Public `ttm` passes its checks and enters
`detail::ttm0` at level `p - 1 = 0`.  The recursion is as C19 says: level 0 is the base
case, so for any fuel the activations are the level 0 alone, no recursive call is made and
nothing is decremented.  But the call does not end with a result: the base case runs
`for (i1 = 0; i1 < nc[1]; c += wc[1], a += wa[1], ++i1)`, and `nc[1]` is read past the end
of the extents of `C`, so the trip count of this loop is no extent of the input and the
behaviour of the call is undefined. -/
theorem ttm_rank_one_call_has_no_result (n k c a b fuel : Nat) (wc wa wb : List Nat)
    (A B C : Mem) :
    chain ttm0_callee (fuel + 1) (1 - 1) = [0] ∧
    ttm 1 1 (some c) [k] wc (some a) [n] wa (some b) [k, n] wb A B C
      = Outcome.ofKernel (detail.ttm0 (1 - 1) c [k] wc a [n] wa b [k, n] wb A B C) ∧
    detail.ttm0 (1 - 1) c [k] wc a [n] wa b [k, n] wb A B C
      = cfor ([k] : List Nat)[1]? wc[1]? wa[1]? (fun c a C =>
          cfor ([k] : List Nat)[0]? wc[0]? wb[0]? (fun cm b0 C =>
            cfor ([k, n] : List Nat)[1]? wa[0]? wb[1]? (fun am b1 C =>
              some (fma A B cm am b1 C)) a b0 C) c b C) c a C ∧
    ([k] : List Nat)[1]? = none ∧
    ttm 1 1 (some c) [k] wc (some a) [n] wa (some b) [k, n] wb A B C = Outcome.undefined ∧
    ∀ C1, ttm 1 1 (some c) [k] wc (some a) [n] wa (some b) [k, n] wb A B C
      ≠ Outcome.returned C1 := by
  have hchain : chain ttm0_callee (fuel + 1) (1 - 1) = [0] := by
    simp [chain, ttm0_callee]
  have henter : ttm 1 1 (some c) [k] wc (some a) [n] wa (some b) [k, n] wb A B C
      = Outcome.ofKernel (detail.ttm0 (1 - 1) c [k] wc a [n] wa b [k, n] wb A B C) :=
    ttm_enters_kernel 1 1 c a b [k] wc [n] wa [k, n] wb A B C (Nat.le_refl 1) (Nat.le_refl 1)
      rfl rfl rfl (fun j hj hne => by omega) rfl rfl
  have hbody : detail.ttm0 (1 - 1) c [k] wc a [n] wa b [k, n] wb A B C
      = cfor ([k] : List Nat)[1]? wc[1]? wa[1]? (fun c a C =>
          cfor ([k] : List Nat)[0]? wc[0]? wb[0]? (fun cm b0 C =>
            cfor ([k, n] : List Nat)[1]? wa[0]? wb[1]? (fun am b1 C =>
              some (fma A B cm am b1 C)) a b0 C) c b C) c a C := by
    rw [detail_ttm0_calls_callee]
    rfl
  have hundef : ttm 1 1 (some c) [k] wc (some a) [n] wa (some b) [k, n] wb A B C
      = Outcome.undefined := by
    rw [henter, hbody]
    rfl
  refine ⟨hchain, henter, hbody, rfl, hundef, ?_⟩
  intro C1 h
  rw [hundef] at h
  cases h

/-- C19 at the failing input `na = {3}`, `nc = {2}`, `nb = {2, 3}`, the call that
`prod(A, B, 1)` makes for a tensor of rank 1 with 3 elements and a 2 x 3 matrix: one
activation of `detail::ttm0`, and no result. -/
theorem ttm_rank_one_call_has_no_result_witness :
    chain ttm0_callee 10 (1 - 1) = [0] ∧
    ttm 1 1 (some 0) [2] [1] (some 0) [3] [1] (some 0) [2, 3] [1, 2]
        (fun _ => 1) (fun _ => 1) (fun _ => 0) = Outcome.undefined ∧
    ∀ C1, ttm 1 1 (some 0) [2] [1] (some 0) [3] [1] (some 0) [2, 3] [1, 2]
        (fun _ => 1) (fun _ => 1) (fun _ => 0) ≠ Outcome.returned C1 :=
  ⟨(ttm_rank_one_call_has_no_result 3 2 0 0 0 9 [1] [1] [1, 2]
      (fun _ => 1) (fun _ => 1) (fun _ => 0)).1,
    (ttm_rank_one_call_has_no_result 3 2 0 0 0 9 [1] [1] [1, 2]
      (fun _ => 1) (fun _ => 1) (fun _ => 0)).2.2.2.2.1,
    (ttm_rank_one_call_has_no_result 3 2 0 0 0 9 [1] [1] [1, 2]
      (fun _ => 1) (fun _ => 1) (fun _ => 0)).2.2.2.2.2⟩

/-- Termination of public `ttm` for rank `p ≥ 2`: on an input that passes the checks the
call returns; it is the call of `detail::ttm` from `(m-1, p-1)` or of `detail::ttm0` from
`p-1`, and the activations that nest from there are the levels `p-1, ..., 0` or
`p-1, ..., 1`, at most `p` of them. -/
theorem ttm_call_terminates (m p c a b fuel : Nat) (nc wc na wa nb wb : List Nat)
    (A B C : Mem)
    (hp : 2 ≤ p) (hm : 1 ≤ m) (hmp : m ≤ p) (hf : p ≤ fuel)
    (hna : na.length = p) (hwa : wa.length = p) (hnc : nc.length = p) (hwc : wc.length = p)
    (hnb : nb.length = 2) (hwb : wb.length = 2)
    (heq : ∀ j, j < p → j ≠ m - 1 → na.getD j 0 = nc.getD j 0)
    (h1 : na.getD (m - 1) 0 = nb.getD 1 0) (h0 : nc.getD (m - 1) 0 = nb.getD 0 0) :
    (∃ C1, ttm m p (some c) nc wc (some a) na wa (some b) nb wb A B C
        = Outcome.returned C1) ∧
    ttm m p (some c) nc wc (some a) na wa (some b) nb wb A B C =
      Outcome.ofKernel
        (if m ≠ 1 then detail.ttm (m - 1) (p - 1) c nc wc a na wa b nb wb A B C
         else detail.ttm0 (p - 1) c nc wc a na wa b nb wb A B C) ∧
    (m ≠ 1 → chain (ttm_callee (m - 1)) fuel (p - 1) = (List.range p).reverse) ∧
    (m = 1 → chain ttm0_callee fuel (p - 1) = (List.range' 1 (p - 1)).reverse) := by
  obtain ⟨C1, hC1, -⟩ := ttm_returns m p c a b nc wc na wa nb wb A B C hp hm hmp hna hwa
    hnc hwc hnb hwb heq h1 h0
  have e1 : p - 1 + 1 = p := by omega
  have e2 : p - 1 = (p - 2) + 1 := by omega
  refine ⟨⟨C1, hC1⟩, ttm_enters_kernel m p c a b nc wc na wa nb wb A B C hm hmp hna hnc hnb
    heq h1 h0, ?_, ?_⟩
  · intro _
    have := chain_ttm (m - 1) (by omega) (p - 1) fuel (by omega)
    rw [e1] at this
    exact this
  · intro _
    rw [ttm0_callee_eq]
    have := chain_ttv0 (p - 2) fuel (by omega)
    rw [← e2] at this
    exact this

/-- Termination of public `ttv` for rank `p ≥ 3`, where it enters a recursive kernel: on
an input that passes the checks the call returns; it is the call of `detail::ttv` from
`(m-1, p-1, p-2)` or of `detail::ttv0` from `p-1`, and the activations that nest from
there are the levels `p-1, ..., 0` or `p-1, ..., 1`, at most `p` of them. -/
theorem ttv_call_terminates (m p c a b fuel : Nat) (nc wc na wa nb wb : List Nat)
    (A B C : Mem)
    (hp : 3 ≤ p) (hm : 1 ≤ m) (hmp : m ≤ p) (hf : p ≤ fuel)
    (hna : na.length = p) (hwa : wa.length = p) (hnc : nc.length = p - 1)
    (hwc : wc.length = p - 1) (hnb : nb.length = 2)
    (heq : ∀ l, l < p - 1 → nc.getD l 0 = na.getD (ttv_axis (m - 1) l) 0)
    (hmax : na.getD (m - 1) 0 = max (nb.getD 0 0) (nb.getD 1 0)) :
    (∃ C1, ttv m p (some c) nc wc (some a) na wa (some b) nb wb A B C
        = Outcome.returned C1) ∧
    ttv m p (some c) nc wc (some a) na wa (some b) nb wb A B C =
      Outcome.ofKernel
        (if m ≠ 1 ∧ p > 2 then detail.ttv (m - 1) (p - 1) (p - 2) c nc wc a na wa b A B C
         else if m = 1 ∧ p > 2 then detail.ttv0 (p - 1) c nc wc a na wa b A B C
         else detail.mtv (m - 1) c nc wc a na wa b A B C) ∧
    (m ≠ 1 → chain (ttv_callee (m - 1)) fuel (p - 1, p - 2)
        = (List.range p).reverse.map (fun r => (r, ttv_q (m - 1) r))) ∧
    (m = 1 → chain ttv0_callee fuel (p - 1) = (List.range' 1 (p - 1)).reverse) := by
  obtain ⟨C1, hC1, -⟩ := ttv_returns m p c a b nc wc na wa nb wb A B C hp hm hmp hna hwa
    hnc hwc hnb heq hmax
  have e1 : p - 1 + 1 = p := by omega
  have e2 : p - 1 = (p - 2) + 1 := by omega
  refine ⟨⟨C1, hC1⟩, ttv_enters_kernel m p c a b nc wc na wa nb wb A B C hm hmp hna hnc hnb
    heq hmax, ?_, ?_⟩
  · intro _
    have hq : ttv_q (m - 1) (p - 1) = p - 2 := by
      have : ¬ p - 1 < m - 1 := by omega
      simp only [ttv_q, if_neg this]
      omega
    have := chain_ttv (m - 1) (by omega) (p - 1) fuel (by omega)
    rw [hq, e1] at this
    exact this
  · intro _
    have := chain_ttv0 (p - 2) fuel (by omega)
    rw [← e2] at this
    exact this

end ublas
